import Mathlib

/-!
# Verification of `codegen/handlers_gen/codegen.go`

A shallow embedding of the handler generator: the settings validator
(`GenSettings.Validate`), the constraint-tag compiler (`TagParser.Parse`), the
code that `main` emits for every parameter field, the dispatch routine it
emits for every API group, and the helper `respondError` it emits once.

Go strings are modelled by `String` (the well-formed UTF-8 ones); the library
functions the program calls on them are defined here on character lists by
structural recursion, so that every definition evaluates.
-/

namespace Codegen

/-! ## The Go library functions the generator calls -/

namespace strings

/-- The pieces of a character list cut at every occurrence of `sep`. -/
def splitChars (sep : Char) : List Char → List (List Char)
  | [] => [[]]
  | c :: cs =>
    if c = sep then [] :: splitChars sep cs
    else
      match splitChars sep cs with
      | [] => [[c]]
      | h :: t => (c :: h) :: t

/-- Go `strings.Split(s, sep)` for a one-character separator: all the
substrings of `s` between separators; the empty string gives `[""]`. -/
def Split (s : String) (sep : Char) : List String :=
  (splitChars sep s.data).map String.mk

/-- The pieces of a character list cut at the first `n - 1` occurrences of
`sep`; the last piece is the unsplit remainder. -/
def splitNChars (sep : Char) : Nat → List Char → List (List Char)
  | 0, _ => []
  | 1, s => [s]
  | _ + 2, [] => [[]]
  | n + 2, c :: cs =>
    if c = sep then [] :: splitNChars sep (n + 1) cs
    else
      match splitNChars sep (n + 2) cs with
      | [] => [[c]]
      | h :: t => (c :: h) :: t

/-- Go `strings.SplitN(s, sep, n)` for a one-character separator and `n ≥ 0`:
at most `n` substrings. -/
def SplitN (s : String) (sep : Char) (n : Nat) : List String :=
  (splitNChars sep n s.data).map String.mk

/-- Go `strings.Join(elems, sep)` on character lists. -/
def joinChars (sep : List Char) : List (List Char) → List Char
  | [] => []
  | [a] => a
  | a :: b :: rest => a ++ sep ++ joinChars sep (b :: rest)

/-- Go `strings.Join(elems, sep)`. -/
def Join (elems : List String) (sep : String) : String :=
  String.mk (joinChars sep.data (elems.map String.data))

/-- ASCII lower-casing, the restriction of Go `strings.ToLower` to ASCII text. -/
def asciiToLower (s : String) : String :=
  String.mk (s.data.map Char.toLower)

/-- ASCII upper-casing, the restriction of Go `strings.ToUpper` to ASCII text. -/
def asciiToUpper (s : String) : String :=
  String.mk (s.data.map Char.toUpper)

end strings

namespace strconv

/-- The value of a run of decimal digits, `none` if another character occurs. -/
def parseDigits : List Char → Nat → Option Nat
  | [], acc => some acc
  | c :: cs, acc =>
    if c.isDigit then parseDigits cs (10 * acc + (c.toNat - 48)) else none

/-- The value of a non-empty run of decimal digits. -/
def parseUnsigned (ds : List Char) : Option Nat :=
  if ds = [] then none else parseDigits ds 0

/-- Go `strconv.Atoi` on a 64-bit platform: an optional sign followed by one
or more decimal digits, the value within the range of `int`; `none` stands for
the error result. -/
def Atoi (s : String) : Option Int :=
  match s.data with
  | [] => none
  | c :: cs =>
    if c = '-' then
      (parseUnsigned cs).bind fun n => if n ≤ 2 ^ 63 then some (-(n : Int)) else none
    else if c = '+' then
      (parseUnsigned cs).bind fun n => if n < 2 ^ 63 then some (n : Int) else none
    else
      (parseUnsigned (c :: cs)).bind fun n => if n < 2 ^ 63 then some (n : Int) else none

end strconv

/-! ## Settings validator -/

/-- Go `GenSettings`. -/
structure GenSettings where
  URL : String
  Method : String
  Auth : Bool
deriving DecidableEq, Repr

/-- Go `http.MethodGet`. -/
def MethodGet : String := "GET"

/-- Go `http.MethodPost`. -/
def MethodPost : String := "POST"

/-- Go `(*GenSettings).Validate`: the settings after the call and the error
returned (`none` for `nil`).  `ParseRequestURI` gives the error of
`url.ParseRequestURI` and `ToUpper` is `strings.ToUpper`. -/
def GenSettings.Validate (ParseRequestURI : String → Option String)
    (ToUpper : String → String) (s : GenSettings) : GenSettings × Option String :=
  match ParseRequestURI s.URL with
  | some err => (s, some err)
  | none =>
    if s.Method = "" then (s, none)
    else
      let s1 := { s with Method := ToUpper s.Method }
      if s1.Method = MethodGet ∨ s1.Method = MethodPost then (s1, none)
      else (s1, some ("unsupport method " ++ s1.Method ++ " to api generate"))

/-! ## Rule compiler -/

def labelRequired : String := "required"
def labelParamName : String := "paramname"
def labelEnum : String := "enum"
def labelDefault : String := "default"
def labelMin : String := "min"
def labelMax : String := "max"

/-- Go map `binaryLabels`, read with the zero value `false` for a missing key. -/
def binaryLabels (key : String) : Bool :=
  if key = labelRequired then false
  else if key = labelParamName then true
  else if key = labelEnum then true
  else if key = labelDefault then true
  else if key = labelMin then true
  else if key = labelMax then true
  else false

/-- Go `TagParser`. -/
structure TagParser where
  Raw : String
  isRequired : Bool := false
  paramName : String := ""
  enum : List String := []
  defaultVal : String := ""
  min : Int := 0
  max : Int := 0
  hasParamName : Bool := false
  hasEnum : Bool := false
  hasDefault : Bool := false
  hasMin : Bool := false
  hasMax : Bool := false
deriving DecidableEq, Repr

/-- The key of a label, `parts[0]` of `strings.SplitN(label, "=", 2)`: the
part before the first `=`. -/
def labelKey (label : String) : String :=
  (strings.SplitN label '=' 2).headD ""

/-- The binary keys of `binaryLabels`, those that must carry a value. -/
def binaryKeys : List String :=
  [labelParamName, labelEnum, labelDefault, labelMin, labelMax]

/-- Every key `(*TagParser).Parse` recognises. -/
def knownKeys : List String :=
  labelRequired :: binaryKeys

/-- One iteration of the loop of `(*TagParser).Parse`: the parser after the
label and the error the iteration returns with, if any. -/
def TagParser.parseLabel (p : TagParser) (label : String) : TagParser × Option String :=
  if label = "" then (p, none)
  else
    let parts := strings.SplitN label '=' 2
    let key := parts.headD ""
    let isBinary := binaryLabels key
    if isBinary && parts.length != 2 then
      (p, some ("label " ++ key ++ " must have a value"))
    else
      let value := if isBinary then parts.getD 1 "" else ""
      if key = labelRequired then ({ p with isRequired := true }, none)
      else if key = labelParamName then ({ p with paramName := value, hasParamName := true }, none)
      else if key = labelEnum then
        ({ p with enum := strings.Split value '|', hasEnum := true }, none)
      else if key = labelDefault then ({ p with defaultVal := value, hasDefault := true }, none)
      else if key = labelMin ∨ key = labelMax then
        match strconv.Atoi value with
        | none => (p, some ("can't convert to int label value " ++ key))
        | some val =>
          if key = labelMin then ({ p with min := val, hasMin := true }, none)
          else ({ p with max := val, hasMax := true }, none)
      else (p, none)

/-- The loop of `(*TagParser).Parse` over the labels: it stops at the first
label that returns an error. -/
def TagParser.parseLabels : List String → TagParser → TagParser × Option String
  | [], p => (p, none)
  | label :: rest, p =>
    match p.parseLabel label with
    | (p1, none) => TagParser.parseLabels rest p1
    | (p1, some err) => (p1, some err)

/-- Go `(*TagParser).Parse`: the parser after the call (it is mutated in
place, also when the call fails) and the error returned (`none` for `nil`). -/
def TagParser.Parse (p : TagParser) : TagParser × Option String :=
  TagParser.parseLabels (strings.Split p.Raw ',') p

/-! ## The code `main` emits for one handler

`main` prints Go text.  The text is a fixed sequence of templates with holes;
a `Fragment` is one filled template, `emitField` mirrors the order in which
`main` prints them, and `Fragment.run` is the behaviour of that Go text. -/

/-- One `fieldName` of one field of the parameter struct, as the loops of
`main` over `structType.Fields.List` and `field.Names` see it: the name, the
identifier of the type, and the `apivalidator` tag (empty when there is none). -/
structure Field where
  Name : String
  fieldType : String
  tag : String
deriving DecidableEq, Repr

/-- One filled template of the handler text.  The arguments are the values
`main` substitutes for the verbs, in the order of the `Fprintf` call. -/
inductive Fragment where
  /-- The `X-Auth` test. -/
  | authGate
  /-- Reading an `int` field: `%sStr := req.FormValue("%s")` with the `Atoi` block. -/
  | formInt (paramName fieldName : String)
  /-- Reading another field: `params.%s = req.FormValue("%s")`. -/
  | formString (fieldName paramName : String)
  /-- The text `if params.%s == 0 { params.%s = %s }`. -/
  | defaultInt (fieldName defaultVal : String)
  /-- The text `if params.%s == "" { params.%s = "%s" }`. -/
  | defaultString (fieldName defaultVal : String)
  /-- The text `if params.%s == 0 { ... "%s must me not empty" ... return }`. -/
  | requiredInt (fieldName paramName : String)
  /-- The text `if params.%s == "" { ... "%s must me not empty" ... return }`. -/
  | requiredString (fieldName paramName : String)
  /-- The text `switch params.%s` with one `case %s:` for every element and the
  `default:` branch that answers `"%s must be one of [%s]"`. -/
  | enumInt (fieldName : String) (cases : List String) (paramName joined : String)
  /-- The same switch with the cases printed as `case "%s":`. -/
  | enumString (fieldName : String) (cases : List String) (paramName joined : String)
  /-- The text `if params.%s < %d { ... "%s must be >= %d" ... return }`. -/
  | minInt (fieldName : String) (min : Int) (paramName : String)
  /-- The text `if len(params.%s) < %d { ... "%s len must be >= %d" ... return }`. -/
  | minLen (fieldName : String) (min : Int) (paramName : String)
  /-- The text `if params.%s > %d { ... "%s must be <= %d" ... return }`. -/
  | maxInt (fieldName : String) (max : Int) (paramName : String)
  /-- The text `if len(params.%s) > %d { ... "%s len must be <= %d" ... return }`. -/
  | maxLen (fieldName : String) (max : Int) (paramName : String)
deriving DecidableEq, Repr

/-- The request key `main` computes for a field: the lower-cased field name,
replaced by `tp.ParamName()` when that is not the empty string. -/
def requestKey (ToLower : String → String) (fieldName : String) (tp : TagParser) : String :=
  if tp.paramName ≠ "" then tp.paramName else ToLower fieldName

/-- The body of the loop of `main` over the field names: the fragments printed
for one field.  The error of `tp.Parse()` is dropped, as in the source.
`ToLower` is `strings.ToLower`. -/
def emitField (ToLower : String → String) (f : Field) : List Fragment :=
  let tp := (TagParser.Parse { Raw := f.tag }).1
  let paramName := requestKey ToLower f.Name tp
  (if f.fieldType = "int" then [Fragment.formInt paramName f.Name]
    else [Fragment.formString f.Name paramName])
  ++ (if tp.hasDefault then
        (if f.fieldType = "int" then [Fragment.defaultInt f.Name tp.defaultVal]
          else [Fragment.defaultString f.Name tp.defaultVal])
      else [])
  ++ (if tp.isRequired then
        (if f.fieldType = "int" then [Fragment.requiredInt f.Name paramName]
          else [Fragment.requiredString f.Name paramName])
      else [])
  ++ (if tp.hasEnum then
        (if f.fieldType = "int" then
            [Fragment.enumInt f.Name tp.enum paramName (strings.Join tp.enum ", ")]
          else [Fragment.enumString f.Name tp.enum paramName (strings.Join tp.enum ", ")])
      else [])
  ++ (if tp.hasMin then
        (if f.fieldType = "int" then [Fragment.minInt f.Name tp.min paramName]
          else [Fragment.minLen f.Name tp.min paramName])
      else [])
  ++ (if tp.hasMax then
        (if f.fieldType = "int" then [Fragment.maxInt f.Name tp.max paramName]
          else [Fragment.maxLen f.Name tp.max paramName])
      else [])

/-- The fragments of one handler, from the auth gate to the last field check.
Between the two, `main` prints `params := T{}`; after them, the call of the
business method. -/
def emitHandler (ToLower : String → String) (settings : GenSettings)
    (fields : List Field) : List Fragment :=
  (if settings.Auth then [Fragment.authGate] else []) ++ fields.flatMap (emitField ToLower)

/-! ### What the Go compiler reads in the holes -/

/-- Characters that stand for themselves inside an interpreted Go string
literal: no control character, no quote, no backslash, no byte order mark. -/
def plainChar (c : Char) : Bool :=
  32 ≤ c.toNat && c.toNat != 34 && c.toNat != 92 && c.toNat != 127 && c.toNat != 65279

/-- The string denoted by the Go literal `"text"`, when `text` is made of
characters that stand for themselves; other texts are outside the model. -/
def goStringLit (text : String) : Option String :=
  if text.data.all plainChar then some text else none

/-- The message of `fmt.Errorf("text")` called without arguments, when the
text has no formatting verb; other texts are outside the model. -/
def goErrorf (text : String) : Option String :=
  if text.data.all (fun c => c != '%') then goStringLit text else none

/-- The digits of a text after an optional sign. -/
def unsignedPart (cs : List Char) : List Char :=
  match cs with
  | [] => []
  | c :: rest => if c = '-' ∨ c = '+' then rest else c :: rest

/-- The value of a sequence of octal digits, `none` when a character is not
one of `0` to `7`. -/
def parseOctal : List Char → Nat → Option Nat
  | [], acc => some acc
  | c :: cs, acc =>
    if '0' ≤ c ∧ c ≤ '7' then parseOctal cs (8 * acc + (c.toNat - '0'.toNat)) else none

/-- A number with the sign of the literal in front of it, when it is in the
range of a 64-bit `int`. -/
def withSign (cs : List Char) (n : Nat) : Option Int :=
  if cs.head? = some '-' then
    if n ≤ 2 ^ 63 then some (-(n : Int)) else none
  else if n < 2 ^ 63 then some (n : Int) else none

/-- The `int` denoted by a signed Go literal, within the range of `int`: a
decimal literal (`0`, or digits that do not start with `0`) denotes the
number `strconv.Atoi` reads, and a literal that starts with `0` and goes on
with octal digits denotes the number written in base 8.  Other texts (`08`,
`0x10`, `1_000`, `abc`) are outside the model. -/
def goIntLit (text : String) : Option Int :=
  match unsignedPart text.data with
  | [] => none
  | [_] => strconv.Atoi text
  | d :: e :: rest =>
    if d = '0' then
      match parseOctal (e :: rest) 0 with
      | some n => withSign text.data n
      | none => none
    else strconv.Atoi text

/-- The character that a backslash followed by the letter `e` stands for in
an interpreted Go string literal. -/
def escapeValue (e : Char) : Option Char :=
  if e = 'a' then some (Char.ofNat 7)
  else if e = 'b' then some (Char.ofNat 8)
  else if e = 't' then some (Char.ofNat 9)
  else if e = 'n' then some (Char.ofNat 10)
  else if e = 'v' then some (Char.ofNat 11)
  else if e = 'f' then some (Char.ofNat 12)
  else if e = 'r' then some (Char.ofNat 13)
  else if e = Char.ofNat 34 then some (Char.ofNat 34)
  else if e = Char.ofNat 92 then some (Char.ofNat 92)
  else none

/-- The characters denoted by the body of an interpreted Go string literal:
a backslash and the letter after it stand for one character, every other
character must stand for itself. -/
def unescape : List Char → Option (List Char)
  | [] => some []
  | [c] => if plainChar c then some [c] else none
  | c :: e :: rest =>
    if c = Char.ofNat 92 then
      match escapeValue e, unescape rest with
      | some v, some vs => some (v :: vs)
      | _, _ => none
    else if plainChar c then
      match unescape (e :: rest) with
      | some vs => some (c :: vs)
      | none => none
    else none

/-- The string denoted by the Go literal `"text"`, with the escape sequences
of one letter read; numeric escapes and texts the compiler refuses are outside
the model.  On a text of characters that stand for themselves it agrees with
`goStringLit`. -/
def goInterpreted (text : String) : Option String :=
  match unescape text.data with
  | some cs => some (String.mk cs)
  | none => none

/-- Whether a character after `%` starts a flag, an argument index, a width
or a precision of a formatting verb. -/
def verbStart (c : Char) : Bool :=
  c == '#' || c == '+' || c == '-' || c == ' ' || c == '[' || c == '*' || c == '.' || c.isDigit

/-- What `fmt` prints for a format when the call has no operands: text is
copied, `%%` prints `%`, a `%` followed by a verb character `v` prints
`%!v(MISSING)`, and a `%` at the end prints `%!(NOVERB)`.  Verbs with flags,
index, width or precision are outside the model. -/
def formatNoArgs : List Char → Option (List Char)
  | [] => some []
  | [c] => if c = '%' then some "%!(NOVERB)".data else some [c]
  | c :: v :: rest =>
    if c = '%' then
      if v = '%' then
        match formatNoArgs rest with
        | some out => some ('%' :: out)
        | none => none
      else if verbStart v then none
      else
        match formatNoArgs rest with
        | some out => some ('%' :: '!' :: v :: ("(MISSING)".data ++ out))
        | none => none
    else
      match formatNoArgs (v :: rest) with
      | some out => some (c :: out)
      | none => none

/-- What `fmt.Errorf` prints for the part of the enum message after the key,
`" must be one of [joined]"`, the joined literals being part of the format. -/
def enumTail (joined : String) : Option String :=
  match goStringLit (" must be one of [" ++ joined ++ "]") with
  | some text =>
    match formatNoArgs text.data with
    | some out => some (String.mk out)
    | none => none
  | none => none

/-- The part of the enum message after the key, as the handler answers it;
where the model does not read the format, the text of the template. -/
def enumText (joined : String) : String :=
  match enumTail joined with
  | some out => out
  | none => " must be one of [" ++ joined ++ "]"

/-- Whether a text is a Go identifier written with ASCII letters, digits and
`_`.  It is asked of `keyStr` only, which is no keyword; identifiers with
other letters are outside the model. -/
def goIdent (text : String) : Bool :=
  match text.data with
  | [] => false
  | c :: cs => (c.isAlpha || c == '_') && cs.all fun d => d.isAlphanum || d == '_'

/-- The literals of a list of holes, when every one of them is read. -/
def readLits {α : Type} (read : String → Option α) : List String → Option (List α)
  | [] => some []
  | t :: ts =>
    match read t, readLits read ts with
    | some v, some vs => some (v :: vs)
    | _, _ => none

/-! ### Requests, parameter records and responses -/

/-- The part of `*http.Request` the emitted code reads: the form values, in
the order `FormValue` looks them up, the `X-Auth` header, path and method. -/
structure Request where
  form : List (String × String)
  xAuth : String := ""
  Path : String := ""
  Method : String := ""
deriving DecidableEq, Repr

/-- Go `req.FormValue(key)`: the first value of the key, or the empty string. -/
def Request.FormValue (req : Request) (key : String) : String :=
  match req.form.lookup key with
  | some v => v
  | none => ""

/-- The parameter record `params`: the `int` fields and the `string` fields,
by field name. -/
structure Params where
  ints : String → Int
  strs : String → String

/-- The record `T{}`: every field at its zero value. -/
def Params.zero : Params := ⟨fun _ => 0, fun _ => ""⟩

/-- The assignment `params.F = v` to an `int` field. -/
def Params.setInt (params : Params) (fieldName : String) (v : Int) : Params :=
  { params with ints := fun g => if g = fieldName then v else params.ints g }

/-- The assignment `params.F = v` to a `string` field. -/
def Params.setStr (params : Params) (fieldName : String) (v : String) : Params :=
  { params with strs := fun g => if g = fieldName then v else params.strs g }

/-- What `respondError(w, ApiError{status, err})` writes: the status and the
`error` member of the envelope. -/
structure Response where
  status : Nat
  error : String
deriving DecidableEq, Repr

/-- Go `http.StatusBadRequest`. -/
def StatusBadRequest : Nat := 400

/-- Go `http.StatusForbidden`. -/
def StatusForbidden : Nat := 403

/-- The behaviour of one fragment: `error r` when it responds with `r` and
returns, `ok params1` when control goes on with the record `params1`. -/
abbrev Step := Request → Params → Except Response Params

/-- The guard `if failed { respondError(w, ApiError{400, msg}); return }`. -/
def rejectIf (failed : Bool) (msg : String) (params : Params) : Except Response Params :=
  if failed then Except.error ⟨StatusBadRequest, msg⟩ else Except.ok params

/-- Go `len(s)` of a string: its length in bytes. -/
def len (s : String) : Int := (s.utf8ByteSize : Int)

/-- The behaviour of the Go text of a fragment, `none` when the Go compiler
refuses the text (a variable `keyStr` that is no identifier, an enum switch
with two cases of the same value) or a hole holds a text the model does not
read. -/
def Fragment.run : Fragment → Option Step
  | .authGate =>
    some fun req params =>
      if req.xAuth ≠ "100500" then Except.error ⟨StatusForbidden, "unauthorized"⟩
      else Except.ok params
  | .formInt paramName fieldName =>
    if goIdent (paramName ++ "Str") then
      match goStringLit paramName, goErrorf (paramName ++ " must be int") with
      | some key, some msg =>
        some fun req params =>
          let str := req.FormValue key
          if str ≠ "" then
            match strconv.Atoi str with
            | none => Except.error ⟨StatusBadRequest, msg⟩
            | some tmp => Except.ok (params.setInt fieldName tmp)
          else Except.ok params
      | _, _ => none
    else none
  | .formString fieldName paramName =>
    match goStringLit paramName with
    | some key => some fun req params => Except.ok (params.setStr fieldName (req.FormValue key))
    | none => none
  | .defaultInt fieldName defaultVal =>
    match goIntLit defaultVal with
    | some d =>
      some fun _ params =>
        Except.ok (if params.ints fieldName = 0 then params.setInt fieldName d else params)
    | none => none
  | .defaultString fieldName defaultVal =>
    match goInterpreted defaultVal with
    | some d =>
      some fun _ params =>
        Except.ok (if params.strs fieldName = "" then params.setStr fieldName d else params)
    | none => none
  | .requiredInt fieldName paramName =>
    match goErrorf (paramName ++ " must me not empty") with
    | some msg => some fun _ params => rejectIf (params.ints fieldName = 0) msg params
    | none => none
  | .requiredString fieldName paramName =>
    match goErrorf (paramName ++ " must me not empty") with
    | some msg => some fun _ params => rejectIf (params.strs fieldName = "") msg params
    | none => none
  | .enumInt fieldName cases paramName joined =>
    match readLits goIntLit cases, goErrorf paramName, enumTail joined with
    | some vals, some key, some tail =>
      if vals.Nodup then
        some fun _ params =>
          rejectIf (!(vals.contains (params.ints fieldName))) (key ++ tail) params
      else none
    | _, _, _ => none
  | .enumString fieldName cases paramName joined =>
    match readLits goStringLit cases, goErrorf paramName, enumTail joined with
    | some vals, some key, some tail =>
      if vals.Nodup then
        some fun _ params =>
          rejectIf (!(vals.contains (params.strs fieldName))) (key ++ tail) params
      else none
    | _, _, _ => none
  | .minInt fieldName min paramName =>
    match goErrorf (paramName ++ " must be >= " ++ toString min) with
    | some msg => some fun _ params => rejectIf (params.ints fieldName < min) msg params
    | none => none
  | .minLen fieldName min paramName =>
    match goErrorf (paramName ++ " len must be >= " ++ toString min) with
    | some msg => some fun _ params => rejectIf (len (params.strs fieldName) < min) msg params
    | none => none
  | .maxInt fieldName max paramName =>
    match goErrorf (paramName ++ " must be <= " ++ toString max) with
    | some msg => some fun _ params => rejectIf (params.ints fieldName > max) msg params
    | none => none
  | .maxLen fieldName max paramName =>
    match goErrorf (paramName ++ " len must be <= " ++ toString max) with
    | some msg => some fun _ params => rejectIf (len (params.strs fieldName) > max) msg params
    | none => none

/-- The behaviour of every fragment of a list, when all of them are read. -/
def readAll : List Fragment → Option (List Step)
  | [] => some []
  | f :: fs =>
    match f.run, readAll fs with
    | some s, some ss => some (s :: ss)
    | _, _ => none

/-- How an invocation of the handler ends, as far as this model follows it:
with one error response, or at the call of the business method. -/
inductive Outcome where
  /-- The handler has called `respondError` and returned. -/
  | respond (r : Response)
  /-- The handler has reached `recv.Method(req.Context(), params)`. -/
  | invoke (params : Params)

/-- Running the fragments in the order of the text: the first one that
responds ends the handler, and after the last one the business method is
called. -/
def runSteps : List Step → Request → Params → Outcome
  | [], _, params => Outcome.invoke params
  | step :: rest, req, params =>
    match step req params with
    | Except.error r => Outcome.respond r
    | Except.ok params1 => runSteps rest req params1

/-- The variable a fragment declares with `:=` in the body of the handler:
`keyStr` for the read of an `int` field. -/
def Fragment.declared : Fragment → Option String
  | .formInt paramName _ => some (paramName ++ "Str")
  | _ => none

/-- The emitted handler as a function of the request, from the record `T{}`
on; `none` when the Go compiler refuses the text (a fragment it refuses, or
two fragments that declare the same variable) or a hole holds a text the
model does not read. -/
def handler (frags : List Fragment) : Option (Request → Outcome) :=
  match readAll frags with
  | some steps =>
    if (frags.filterMap Fragment.declared).Nodup then
      some fun req => runSteps steps req Params.zero
    else none
  | none => none

/-! ## The checks of a field, taken one by one

The emitted handler runs its guards in sequence and returns at the first one
that fails.  The definitions below look at the same checks from the other
side: every check of every field is evaluated on its own, in the order extract,
default substitution, required, enum, min, max, and the failures are listed. -/

/-- The value of a field: an `int` or a `string`. -/
inductive Value where
  | int (n : Int)
  | str (s : String)
deriving DecidableEq, Repr

/-- Whether a value is the zero value of its kind. -/
def Value.isZero : Value → Bool
  | .int n => n == 0
  | .str s => s == ""

/-- The field `name` of a record, read at the kind of the field. -/
def Params.get (params : Params) (isInt : Bool) (name : String) : Value :=
  if isInt then Value.int (params.ints name) else Value.str (params.strs name)

/-- The assignment of a value to the field `name`. -/
def Params.set (params : Params) (name : String) : Value → Params
  | .int n => params.setInt name n
  | .str s => params.setStr name s

/-- Step a, extract: the value a field takes from its raw form value; an
`int` field whose text is empty or does not parse stays at zero. -/
def extracted (isInt : Bool) (raw : String) : Value :=
  if isInt then Value.int ((strconv.Atoi raw).getD 0) else Value.str raw

/-- Step b, default substitution: a zero value is replaced by the default of
the rule, if it has one; the default is the value the Go compiler reads in the
literal that `main` makes of it. -/
def substituted (rule : TagParser) (v : Value) : Value :=
  if rule.hasDefault && v.isZero then
    match v with
    | .int _ => Value.int ((goIntLit rule.defaultVal).getD 0)
    | .str _ => Value.str ((goInterpreted rule.defaultVal).getD rule.defaultVal)
  else v

/-- The value of a field after extraction and default substitution. -/
def fieldValue (isInt : Bool) (rule : TagParser) (raw : String) : Value :=
  substituted rule (extracted isInt raw)

/-- Whether a value equals one of the enum literals: as numbers for an `int`,
as strings for a `string`. -/
def inEnum (v : Value) (enum : List String) : Bool :=
  match v with
  | .int n => enum.any fun lit => goIntLit lit == some n
  | .str s => enum.contains s

/-- What the min and max checks compare with the bound: the number for an
`int`, `len` for a `string`. -/
def measure (v : Value) : Int :=
  match v with
  | .int n => n
  | .str s => len s

/-- The checks of one field, in their fixed order. -/
inductive Check where
  | extract
  | substitute
  | required
  | enum
  | min
  | max
deriving DecidableEq, Repr

/-- The fixed order of the checks of one field. -/
def checkOrder : List Check :=
  [Check.extract, Check.substitute, Check.required, Check.enum, Check.min, Check.max]

/-- The message of a check that fails, `none` when the check passes, is not
part of the rule, or cannot fail; each check is evaluated on its own, from the
raw form value of the field. -/
def Check.failure (key : String) (isInt : Bool) (rule : TagParser) (raw : String) :
    Check → Option String
  | .extract =>
    if isInt && raw != "" && (strconv.Atoi raw).isNone then some (key ++ " must be int")
    else none
  | .substitute => none
  | .required =>
    if rule.isRequired && (fieldValue isInt rule raw).isZero then
      some (key ++ " must me not empty")
    else none
  | .enum =>
    if rule.hasEnum && !(inEnum (fieldValue isInt rule raw) rule.enum) then
      some (key ++ enumText (strings.Join rule.enum ", "))
    else none
  | .min =>
    if rule.hasMin && decide (measure (fieldValue isInt rule raw) < rule.min) then
      some (key ++ (if isInt then " must be >= " else " len must be >= ") ++ toString rule.min)
    else none
  | .max =>
    if rule.hasMax && decide (measure (fieldValue isInt rule raw) > rule.max) then
      some (key ++ (if isInt then " must be <= " else " len must be <= ") ++ toString rule.max)
    else none

/-- The rule `main` works with for a field: the parser after `tp.Parse()`. -/
def Field.rule (f : Field) : TagParser :=
  (TagParser.Parse { Raw := f.tag }).1

/-- Whether `main` treats the field as an `int`. -/
def Field.isInt (f : Field) : Bool :=
  decide (f.fieldType = "int")

/-- The request key of a field. -/
def Field.key (ToLower : String → String) (f : Field) : String :=
  requestKey ToLower f.Name f.rule

/-- The messages of the checks of one field that fail on a request, in the
order of the checks. -/
def fieldFailures (ToLower : String → String) (req : Request) (f : Field) : List String :=
  checkOrder.filterMap
    (Check.failure (f.key ToLower) f.isInt f.rule (req.FormValue (f.key ToLower)))

/-- The first failure of a request: fields in declaration order, and within a
field the checks in their fixed order. -/
def firstFailure (ToLower : String → String) (fields : List Field) (req : Request) :
    Option String :=
  (fields.flatMap (fieldFailures ToLower req)).head?

/-- The record in which every field holds its value after extraction and
default substitution. -/
def populated (ToLower : String → String) (req : Request) :
    List Field → Params → Params
  | [], params => params
  | f :: rest, params =>
    populated ToLower req rest
      (params.set f.Name (fieldValue f.isInt f.rule (req.FormValue (f.key ToLower))))

/-- The request key as the specification words it: the `paramName` of the
rule if the tag set one, and otherwise the field name lower-cased. -/
def statedKey (ToLower : String → String) (fieldName : String) (rule : TagParser) : String :=
  if rule.hasParamName then rule.paramName else ToLower fieldName

/-- Whether a fragment is one of the guards printed after the default
substitution: a required, enum, min or max check. -/
def Fragment.isCheck : Fragment → Bool
  | .requiredInt _ _ => true
  | .requiredString _ _ => true
  | .enumInt _ _ _ _ => true
  | .enumString _ _ _ _ => true
  | .minInt _ _ _ => true
  | .minLen _ _ _ => true
  | .maxInt _ _ _ => true
  | .maxLen _ _ _ => true
  | _ => false

/-- The length of a string in characters, the measure the specification
names for the min and max checks of a `string` field. -/
def charLength (s : String) : Int := (s.length : Int)

/-! ## The dispatch routine `main` emits for one API group -/

/-- One element of `structMethods[structName]`: the name of the method
(`m.Func.Name.Name`) and its settings, as `Validate` left them. -/
structure MethodInfo where
  Name : String
  Settings : GenSettings
deriving DecidableEq, Repr

/-- One case of the emitted `switch req.URL.Path`: the text `case "%s":`, the
method test `if req.Method != "%s" { ... return }`, printed when
`settings.Method != ""`, and the call `recv.handle%s(w, req)`. -/
structure RouteCase where
  URL : String
  methodTest : Option String
  Name : String
deriving DecidableEq, Repr

/-- The loop of `main` over the methods of one group: one case for every
method, in the order of the slice. -/
def emitRouter (methods : List MethodInfo) : List RouteCase :=
  methods.map fun m =>
    { URL := m.Settings.URL,
      methodTest := if m.Settings.Method ≠ "" then some m.Settings.Method else none,
      Name := m.Name }

/-- Go `http.StatusNotFound`. -/
def StatusNotFound : Nat := 404

/-- Go `http.StatusNotAcceptable`. -/
def StatusNotAcceptable : Nat := 406

/-- Go `http.StatusInternalServerError`. -/
def StatusInternalServerError : Nat := 500

/-- How the dispatch routine ends: with an error response of its own, or in
the call `recv.handle<Name>(w, req)` of a handler. -/
inductive RouteOutcome where
  | respond (r : Response)
  | handle (Name : String)
deriving DecidableEq, Repr

/-- A case as the Go compiler reads it: the string constant of the case, the
string constant of the method test, the name of the handler. -/
structure ReadCase where
  path : String
  method : Option String
  Name : String
deriving DecidableEq, Repr

/-- The constants of one case, `none` when a hole holds a text the model does
not read. -/
def RouteCase.read (c : RouteCase) : Option ReadCase :=
  match goStringLit c.URL with
  | none => none
  | some path =>
    match c.methodTest with
    | none => some { path := path, method := none, Name := c.Name }
    | some text =>
      match goStringLit text with
      | none => none
      | some method => some { path := path, method := some method, Name := c.Name }

/-- The constants of all the cases, when every one of them is read. -/
def readCases : List RouteCase → Option (List ReadCase)
  | [] => some []
  | c :: cs =>
    match c.read, readCases cs with
    | some r, some rs => some (r :: rs)
    | _, _ => none

/-- The Go expression switch over the cases: the cases are tried from top to
bottom and the first one whose constant equals the path is taken; its method
test answers 406, or its handler is called; without a match the `default:`
branch answers 404. -/
def dispatch : List ReadCase → Request → RouteOutcome
  | [], _ => RouteOutcome.respond ⟨StatusNotFound, "unknown method"⟩
  | c :: rest, req =>
    if req.Path = c.path then
      match c.method with
      | some method =>
        if req.Method ≠ method then RouteOutcome.respond ⟨StatusNotAcceptable, "bad method"⟩
        else RouteOutcome.handle c.Name
      | none => RouteOutcome.handle c.Name
    else dispatch rest req

/-- The emitted `ServeHTTP` of a group as a function of the request.  It is
`none` when a hole holds a text the model does not read, and when two cases
have the same constant: the Go compilers refuse an expression switch with a
duplicate string constant ("duplicate case"). -/
def router (methods : List MethodInfo) : Option (Request → RouteOutcome) :=
  match readCases (emitRouter methods) with
  | none => none
  | some cases =>
    if (cases.map ReadCase.path).Nodup then some (dispatch cases) else none

/-- The case of a method with its constants taken as written, which is how
the compiler reads a case whenever it reads it. -/
def MethodInfo.readCase (m : MethodInfo) : ReadCase :=
  { path := m.Settings.URL,
    method := if m.Settings.Method ≠ "" then some m.Settings.Method else none,
    Name := m.Name }

/-! ## The emitted helper `respondError` -/

/-- Modelled from the spec: the type `ApiError`, which the emitted code uses
and the package it is generated for declares, is not part of the generator.
The specification calls it a structured error carrying an HTTP status and a
message; the emitted code builds it as `ApiError{HTTPStatus, Err}` and reads
`apiErr.HTTPStatus` and `apiErr.Err.Error()`.  An error value is either such a
struct, with a status and a wrapped error, or an error of another type, given
by the text of its `Error()`. -/
inductive GoError where
  | api (HTTPStatus : Nat) (Err : GoError)
  | other (text : String)
deriving DecidableEq, Repr

/-- Go `err.Error()`.  `apiErrorText` is the method `Error` of `ApiError`,
declared with the type. -/
def GoError.Error (apiErrorText : Nat → GoError → String) : GoError → String
  | .other text => text
  | .api status err => apiErrorText status err

/-- The emitted `respondError(w, err)` for a non-nil `err`, with a bound on
the depth of the calls: the response it writes and the number of recursive
calls it makes, `none` when the bound is reached.  An `ApiError` is answered
with its status and the text of the error it wraps; any other error is passed
on as `ApiError{http.StatusInternalServerError, err}`.  The writer is taken
to accept the response. -/
def respondError (apiErrorText : Nat → GoError → String) :
    Nat → GoError → Option (Response × Nat)
  | 0, _ => none
  | _ + 1, .api status err => some (⟨status, err.Error apiErrorText⟩, 0)
  | fuel + 1, .other text =>
    match respondError apiErrorText fuel (.api StatusInternalServerError (.other text)) with
    | some (r, calls) => some (r, calls + 1)
    | none => none

/-! ## Facts about the library functions -/

theorem splitNChars_two_of_not_mem (sep : Char) (cs : List Char) (h : sep ∉ cs) :
    strings.splitNChars sep 2 cs = [cs] := by
  induction cs with
  | nil => rfl
  | cons c cs ih =>
    have hc : c ≠ sep := fun e => h (by simp [e])
    have hcs : sep ∉ cs := fun e => h (by simp [e])
    simp [strings.splitNChars, hc, ih hcs]

theorem splitNChars_two_append (sep : Char) (a b : List Char) (h : sep ∉ a) :
    strings.splitNChars sep 2 (a ++ sep :: b) = [a, b] := by
  induction a with
  | nil => simp [strings.splitNChars]
  | cons c cs ih =>
    have hc : c ≠ sep := fun e => h (by simp [e])
    have hcs : sep ∉ cs := fun e => h (by simp [e])
    simp [strings.splitNChars, hc, ih hcs]

theorem exists_first_occurrence (sep : Char) (cs : List Char) (h : sep ∈ cs) :
    ∃ a b, cs = a ++ sep :: b ∧ sep ∉ a := by
  induction cs with
  | nil => simp at h
  | cons c cs ih =>
    by_cases hc : c = sep
    · exact ⟨[], cs, by simp [hc], by simp⟩
    · have hmem : sep ∈ cs := by
        rcases List.mem_cons.mp h with e | e
        · exact absurd e.symm hc
        · exact e
      obtain ⟨a, b, hab, ha⟩ := ih hmem
      refine ⟨c :: a, b, by simp [hab], ?_⟩
      intro e
      rcases List.mem_cons.mp e with e | e
      · exact hc e.symm
      · exact ha e

theorem SplitN_two_of_not_mem (label : String) (h : '=' ∉ label.data) :
    strings.SplitN label '=' 2 = [label] := by
  simp [strings.SplitN, splitNChars_two_of_not_mem _ _ h]

theorem SplitN_two_append (key v : String) (h : '=' ∉ key.data) :
    strings.SplitN (key ++ "=" ++ v) '=' 2 = [key, v] := by
  have hd : (key ++ "=" ++ v).data = key.data ++ '=' :: v.data := by
    simp [String.data_append]
  simp [strings.SplitN, hd, splitNChars_two_append _ _ _ h]

theorem SplitN_two_of_mem (label : String) (h : '=' ∈ label.data) :
    ∃ key v, '=' ∉ key.data ∧ label = key ++ "=" ++ v := by
  obtain ⟨a, b, hab, ha⟩ := exists_first_occurrence _ _ h
  refine ⟨String.mk a, String.mk b, ha, ?_⟩
  apply String.ext
  simp [String.data_append, hab]

theorem splitChars_ne_nil (sep : Char) (cs : List Char) : strings.splitChars sep cs ≠ [] := by
  cases cs with
  | nil => simp [strings.splitChars]
  | cons c cs =>
    unfold strings.splitChars
    split_ifs
    · simp
    · split <;> simp

theorem splitChars_cons_ne (sep c : Char) (cs : List Char) (hc : c ≠ sep) :
    ∃ h t, strings.splitChars sep cs = h :: t ∧
      strings.splitChars sep (c :: cs) = (c :: h) :: t := by
  rcases hs : strings.splitChars sep cs with _ | ⟨h, t⟩
  · exact absurd hs (splitChars_ne_nil sep cs)
  · exact ⟨h, t, rfl, by simp [strings.splitChars, hc, hs]⟩

/-- Joining the pieces with the separator gives the text back. -/
theorem joinChars_splitChars (sep : Char) (cs : List Char) :
    strings.joinChars [sep] (strings.splitChars sep cs) = cs := by
  induction cs with
  | nil => rfl
  | cons c cs ih =>
    by_cases hc : c = sep
    · subst hc
      rcases hs : strings.splitChars c cs with _ | ⟨h, t⟩
      · exact absurd hs (splitChars_ne_nil c cs)
      · rw [hs] at ih
        simp [strings.splitChars, hs, strings.joinChars, ih]
    · obtain ⟨h, t, hs, hs2⟩ := splitChars_cons_ne sep c cs hc
      rw [hs2]
      rw [hs] at ih
      cases t with
      | nil =>
        simp only [strings.joinChars] at ih ⊢
        rw [ih]
      | cons b rest =>
        simp only [strings.joinChars] at ih ⊢
        rw [← ih]
        simp

/-- No piece holds the separator. -/
theorem not_mem_of_mem_splitChars (sep : Char) (cs piece : List Char)
    (h : piece ∈ strings.splitChars sep cs) : sep ∉ piece := by
  induction cs generalizing piece with
  | nil =>
    simp [strings.splitChars] at h
    subst h
    simp
  | cons c cs ih =>
    by_cases hc : c = sep
    · subst hc
      simp only [strings.splitChars, if_true, List.mem_cons] at h
      rcases h with h | h
      · subst h; simp
      · exact ih piece h
    · obtain ⟨hd, t, hs, hs2⟩ := splitChars_cons_ne sep c cs hc
      rw [hs2] at h
      rcases List.mem_cons.mp h with h | h
      · subst h
        have := ih hd (by rw [hs]; simp)
        intro e
        rcases List.mem_cons.mp e with e | e
        · exact hc e.symm
        · exact this e
      · exact ih piece (by rw [hs]; simp [h])

theorem splitChars_of_not_mem (sep : Char) (a : List Char) (h : sep ∉ a) :
    strings.splitChars sep a = [a] := by
  induction a with
  | nil => rfl
  | cons c cs ih =>
    have hc : c ≠ sep := fun e => h (by simp [e])
    have hcs : sep ∉ cs := fun e => h (by simp [e])
    simp [strings.splitChars, hc, ih hcs]

theorem splitChars_append (sep : Char) (a b : List Char) (h : sep ∉ a) :
    strings.splitChars sep (a ++ sep :: b) = a :: strings.splitChars sep b := by
  induction a with
  | nil => simp [strings.splitChars]
  | cons c cs ih =>
    have hc : c ≠ sep := fun e => h (by simp [e])
    have hcs : sep ∉ cs := fun e => h (by simp [e])
    simp [strings.splitChars, hc, ih hcs]

/-- Splitting a join of separator-free pieces gives the pieces back. -/
theorem splitChars_joinChars (sep : Char) (l : List (List Char)) (hne : l ≠ [])
    (h : ∀ x ∈ l, sep ∉ x) :
    strings.splitChars sep (strings.joinChars [sep] l) = l := by
  induction l with
  | nil => exact absurd rfl hne
  | cons a rest ih =>
    cases rest with
    | nil =>
      simp only [strings.joinChars]
      exact splitChars_of_not_mem sep a (h a (by simp))
    | cons b rest =>
      simp only [strings.joinChars, List.append_assoc, List.singleton_append]
      rw [splitChars_append sep a _ (h a (by simp))]
      rw [ih (by simp) (fun x hx => h x (by simp [hx]))]

theorem Join_Split (s : String) (sep : Char) :
    strings.Join (strings.Split s sep) (String.singleton sep) = s := by
  apply String.ext
  simp only [strings.Join, strings.Split, List.map_map]
  have : (String.data ∘ String.mk) = (id : List Char → List Char) := by
    funext x; rfl
  rw [this, List.map_id]
  exact joinChars_splitChars sep s.data

theorem not_mem_of_mem_Split (s piece : String) (sep : Char)
    (h : piece ∈ strings.Split s sep) : sep ∉ piece.data := by
  simp only [strings.Split, List.mem_map] at h
  obtain ⟨cs, hcs, rfl⟩ := h
  exact not_mem_of_mem_splitChars sep s.data cs hcs

theorem Split_Join (l : List String) (sep : Char) (hne : l ≠ [])
    (h : ∀ x ∈ l, sep ∉ x.data) :
    strings.Split (strings.Join l (String.singleton sep)) sep = l := by
  simp only [strings.Split, strings.Join]
  have hs : (String.singleton sep).data = [sep] := rfl
  rw [hs, splitChars_joinChars sep (l.map String.data) (by simpa using hne)
    (by
      intro x hx
      simp only [List.mem_map] at hx
      obtain ⟨y, hy, rfl⟩ := hx
      exact h y hy)]
  rw [List.map_map]
  have : (String.mk ∘ String.data) = (id : String → String) := by
    funext x; rfl
  rw [this, List.map_id]

/-! ## Facts about the rule compiler -/

theorem labelKey_of_not_mem (label : String) (h : '=' ∉ label.data) :
    labelKey label = label := by
  simp [labelKey, SplitN_two_of_not_mem _ h]

theorem labelKey_append (key v : String) (h : '=' ∉ key.data) :
    labelKey (key ++ "=" ++ v) = key := by
  simp [labelKey, SplitN_two_append _ _ h]

theorem append_eq_ne_empty (key v : String) : key ++ "=" ++ v ≠ "" := by
  intro e
  have := congrArg String.data e
  simp [String.data_append] at this

theorem binaryLabels_iff (key : String) : binaryLabels key = true ↔ key ∈ binaryKeys := by
  unfold binaryLabels binaryKeys
  constructor
  · intro h
    split_ifs at h with h1 h2 h3 h4 h5 h6 <;> simp [*]
  · intro h
    simp only [List.mem_cons, List.mem_singleton, List.not_mem_nil, or_false] at h
    rcases h with h | h | h | h | h <;> subst h <;> decide

/-- The loop body on a label without `=`. -/
theorem parseLabel_bare (p : TagParser) (label : String) (hne : label ≠ "")
    (h : '=' ∉ label.data) :
    p.parseLabel label =
      if binaryLabels label then (p, some ("label " ++ label ++ " must have a value"))
      else if label = labelRequired then ({ p with isRequired := true }, none)
      else (p, none) := by
  unfold TagParser.parseLabel
  simp only [hne, if_false, SplitN_two_of_not_mem _ h, List.headD_cons, List.length_singleton]
  by_cases hb : binaryLabels label = true
  · simp [hb]
  · have hb2 : binaryLabels label = false := by simpa using hb
    have hk : label ∉ binaryKeys := fun e => hb ((binaryLabels_iff _).mpr e)
    simp only [binaryKeys, List.mem_cons, List.mem_singleton, List.not_mem_nil, or_false,
      not_or] at hk
    simp [hb2, hk]

/-- The loop body on a label `key=v`. -/
theorem parseLabel_kv (p : TagParser) (key v : String) (h : '=' ∉ key.data) :
    p.parseLabel (key ++ "=" ++ v) =
      if key = labelRequired then ({ p with isRequired := true }, none)
      else if key = labelParamName then ({ p with paramName := v, hasParamName := true }, none)
      else if key = labelEnum then
        ({ p with enum := strings.Split v '|', hasEnum := true }, none)
      else if key = labelDefault then ({ p with defaultVal := v, hasDefault := true }, none)
      else if key = labelMin then
        match strconv.Atoi v with
        | none => (p, some ("can't convert to int label value " ++ key))
        | some val => ({ p with min := val, hasMin := true }, none)
      else if key = labelMax then
        match strconv.Atoi v with
        | none => (p, some ("can't convert to int label value " ++ key))
        | some val => ({ p with max := val, hasMax := true }, none)
      else (p, none) := by
  unfold TagParser.parseLabel
  simp only [append_eq_ne_empty, if_false, SplitN_two_append _ _ h, List.headD_cons]
  by_cases hb : binaryLabels key = true
  · have hk := (binaryLabels_iff _).mp hb
    simp only [binaryKeys, List.mem_cons, List.mem_singleton, List.not_mem_nil, or_false] at hk
    rcases hk with hk | hk | hk | hk | hk <;> subst hk <;>
      simp [binaryLabels, labelRequired, labelParamName, labelEnum, labelDefault, labelMin,
        labelMax]
  · have hb2 : binaryLabels key = false := by simpa using hb
    have hk : key ∉ binaryKeys := fun e => hb ((binaryLabels_iff _).mpr e)
    simp only [binaryKeys, List.mem_cons, List.mem_singleton, List.not_mem_nil, or_false,
      not_or] at hk
    simp [hb2, hk]

/-- Every label is bare or of the form `key=v`; the empty label is skipped. -/
theorem label_cases (label : String) :
    label = "" ∨ (label ≠ "" ∧ '=' ∉ label.data) ∨
      ∃ key v, '=' ∉ key.data ∧ label = key ++ "=" ++ v := by
  by_cases h : '=' ∈ label.data
  · exact Or.inr (Or.inr (SplitN_two_of_mem label h))
  · by_cases hne : label = ""
    · exact Or.inl hne
    · exact Or.inr (Or.inl ⟨hne, h⟩)

theorem parseLabel_empty (p : TagParser) : p.parseLabel "" = (p, none) := by
  simp [TagParser.parseLabel]

/-- A label whose key is not recognised changes nothing and raises no error. -/
theorem parseLabel_unknown (p : TagParser) (label : String) (h : labelKey label ∉ knownKeys) :
    p.parseLabel label = (p, none) := by
  simp only [knownKeys, binaryKeys, List.mem_cons, List.mem_singleton, List.not_mem_nil,
    or_false, not_or] at h
  rcases label_cases label with h0 | ⟨hne, hb⟩ | ⟨key, v, hk, rfl⟩
  · subst h0; exact parseLabel_empty p
  · rw [labelKey_of_not_mem _ hb] at h
    rw [parseLabel_bare p label hne hb]
    have hbin : binaryLabels label = false := by
      simp [binaryLabels, h]
    simp [hbin, h]
  · rw [labelKey_append _ _ hk] at h
    rw [parseLabel_kv p key v hk]
    simp [h]

/-- The loop over a concatenation of label lists. -/
theorem parseLabels_append (pre post : List String) (p : TagParser) :
    TagParser.parseLabels (pre ++ post) p =
      match TagParser.parseLabels pre p with
      | (p1, none) => TagParser.parseLabels post p1
      | (p1, some err) => (p1, some err) := by
  induction pre generalizing p with
  | nil => simp [TagParser.parseLabels]
  | cons l ls ih =>
    simp only [List.cons_append, TagParser.parseLabels]
    rcases hstep : p.parseLabel l with ⟨p1, _ | err⟩
    · simpa using ih p1
    · simp

theorem parseLabels_append_ok (pre post : List String) (p p1 : TagParser)
    (h : TagParser.parseLabels pre p = (p1, none)) :
    TagParser.parseLabels (pre ++ post) p = TagParser.parseLabels post p1 := by
  rw [parseLabels_append, h]

theorem parseLabels_cons (label : String) (rest : List String) (p : TagParser) :
    TagParser.parseLabels (label :: rest) p =
      match p.parseLabel label with
      | (p1, none) => TagParser.parseLabels rest p1
      | (p1, some err) => (p1, some err) := rfl

/-- The loop body never touches `Raw` and does not depend on it. -/
theorem parseLabel_Raw (p : TagParser) (label raw : String) :
    ({ p with Raw := raw } : TagParser).parseLabel label =
      ({ (p.parseLabel label).1 with Raw := raw }, (p.parseLabel label).2) := by
  rcases label_cases label with h0 | ⟨hne, hb⟩ | ⟨key, v, hk, rfl⟩
  · subst h0; simp [parseLabel_empty]
  · simp only [parseLabel_bare _ label hne hb]
    split_ifs <;> rfl
  · simp only [parseLabel_kv _ key v hk]
    split_ifs <;> first | rfl | (cases strconv.Atoi v <;> rfl)

theorem parseLabels_Raw (labels : List String) (p : TagParser) (raw : String) :
    TagParser.parseLabels labels { p with Raw := raw } =
      ({ (TagParser.parseLabels labels p).1 with Raw := raw },
        (TagParser.parseLabels labels p).2) := by
  induction labels generalizing p with
  | nil => rfl
  | cons l ls ih =>
    simp only [parseLabels_cons, parseLabel_Raw]
    rcases hstep : p.parseLabel l with ⟨p1, _ | err⟩
    · simpa using ih p1
    · simp

/-- When the loop fails, it fails at a first label whose predecessors compile. -/
theorem parseLabels_error (labels : List String) (p q : TagParser) (err : String)
    (h : TagParser.parseLabels labels p = (q, some err)) :
    ∃ pre label post p1, labels = pre ++ label :: post ∧
      TagParser.parseLabels pre p = (p1, none) ∧ p1.parseLabel label = (q, some err) := by
  induction labels generalizing p with
  | nil => simp [TagParser.parseLabels] at h
  | cons l ls ih =>
    rw [parseLabels_cons] at h
    rcases hstep : p.parseLabel l with ⟨p1, _ | e⟩
    · rw [hstep] at h
      obtain ⟨pre, label, post, p2, hl, hpre, hlab⟩ := ih p1 h
      refine ⟨l :: pre, label, post, p2, by simp [hl], ?_, hlab⟩
      rw [parseLabels_cons, hstep]
      exact hpre
    · rw [hstep] at h
      simp only [Prod.mk.injEq, Option.some.injEq] at h
      refine ⟨[], l, ls, p, rfl, rfl, ?_⟩
      rw [hstep, h.1, h.2]

theorem must_have_value_inj (a b : String)
    (h : "label " ++ a ++ " must have a value" = "label " ++ b ++ " must have a value") :
    a = b := by
  have hd := congrArg String.data h
  simp only [String.data_append] at hd
  have h1 := List.append_cancel_right hd
  have h2 := List.append_cancel_left h1
  exact String.ext h2

theorem cant_convert_ne (a b : String) :
    "can't convert to int label value " ++ a ≠ "label " ++ b ++ " must have a value" := by
  intro h
  have hd := congrArg String.data h
  simp only [String.data_append] at hd
  have hh := congrArg List.head? hd
  simp at hh

/-- A quantity that every loop iteration on a label of another key keeps is
kept by the loop over labels of other keys. -/
theorem parseLabels_keeps {α : Type} (f : TagParser → α) (key : String)
    (hstep : ∀ (p : TagParser) (l : String), labelKey l ≠ key → f (p.parseLabel l).1 = f p)
    (post : List String) (h : ∀ l ∈ post, labelKey l ≠ key) (p : TagParser) :
    f (TagParser.parseLabels post p).1 = f p := by
  induction post generalizing p with
  | nil => rfl
  | cons l ls ih =>
    have hl : labelKey l ≠ key := h l (by simp)
    have hls : ∀ x ∈ ls, labelKey x ≠ key := fun x hx => h x (by simp [hx])
    rw [parseLabels_cons]
    rcases hs : p.parseLabel l with ⟨p1, _ | e⟩
    · have h1 := hstep p l hl
      rw [hs] at h1
      simp only at h1 ⊢
      rw [ih hls p1, h1]
    · have h1 := hstep p l hl
      rw [hs] at h1
      exact h1

theorem parseLabel_keeps_paramName (p : TagParser) (l : String) (h : labelKey l ≠ labelParamName) :
    ((p.parseLabel l).1.paramName, (p.parseLabel l).1.hasParamName)
      = (p.paramName, p.hasParamName) := by
  rcases label_cases l with h0 | ⟨hne, hb⟩ | ⟨key, v, hk, rfl⟩
  · subst h0; simp [parseLabel_empty]
  · rw [parseLabel_bare p l hne hb]
    split_ifs <;> rfl
  · rw [labelKey_append _ _ hk] at h
    rw [parseLabel_kv p key v hk]
    split_ifs <;> first | rfl | (cases strconv.Atoi v <;> rfl)

theorem parseLabel_keeps_enum (p : TagParser) (l : String) (h : labelKey l ≠ labelEnum) :
    ((p.parseLabel l).1.enum, (p.parseLabel l).1.hasEnum) = (p.enum, p.hasEnum) := by
  rcases label_cases l with h0 | ⟨hne, hb⟩ | ⟨key, v, hk, rfl⟩
  · subst h0; simp [parseLabel_empty]
  · rw [parseLabel_bare p l hne hb]
    split_ifs <;> rfl
  · rw [labelKey_append _ _ hk] at h
    rw [parseLabel_kv p key v hk]
    split_ifs <;> first | rfl | (cases strconv.Atoi v <;> rfl)

theorem parseLabel_keeps_default (p : TagParser) (l : String) (h : labelKey l ≠ labelDefault) :
    ((p.parseLabel l).1.defaultVal, (p.parseLabel l).1.hasDefault)
      = (p.defaultVal, p.hasDefault) := by
  rcases label_cases l with h0 | ⟨hne, hb⟩ | ⟨key, v, hk, rfl⟩
  · subst h0; simp [parseLabel_empty]
  · rw [parseLabel_bare p l hne hb]
    split_ifs <;> rfl
  · rw [labelKey_append _ _ hk] at h
    rw [parseLabel_kv p key v hk]
    split_ifs <;> first | rfl | (cases strconv.Atoi v <;> rfl)

theorem parseLabel_keeps_min (p : TagParser) (l : String) (h : labelKey l ≠ labelMin) :
    ((p.parseLabel l).1.min, (p.parseLabel l).1.hasMin) = (p.min, p.hasMin) := by
  rcases label_cases l with h0 | ⟨hne, hb⟩ | ⟨key, v, hk, rfl⟩
  · subst h0; simp [parseLabel_empty]
  · rw [parseLabel_bare p l hne hb]
    split_ifs <;> rfl
  · rw [labelKey_append _ _ hk] at h
    rw [parseLabel_kv p key v hk]
    split_ifs <;> first | rfl | (cases strconv.Atoi v <;> rfl)

theorem parseLabel_keeps_max (p : TagParser) (l : String) (h : labelKey l ≠ labelMax) :
    ((p.parseLabel l).1.max, (p.parseLabel l).1.hasMax) = (p.max, p.hasMax) := by
  rcases label_cases l with h0 | ⟨hne, hb⟩ | ⟨key, v, hk, rfl⟩
  · subst h0; simp [parseLabel_empty]
  · rw [parseLabel_bare p l hne hb]
    split_ifs <;> rfl
  · rw [labelKey_append _ _ hk] at h
    rw [parseLabel_kv p key v hk]
    split_ifs <;> first | rfl | (cases strconv.Atoi v <;> rfl)

/-- C4. `Parse` returns the error "label <key> must have a value" exactly when
the first label that fails to compile is one of the binary keys paramname,
enum, default, min, max written bare; the label it is returned for is the key
itself and holds no `=`. -/
theorem Parse_must_have_value_iff (raw key : String) :
    (TagParser.Parse { Raw := raw }).2 = some ("label " ++ key ++ " must have a value") ↔
      ∃ pre post, strings.Split raw ',' = pre ++ key :: post ∧
        (TagParser.parseLabels pre { Raw := raw }).2 = none ∧
        key ∈ binaryKeys ∧ '=' ∉ key.data := by
  constructor
  · intro h
    rcases hP : TagParser.Parse { Raw := raw } with ⟨q, e⟩
    rw [hP] at h
    simp only at h
    subst h
    obtain ⟨pre, label, post, p1, hl, hpre, hlab⟩ := parseLabels_error _ _ _ _ hP
    rcases label_cases label with h0 | ⟨hne, hb⟩ | ⟨k, v, hk, rfl⟩
    · subst h0
      simp [parseLabel_empty] at hlab
    · rw [parseLabel_bare p1 label hne hb] at hlab
      by_cases hbin : binaryLabels label = true
      · simp only [hbin, if_true, Prod.mk.injEq, Option.some.injEq] at hlab
        have hkey : label = key := must_have_value_inj _ _ hlab.2
        subst hkey
        exact ⟨pre, post, hl, by rw [hpre], (binaryLabels_iff _).mp hbin, hb⟩
      · have hb2 : binaryLabels label = false := by simpa using hbin
        rw [hb2] at hlab
        simp only [Bool.false_eq_true, if_false] at hlab
        split_ifs at hlab <;> simp at hlab
    · rw [parseLabel_kv p1 k v hk] at hlab
      split_ifs at hlab
      all_goals first
        | (cases hA : strconv.Atoi v <;> rw [hA] at hlab <;>
            simp only [Prod.mk.injEq, Option.some.injEq, reduceCtorEq, and_false] at hlab
           exact absurd hlab.2 (cant_convert_ne _ _))
        | simp at hlab
  · rintro ⟨pre, post, hl, hpre, hkey, hb⟩
    rcases hp : TagParser.parseLabels pre { Raw := raw } with ⟨p1, e⟩
    rw [hp] at hpre
    simp only at hpre
    subst hpre
    have hne : key ≠ "" := by
      intro e
      subst e
      revert hkey
      decide
    unfold TagParser.Parse
    rw [hl, parseLabels_append_ok _ _ _ _ hp, parseLabels_cons, parseLabel_bare p1 key hne hb]
    simp [(binaryLabels_iff _).mpr hkey]

/-- Witness of the equivalence at the tag `required,enum`, whose second label
is the bare key `enum`. -/
theorem Parse_must_have_value_witness :
    (TagParser.Parse { Raw := "required,enum" }).2 = some ("label " ++ "enum" ++ " must have a value") :=
  (Parse_must_have_value_iff "required,enum" "enum").mpr
    ⟨["required"], [], by decide, by decide, by decide, by decide⟩

/-- The value of a key after the loop is the one its last label wrote. -/
theorem parseLabels_last {α : Type} (f : TagParser → α) (key v : String)
    (hstep : ∀ (p : TagParser) (l : String), labelKey l ≠ key → f (p.parseLabel l).1 = f p)
    (labels pre post : List String) (p0 q : TagParser)
    (hsplit : labels = pre ++ (key ++ "=" ++ v) :: post)
    (hlast : ∀ l ∈ post, labelKey l ≠ key)
    (hok : TagParser.parseLabels labels p0 = (q, none)) :
    ∃ p1, TagParser.parseLabels pre p0 = (p1, none) ∧
      (p1.parseLabel (key ++ "=" ++ v)).2 = none ∧
      f q = f (p1.parseLabel (key ++ "=" ++ v)).1 := by
  subst hsplit
  rw [parseLabels_append] at hok
  rcases hp : TagParser.parseLabels pre p0 with ⟨p1, _ | e⟩
  · rw [hp] at hok
    simp only [parseLabels_cons] at hok
    rcases hs : p1.parseLabel (key ++ "=" ++ v) with ⟨p2, _ | e⟩
    · rw [hs] at hok
      simp only at hok
      refine ⟨p1, rfl, by rw [hs], ?_⟩
      have := parseLabels_keeps f key hstep post hlast p2
      rw [hok] at this
      rw [hs]
      exact this
    · rw [hs] at hok
      simp at hok
  · rw [hp] at hok
    simp at hok

/-- C5. After labels that compile, a label `min=v` or `max=v` compiles exactly
when `v` parses as a base-10 integer (`strconv.Atoi`): when it parses to `n`,
the label raises no error and sets the bound present and equal to `n`, and a
tag that compiles as a whole and has no later label of that key ends with that
bound; when it does not parse, `Parse` returns the error that names the key. -/
theorem Parse_bound (raw key v : String) (pre post : List String) (p : TagParser)
    (hkey : key = labelMin ∨ key = labelMax)
    (hsplit : strings.Split raw ',' = pre ++ (key ++ "=" ++ v) :: post)
    (hpre : TagParser.parseLabels pre { Raw := raw } = (p, none)) :
    match strconv.Atoi v with
    | some n =>
      p.parseLabel (key ++ "=" ++ v) =
          (if key = labelMin then { p with min := n, hasMin := true }
            else { p with max := n, hasMax := true }, none) ∧
        ∀ q, TagParser.Parse { Raw := raw } = (q, none) → (∀ l ∈ post, labelKey l ≠ key) →
          if key = labelMin then q.hasMin = true ∧ q.min = n
          else q.hasMax = true ∧ q.max = n
    | none =>
      TagParser.Parse { Raw := raw } = (p, some ("can't convert to int label value " ++ key)) := by
  have hk : '=' ∉ key.data := by
    rcases hkey with h | h <;> subst h <;> decide
  cases hA : strconv.Atoi v with
  | none =>
    simp only
    unfold TagParser.Parse
    rw [hsplit, parseLabels_append_ok _ _ _ _ hpre, parseLabels_cons, parseLabel_kv p key v hk]
    rcases hkey with h | h <;> subst h <;>
      simp [hA, labelMin, labelMax, labelRequired, labelParamName, labelEnum, labelDefault]
  | some n =>
    simp only
    have hstep : p.parseLabel (key ++ "=" ++ v) =
        (if key = labelMin then { p with min := n, hasMin := true }
          else { p with max := n, hasMax := true }, none) := by
      rw [parseLabel_kv p key v hk]
      rcases hkey with h | h <;> subst h <;>
        simp [hA, labelMin, labelMax, labelRequired, labelParamName, labelEnum, labelDefault]
    refine ⟨hstep, ?_⟩
    intro q hq hlast
    unfold TagParser.Parse at hq
    rcases hkey with h | h
    · subst h
      obtain ⟨p1, hp1, _, hf⟩ := parseLabels_last (fun t => (t.min, t.hasMin)) labelMin v
        (fun t l hl => parseLabel_keeps_min t l hl) _ pre post _ q hsplit hlast hq
      rw [hpre] at hp1
      simp only [Prod.mk.injEq, and_true] at hp1
      subst hp1
      rw [hstep] at hf
      simp only [if_true, Prod.mk.injEq] at hf ⊢
      exact ⟨hf.2, hf.1⟩
    · subst h
      obtain ⟨p1, hp1, _, hf⟩ := parseLabels_last (fun t => (t.max, t.hasMax)) labelMax v
        (fun t l hl => parseLabel_keeps_max t l hl) _ pre post _ q hsplit hlast hq
      rw [hpre] at hp1
      simp only [Prod.mk.injEq, and_true] at hp1
      subst hp1
      rw [hstep] at hf
      have hne : labelMax ≠ labelMin := by decide
      simp only [hne, if_false, Prod.mk.injEq] at hf ⊢
      exact ⟨hf.2, hf.1⟩

/-- Witness of `Parse_bound` where the bound parses: the tag
`required,min=-12,max=5` at its label `min=-12`. -/
theorem Parse_bound_witness :
    ({ Raw := "required,min=-12,max=5", isRequired := true } : TagParser).parseLabel "min=-12" =
        ({ Raw := "required,min=-12,max=5", isRequired := true, min := -12, hasMin := true },
          none) ∧
      ∀ q, TagParser.Parse { Raw := "required,min=-12,max=5" } = (q, none) →
        (∀ l ∈ ["max=5"], labelKey l ≠ "min") → q.hasMin = true ∧ q.min = -12 :=
  Parse_bound "required,min=-12,max=5" "min" "-12" ["required"] ["max=5"]
    { Raw := "required,min=-12,max=5", isRequired := true }
    (Or.inl (by decide)) (by decide) (by decide)

/-- The tag `required,min=abc,max=5`: the error names `min`, and the flag
set before the failing label stays set. -/
theorem Parse_min_abc :
    TagParser.Parse { Raw := "required,min=abc,max=5" } =
      ({ Raw := "required,min=abc,max=5", isRequired := true },
        some "can't convert to int label value min") := by
  decide

/-- C6. In a tag that compiles and whose last enum label is `enum=s`, the enum
list of the rule is `s` split on `|`: its elements hold no `|` and, joined by
`|` in their order, give `s` back, so nothing is dropped, merged or reordered. -/
theorem Parse_enum (raw s : String) (pre post : List String) (q : TagParser)
    (hsplit : strings.Split raw ',' = pre ++ (labelEnum ++ "=" ++ s) :: post)
    (hlast : ∀ l ∈ post, labelKey l ≠ labelEnum)
    (hok : TagParser.Parse { Raw := raw } = (q, none)) :
    q.hasEnum = true ∧ q.enum = strings.Split s '|' ∧
      strings.Join q.enum "|" = s ∧ ∀ e ∈ q.enum, '|' ∉ e.data := by
  have hk : '=' ∉ labelEnum.data := by decide
  unfold TagParser.Parse at hok
  obtain ⟨p1, _, _, hf⟩ := parseLabels_last (fun t => (t.enum, t.hasEnum)) labelEnum s
    (fun t l hl => parseLabel_keeps_enum t l hl) _ pre post _ q hsplit hlast hok
  rw [parseLabel_kv p1 labelEnum s hk] at hf
  simp [labelEnum, labelRequired, labelParamName] at hf
  obtain ⟨he, hh⟩ := hf
  refine ⟨hh, he, ?_, ?_⟩
  · rw [he]
    exact Join_Split s '|'
  · intro e hmem
    rw [he] at hmem
    exact not_mem_of_mem_Split s e '|' hmem

/-- Witness of `Parse_enum`: the tag `enum=b|a|b,required` keeps the order and
the duplicate. -/
theorem Parse_enum_witness :
    (TagParser.Parse { Raw := "enum=b|a|b,required" }).1.enum = ["b", "a", "b"] ∧
      (true = true ∧ ["b", "a", "b"] = strings.Split "b|a|b" '|' ∧
        strings.Join ["b", "a", "b"] "|" = "b|a|b" ∧
        ∀ e ∈ ["b", "a", "b"], '|' ∉ e.data) :=
  ⟨by decide,
    Parse_enum "enum=b|a|b,required" "b|a|b" [] ["required"]
      { Raw := "enum=b|a|b,required", isRequired := true, enum := ["b", "a", "b"],
        hasEnum := true }
      (by decide) (by decide) (by decide)⟩

/-- Setting the flag first commutes with one loop iteration. -/
theorem parseLabel_isRequired (p : TagParser) (label : String) :
    ({ p with isRequired := true } : TagParser).parseLabel label =
      ({ (p.parseLabel label).1 with isRequired := true }, (p.parseLabel label).2) := by
  rcases label_cases label with h0 | ⟨hne, hb⟩ | ⟨key, v, hk, rfl⟩
  · subst h0; simp [parseLabel_empty]
  · simp only [parseLabel_bare _ label hne hb]
    split_ifs <;> rfl
  · simp only [parseLabel_kv _ key v hk]
    split_ifs <;> first | rfl | (cases strconv.Atoi v <;> rfl)

theorem parseLabels_isRequired (labels : List String) (p : TagParser) :
    TagParser.parseLabels labels { p with isRequired := true } =
      ({ (TagParser.parseLabels labels p).1 with isRequired := true },
        (TagParser.parseLabels labels p).2) := by
  induction labels generalizing p with
  | nil => rfl
  | cons l ls ih =>
    simp only [parseLabels_cons, parseLabel_isRequired]
    rcases hstep : p.parseLabel l with ⟨p1, _ | err⟩
    · simpa using ih p1
    · simp

theorem parseLabel_required (p : TagParser) :
    p.parseLabel labelRequired = ({ p with isRequired := true }, none) := by
  rw [parseLabel_bare p labelRequired (by decide) (by decide)]
  simp [binaryLabels]

/-- The loop on a label list and on the same list without its bare `required`
labels: they compile together, to rules that differ at most in the flag. -/
theorem parseLabels_strip (labels : List String) (p q : TagParser) :
    TagParser.parseLabels labels p = (q, none) ↔
      ∃ q0, TagParser.parseLabels (labels.filter (fun l => l ≠ labelRequired)) p = (q0, none) ∧
        q = if labelRequired ∈ labels then { q0 with isRequired := true } else q0 := by
  induction labels generalizing p q with
  | nil => simp [TagParser.parseLabels, eq_comm]
  | cons l ls ih =>
    by_cases hl : l = labelRequired
    · subst hl
      rw [parseLabels_cons, parseLabel_required]
      simp only [ne_eq, not_true_eq_false, decide_False, Bool.false_eq_true, not_false_eq_true,
        List.filter_cons_of_neg, List.mem_cons, true_or, if_true]
      rw [parseLabels_isRequired]
      constructor
      · intro h
        simp only [Prod.mk.injEq] at h
        rcases hr : TagParser.parseLabels ls p with ⟨r, e⟩
        rw [hr] at h
        simp only at h
        obtain ⟨h1, h2⟩ := h
        subst h2
        obtain ⟨q0, hq0, hr0⟩ := (ih p r).mp hr
        refine ⟨q0, hq0, ?_⟩
        rw [← h1, hr0]
        split_ifs <;> rfl
      · rintro ⟨q0, hq0, rfl⟩
        have := (ih p (if labelRequired ∈ ls then { q0 with isRequired := true } else q0)).mpr
          ⟨q0, hq0, rfl⟩
        rw [this]
        simp only [Prod.mk.injEq, and_true]
        split_ifs <;> rfl
    · have hf : (l :: ls).filter (fun l => l ≠ labelRequired)
          = l :: ls.filter (fun l => l ≠ labelRequired) := by
        simp [hl]
      have hm : (labelRequired ∈ l :: ls) ↔ labelRequired ∈ ls := by
        simp [Ne.symm hl]
      rw [hf, parseLabels_cons, parseLabels_cons]
      rcases hs : p.parseLabel l with ⟨p1, _ | e⟩
      · simp only [hm]
        exact ih p1 q
      · simp

/-- C7. In a tag that compiles, each of the keys paramname, enum, default,
min, max carries the value of its last occurrence, however often the key
occurs before it; and two tags that both hold the flag `required` and agree on
their other labels compile to the same rule, so repeating the flag changes
nothing. -/
theorem Parse_last_wins :
    (∀ (raw key v : String) (pre post : List String) (q : TagParser),
      strings.Split raw ',' = pre ++ (key ++ "=" ++ v) :: post →
      (∀ l ∈ post, labelKey l ≠ key) →
      TagParser.Parse { Raw := raw } = (q, none) →
        (key = labelParamName → q.hasParamName = true ∧ q.paramName = v) ∧
        (key = labelEnum → q.hasEnum = true ∧ q.enum = strings.Split v '|') ∧
        (key = labelDefault → q.hasDefault = true ∧ q.defaultVal = v) ∧
        (key = labelMin → q.hasMin = true ∧ strconv.Atoi v = some q.min) ∧
        (key = labelMax → q.hasMax = true ∧ strconv.Atoi v = some q.max)) ∧
    (∀ (raw1 raw2 : String) (q1 : TagParser),
      labelRequired ∈ strings.Split raw1 ',' →
      labelRequired ∈ strings.Split raw2 ',' →
      (strings.Split raw2 ',').filter (fun l => l ≠ labelRequired) =
        (strings.Split raw1 ',').filter (fun l => l ≠ labelRequired) →
      TagParser.Parse { Raw := raw1 } = (q1, none) →
        TagParser.Parse { Raw := raw2 } = ({ q1 with Raw := raw2 }, none)) := by
  constructor
  · intro raw key v pre post q hsplit hlast hok
    unfold TagParser.Parse at hok
    refine ⟨?_, ?_, ?_, ?_, ?_⟩
    · intro hkey
      subst hkey
      obtain ⟨p1, _, _, hf⟩ := parseLabels_last (fun t => (t.paramName, t.hasParamName))
        labelParamName v (fun t l hl => parseLabel_keeps_paramName t l hl) _ pre post _ q
        hsplit hlast hok
      rw [parseLabel_kv p1 labelParamName v (by decide)] at hf
      simp [labelParamName, labelRequired] at hf
      exact ⟨hf.2, hf.1⟩
    · intro hkey
      subst hkey
      obtain ⟨p1, _, _, hf⟩ := parseLabels_last (fun t => (t.enum, t.hasEnum))
        labelEnum v (fun t l hl => parseLabel_keeps_enum t l hl) _ pre post _ q
        hsplit hlast hok
      rw [parseLabel_kv p1 labelEnum v (by decide)] at hf
      simp [labelEnum, labelParamName, labelRequired] at hf
      exact ⟨hf.2, hf.1⟩
    · intro hkey
      subst hkey
      obtain ⟨p1, _, _, hf⟩ := parseLabels_last (fun t => (t.defaultVal, t.hasDefault))
        labelDefault v (fun t l hl => parseLabel_keeps_default t l hl) _ pre post _ q
        hsplit hlast hok
      rw [parseLabel_kv p1 labelDefault v (by decide)] at hf
      simp [labelDefault, labelEnum, labelParamName, labelRequired] at hf
      exact ⟨hf.2, hf.1⟩
    · intro hkey
      subst hkey
      obtain ⟨p1, _, hnone, hf⟩ := parseLabels_last (fun t => (t.min, t.hasMin))
        labelMin v (fun t l hl => parseLabel_keeps_min t l hl) _ pre post _ q
        hsplit hlast hok
      rw [parseLabel_kv p1 labelMin v (by decide)] at hf hnone
      cases hA : strconv.Atoi v with
      | none =>
        rw [hA] at hnone
        simp [labelMin, labelDefault, labelEnum, labelParamName, labelRequired] at hnone
      | some n =>
        rw [hA] at hf
        simp [labelMin, labelDefault, labelEnum, labelParamName, labelRequired] at hf
        exact ⟨hf.2, by rw [hf.1]⟩
    · intro hkey
      subst hkey
      obtain ⟨p1, _, hnone, hf⟩ := parseLabels_last (fun t => (t.max, t.hasMax))
        labelMax v (fun t l hl => parseLabel_keeps_max t l hl) _ pre post _ q
        hsplit hlast hok
      rw [parseLabel_kv p1 labelMax v (by decide)] at hf hnone
      cases hA : strconv.Atoi v with
      | none =>
        rw [hA] at hnone
        simp [labelMax, labelMin, labelDefault, labelEnum, labelParamName, labelRequired]
          at hnone
      | some n =>
        rw [hA] at hf
        simp [labelMax, labelMin, labelDefault, labelEnum, labelParamName, labelRequired] at hf
        exact ⟨hf.2, by rw [hf.1]⟩
  · intro raw1 raw2 q1 h1 h2 hfil hok
    unfold TagParser.Parse at hok ⊢
    simp only at hok ⊢
    obtain ⟨q0, hq0, hq1⟩ := (parseLabels_strip _ _ _).mp hok
    rw [← hfil] at hq0
    have hraw := parseLabels_Raw ((strings.Split raw2 ',').filter (fun l => l ≠ labelRequired))
      { Raw := raw1 } raw2
    rw [hq0] at hraw
    simp only at hraw
    have := (parseLabels_strip (strings.Split raw2 ',') { Raw := raw2 }
      (if labelRequired ∈ strings.Split raw2 ',' then
        { ({ q0 with Raw := raw2 } : TagParser) with isRequired := true }
        else { q0 with Raw := raw2 })).mpr ⟨_, hraw, rfl⟩
    rw [this, hq1]
    simp [h1, h2]

/-- Witness of `Parse_last_wins`: `min=1,paramname=a,min=7,paramname=b`
compiles to the rule with `min = 7`, the value of the second `min`, and
`required,min=2,required` compiles to the rule of `min=2,required`. -/
theorem Parse_last_wins_witness :
    TagParser.Parse { Raw := "min=1,paramname=a,min=7,paramname=b" } =
        ({ Raw := "min=1,paramname=a,min=7,paramname=b", paramName := "b", min := 7,
            hasParamName := true, hasMin := true }, none) ∧
      (true = true ∧ strconv.Atoi "7" = some 7) ∧
      TagParser.Parse { Raw := "required,min=2,required" } =
        ({ Raw := "required,min=2,required", isRequired := true, min := 2, hasMin := true },
          none) :=
  ⟨by decide,
    (Parse_last_wins.1 "min=1,paramname=a,min=7,paramname=b" "min" "7"
      ["min=1", "paramname=a"] ["paramname=b"]
      { Raw := "min=1,paramname=a,min=7,paramname=b", paramName := "b", min := 7,
        hasParamName := true, hasMin := true }
      (by decide) (by decide) (by decide)).2.2.2.1 (by decide),
    Parse_last_wins.2 "min=2,required" "required,min=2,required"
      { Raw := "min=2,required", isRequired := true, min := 2, hasMin := true }
      (by decide) (by decide) (by decide) (by decide)⟩

/-- Inserting a label that the loop body ignores does not change the loop. -/
theorem parseLabels_insertIdx (label : String)
    (hign : ∀ p : TagParser, p.parseLabel label = (p, none))
    (i : Nat) (labels : List String) (p : TagParser) :
    TagParser.parseLabels (labels.insertIdx i label) p = TagParser.parseLabels labels p := by
  induction i generalizing labels p with
  | zero =>
    rw [List.insertIdx_zero, parseLabels_cons, hign p]
  | succ n ih =>
    cases labels with
    | nil => rw [List.insertIdx_succ_nil]
    | cons l ls =>
      rw [List.insertIdx_succ_cons, parseLabels_cons, parseLabels_cons]
      rcases hs : p.parseLabel l with ⟨p1, _ | e⟩
      · exact ih ls p1
      · rfl

theorem insertIdx_ne_nil (label : String) (i : Nat) (labels : List String)
    (h : labels ≠ []) : labels.insertIdx i label ≠ [] := by
  cases i with
  | zero => simp
  | succ n =>
    cases labels with
    | nil => exact absurd rfl h
    | cons l ls => simp [List.insertIdx_succ_cons]

theorem mem_insertIdx_imp (label x : String) (i : Nat) (labels : List String)
    (h : x ∈ labels.insertIdx i label) : x = label ∨ x ∈ labels := by
  induction i generalizing labels with
  | zero =>
    rw [List.insertIdx_zero] at h
    simpa using h
  | succ n ih =>
    cases labels with
    | nil =>
      rw [List.insertIdx_succ_nil] at h
      exact Or.inr h
    | cons l ls =>
      rw [List.insertIdx_succ_cons] at h
      rcases List.mem_cons.mp h with h | h
      · exact Or.inr (by simp [h])
      · rcases ih ls h with h | h
        · exact Or.inl h
        · exact Or.inr (by simp [h])

/-- C8. A comma-free label whose key is none of required, paramname, enum,
default, min, max can be inserted at any position of the comma-separated tag:
the tag with the label compiles to the same rule, or fails with the same error
in the same state, as the tag without it. -/
theorem Parse_ignores_unknown (raw label : String) (i : Nat)
    (hcomma : ',' ∉ label.data) (hkey : labelKey label ∉ knownKeys) :
    TagParser.Parse { Raw := strings.Join ((strings.Split raw ',').insertIdx i label) "," } =
      ({ (TagParser.Parse { Raw := raw }).1 with
          Raw := strings.Join ((strings.Split raw ',').insertIdx i label) "," },
        (TagParser.Parse { Raw := raw }).2) := by
  have hne : strings.Split raw ',' ≠ [] := by
    simp only [strings.Split, ne_eq, List.map_eq_nil_iff]
    exact splitChars_ne_nil ',' raw.data
  have hsplit : strings.Split
      (strings.Join ((strings.Split raw ',').insertIdx i label) (String.singleton ',')) ','
      = (strings.Split raw ',').insertIdx i label := by
    apply Split_Join _ _ (insertIdx_ne_nil label i _ hne)
    intro x hx
    rcases mem_insertIdx_imp label x i _ hx with h | h
    · rw [h]; exact hcomma
    · exact not_mem_of_mem_Split raw x ',' h
  have hs : (",": String) = String.singleton ',' := rfl
  unfold TagParser.Parse
  simp only
  rw [hs, hsplit, parseLabels_insertIdx label (fun p => parseLabel_unknown p label hkey)]
  exact parseLabels_Raw (strings.Split raw ',') { Raw := raw } _

/-- Witness of `Parse_ignores_unknown`: the label `json=x` inserted as second
label of `required,min=abc`. -/
theorem Parse_ignores_unknown_witness :
    strings.Join ((strings.Split "required,min=abc" ',').insertIdx 1 "json=x") ","
        = "required,json=x,min=abc" ∧
      TagParser.Parse
          { Raw := strings.Join ((strings.Split "required,min=abc" ',').insertIdx 1 "json=x") "," } =
        ({ (TagParser.Parse { Raw := "required,min=abc" }).1 with
            Raw := strings.Join ((strings.Split "required,min=abc" ',').insertIdx 1 "json=x") "," },
          (TagParser.Parse { Raw := "required,min=abc" }).2) :=
  ⟨by decide, Parse_ignores_unknown "required,min=abc" "json=x" 1 (by decide) (by decide)⟩

/-- C9. With a valid url: an empty method passes and stays empty; a non-empty
method is stored upper-cased, and `Validate` fails exactly when the upper-cased
method is neither GET nor POST, with the error that names it as unsupported. -/
theorem Validate_method (ParseRequestURI : String → Option String)
    (ToUpper : String → String) (s : GenSettings)
    (hurl : ParseRequestURI s.URL = none) :
    (s.Method = "" → s.Validate ParseRequestURI ToUpper = (s, none)) ∧
    (s.Method ≠ "" →
      (s.Validate ParseRequestURI ToUpper).1 = { s with Method := ToUpper s.Method } ∧
      ((s.Validate ParseRequestURI ToUpper).2 ≠ none ↔
        (ToUpper s.Method ≠ "GET" ∧ ToUpper s.Method ≠ "POST")) ∧
      ((ToUpper s.Method ≠ "GET" ∧ ToUpper s.Method ≠ "POST") →
        (s.Validate ParseRequestURI ToUpper).2 =
          some ("unsupport method " ++ ToUpper s.Method ++ " to api generate"))) := by
  constructor
  · intro h
    simp [GenSettings.Validate, hurl, h]
  · intro h
    by_cases hm : ToUpper s.Method = "GET" ∨ ToUpper s.Method = "POST"
    · have hn : ¬ (ToUpper s.Method ≠ "GET" ∧ ToUpper s.Method ≠ "POST") := by
        rcases hm with hm | hm <;> simp [hm]
      have hv : s.Validate ParseRequestURI ToUpper = ({ s with Method := ToUpper s.Method }, none) := by
        simp [GenSettings.Validate, hurl, h, MethodGet, MethodPost, hm]
      rw [hv]
      exact ⟨rfl, by simp [hn], fun hc => absurd hc hn⟩
    · have hn : ToUpper s.Method ≠ "GET" ∧ ToUpper s.Method ≠ "POST" := by
        constructor
        · exact fun e => hm (Or.inl e)
        · exact fun e => hm (Or.inr e)
      have hv : s.Validate ParseRequestURI ToUpper = ({ s with Method := ToUpper s.Method },
          some ("unsupport method " ++ ToUpper s.Method ++ " to api generate")) := by
        simp [GenSettings.Validate, hurl, h, MethodGet, MethodPost, hn]
      rw [hv]
      exact ⟨rfl, by simp [hn], fun _ => rfl⟩

/-- Witness of `Validate_method`: the method `post` is stored as `POST`, and
`put` is refused. -/
theorem Validate_method_witness :
    (GenSettings.Validate (fun _ => none) strings.asciiToUpper ⟨"/user/create", "post", true⟩
        = (⟨"/user/create", "POST", true⟩, none)) ∧
      (GenSettings.Validate (fun _ => none) strings.asciiToUpper ⟨"/user/create", "put", true⟩).2
        = some "unsupport method PUT to api generate" :=
  ⟨by decide,
    ((Validate_method (fun _ => none) strings.asciiToUpper ⟨"/user/create", "put", true⟩
      rfl).2 (by decide)).2.2 (by decide)⟩

/-! ## Facts about the emitted handler -/

theorem goStringLit_some (text v : String) (h : goStringLit text = some v) : v = text := by
  unfold goStringLit at h
  split_ifs at h
  simpa using h.symm

theorem goErrorf_some (text msg : String) (h : goErrorf text = some msg) : msg = text := by
  unfold goErrorf at h
  split_ifs at h
  exact goStringLit_some text msg h

theorem readAll_cons (fr : Fragment) (frs : List Fragment) (ss : List Step) :
    readAll (fr :: frs) = some ss ↔
      ∃ step rest, fr.run = some step ∧ readAll frs = some rest ∧ ss = step :: rest := by
  simp only [readAll]
  cases h1 : fr.run <;> cases h2 : readAll frs <;> simp [eq_comm]

theorem readAll_append (a b : List Fragment) (ss : List Step) :
    readAll (a ++ b) = some ss ↔
      ∃ sa sb, readAll a = some sa ∧ readAll b = some sb ∧ ss = sa ++ sb := by
  induction a generalizing ss with
  | nil => simp [readAll, eq_comm]
  | cons fr frs ih =>
    rw [List.cons_append, readAll_cons]
    constructor
    · rintro ⟨step, rest, h1, h2, rfl⟩
      obtain ⟨sa, sb, ha, hb, rfl⟩ := (ih rest).mp h2
      exact ⟨step :: sa, sb, (readAll_cons _ _ _).mpr ⟨step, sa, h1, ha, rfl⟩, hb, rfl⟩
    · rintro ⟨sa, sb, ha, hb, rfl⟩
      obtain ⟨step, rest, h1, h2, rfl⟩ := (readAll_cons _ _ _).mp ha
      exact ⟨step, rest ++ sb, h1, (ih _).mpr ⟨rest, sb, h2, hb, rfl⟩, rfl⟩

theorem readAll_nil_iff (ss : List Step) : readAll [] = some ss ↔ ss = [] := by
  simp [readAll, eq_comm]

theorem readAll_singleton (fr : Fragment) (ss : List Step) :
    readAll [fr] = some ss ↔ ∃ step, fr.run = some step ∧ ss = [step] := by
  rw [readAll_cons]
  constructor
  · rintro ⟨step, rest, h1, h2, rfl⟩
    rw [readAll_nil_iff] at h2
    subst h2
    exact ⟨step, h1, rfl⟩
  · rintro ⟨step, h1, rfl⟩
    exact ⟨step, [], h1, rfl, rfl⟩

theorem handler_some (frags : List Fragment) (h : Request → Outcome)
    (hread : handler frags = some h) :
    ∃ steps, readAll frags = some steps ∧ (frags.filterMap Fragment.declared).Nodup ∧
      h = fun req => runSteps steps req Params.zero := by
  unfold handler at hread
  cases hs : readAll frags with
  | none => simp [hs] at hread
  | some steps =>
    simp only [hs] at hread
    split_ifs at hread with hnd
    simp only [Option.some.injEq] at hread
    exact ⟨steps, rfl, hnd, hread.symm⟩

theorem handler_of_readAll (frags : List Fragment) (steps : List Step)
    (hs : readAll frags = some steps) (hnd : (frags.filterMap Fragment.declared).Nodup) :
    handler frags = some fun req => runSteps steps req Params.zero := by
  simp [handler, hs, hnd]

theorem runSteps_cons (step : Step) (rest : List Step) (req : Request) (params : Params) :
    runSteps (step :: rest) req params =
      match step req params with
      | Except.error r => Outcome.respond r
      | Except.ok params1 => runSteps rest req params1 := rfl

theorem runSteps_append (sa sb : List Step) (req : Request) (params : Params) :
    runSteps (sa ++ sb) req params =
      match runSteps sa req params with
      | Outcome.respond r => Outcome.respond r
      | Outcome.invoke params1 => runSteps sb req params1 := by
  induction sa generalizing params with
  | nil => rfl
  | cons step rest ih =>
    simp only [List.cons_append, runSteps_cons]
    cases step req params with
    | error r => rfl
    | ok params1 => exact ih params1

theorem Params.ext_iff2 (a b : Params) (h1 : ∀ g, a.ints g = b.ints g)
    (h2 : ∀ g, a.strs g = b.strs g) : a = b := by
  cases a
  cases b
  simp only [Params.mk.injEq]
  exact ⟨funext h1, funext h2⟩

theorem Params.setInt_setInt (params : Params) (name : String) (a b : Int) :
    (params.setInt name a).setInt name b = params.setInt name b := by
  apply Params.ext_iff2 <;> intro g <;> simp only [Params.setInt]
  by_cases h : g = name <;> simp [h]

theorem Params.setStr_setStr (params : Params) (name : String) (a b : String) :
    (params.setStr name a).setStr name b = params.setStr name b := by
  apply Params.ext_iff2 <;> intro g <;> simp only [Params.setStr]
  by_cases h : g = name <;> simp [h]

theorem Params.setInt_self (params : Params) (name : String) (a : Int)
    (h : params.ints name = a) : params.setInt name a = params := by
  apply Params.ext_iff2 <;> intro g <;> simp only [Params.setInt]
  by_cases hg : g = name
  · simp [hg, h]
  · simp [hg]

theorem emitField_eq (ToLower : String → String) (f : Field) :
    emitField ToLower f =
      (if f.isInt then [Fragment.formInt (f.key ToLower) f.Name]
        else [Fragment.formString f.Name (f.key ToLower)])
      ++ (if f.rule.hasDefault then
            (if f.isInt then [Fragment.defaultInt f.Name f.rule.defaultVal]
              else [Fragment.defaultString f.Name f.rule.defaultVal])
          else [])
      ++ (if f.rule.isRequired then
            (if f.isInt then [Fragment.requiredInt f.Name (f.key ToLower)]
              else [Fragment.requiredString f.Name (f.key ToLower)])
          else [])
      ++ (if f.rule.hasEnum then
            (if f.isInt then
                [Fragment.enumInt f.Name f.rule.enum (f.key ToLower)
                  (strings.Join f.rule.enum ", ")]
              else [Fragment.enumString f.Name f.rule.enum (f.key ToLower)
                  (strings.Join f.rule.enum ", ")])
          else [])
      ++ (if f.rule.hasMin then
            (if f.isInt then [Fragment.minInt f.Name f.rule.min (f.key ToLower)]
              else [Fragment.minLen f.Name f.rule.min (f.key ToLower)])
          else [])
      ++ (if f.rule.hasMax then
            (if f.isInt then [Fragment.maxInt f.Name f.rule.max (f.key ToLower)]
              else [Fragment.maxLen f.Name f.rule.max (f.key ToLower)])
          else []) := by
  unfold emitField Field.isInt Field.key Field.rule
  by_cases h : f.fieldType = "int" <;> simp [h]

theorem Atoi_empty : strconv.Atoi "" = none := rfl

theorem run_extract (key name : String) (isInt : Bool) (rule : TagParser)
    (sA rest : List Step) (req : Request) (ps : Params)
    (hzero : isInt = true → ps.ints name = 0)
    (hread : readAll (if isInt then [Fragment.formInt key name]
        else [Fragment.formString name key]) = some sA) :
    runSteps (sA ++ rest) req ps =
      match Check.failure key isInt rule (req.FormValue key) Check.extract with
      | some m => Outcome.respond ⟨StatusBadRequest, m⟩
      | none => runSteps rest req (ps.set name (extracted isInt (req.FormValue key))) := by
  cases isInt with
  | false =>
    simp only [Bool.false_eq_true, if_false] at hread
    obtain ⟨step, hrun, rfl⟩ := (readAll_singleton _ _).mp hread
    simp only [Fragment.run] at hrun
    cases hk : goStringLit key with
    | none => simp [hk] at hrun
    | some k =>
      have := goStringLit_some _ _ hk
      subst this
      simp only [hk, Option.some.injEq] at hrun
      subst hrun
      simp [runSteps_cons, Check.failure, extracted, Params.set]
  | true =>
    simp only [if_true] at hread
    obtain ⟨step, hrun, rfl⟩ := (readAll_singleton _ _).mp hread
    simp only [Fragment.run] at hrun
    by_cases hid : goIdent (key ++ "Str") = true
    swap
    · simp [hid] at hrun
    simp only [hid, if_true] at hrun
    cases hk : goStringLit key with
    | none => simp [hk] at hrun
    | some k =>
      cases hm : goErrorf (key ++ " must be int") with
      | none => simp [hk, hm] at hrun
      | some msg =>
        have h1 := goStringLit_some _ _ hk
        have h2 := goErrorf_some _ _ hm
        subst h1 h2
        simp only [hk, hm, Option.some.injEq] at hrun
        subst hrun
        by_cases hraw : req.FormValue k = ""
        · simp [runSteps_cons, Check.failure, extracted, Params.set, hraw, Atoi_empty,
            Params.setInt_self _ _ _ (hzero rfl)]
        · cases hA : strconv.Atoi (req.FormValue k) with
          | none => simp [runSteps_cons, Check.failure, hraw, hA]
          | some n => simp [runSteps_cons, Check.failure, extracted, Params.set, hraw, hA]

theorem get_set_extracted (ps : Params) (name : String) (isInt : Bool) (v : Value)
    (hkind : ∀ n, (v = Value.int n → isInt = true)) (hkind2 : ∀ s, v = Value.str s → isInt = false) :
    (ps.set name v).get isInt name = v := by
  cases v with
  | int n =>
    have := hkind n rfl
    subst this
    simp [Params.set, Params.get, Params.setInt]
  | str s =>
    have := hkind2 s rfl
    subst this
    simp [Params.set, Params.get, Params.setStr]

theorem Params.setInt_ints (ps : Params) (name : String) (a : Int) :
    (ps.setInt name a).ints name = a := by
  simp [Params.setInt]

theorem Params.setStr_strs (ps : Params) (name : String) (a : String) :
    (ps.setStr name a).strs name = a := by
  simp [Params.setStr]

theorem run_default (name : String) (isInt : Bool) (rule : TagParser) (raw : String)
    (sB rest : List Step) (req : Request) (ps : Params)
    (hread : readAll (if rule.hasDefault then
        (if isInt then [Fragment.defaultInt name rule.defaultVal]
          else [Fragment.defaultString name rule.defaultVal])
        else []) = some sB) :
    runSteps (sB ++ rest) req (ps.set name (extracted isInt raw)) =
      runSteps rest req (ps.set name (fieldValue isInt rule raw)) := by
  cases hd : rule.hasDefault with
  | false =>
    simp only [hd, Bool.false_eq_true, if_false] at hread
    rw [readAll_nil_iff] at hread
    subst hread
    simp [fieldValue, substituted, hd]
  | true =>
    simp only [hd, if_true] at hread
    cases isInt with
    | false =>
      simp only [Bool.false_eq_true, if_false] at hread
      obtain ⟨step, hrun, rfl⟩ := (readAll_singleton _ _).mp hread
      simp only [Fragment.run] at hrun
      cases hk : goInterpreted rule.defaultVal with
      | none => simp [hk] at hrun
      | some d =>
        simp only [hk, Option.some.injEq] at hrun
        subst hrun
        by_cases hraw : raw = ""
        · simp [runSteps_cons, fieldValue, substituted, extracted, hd, Value.isZero, Params.set,
            Params.setStr_strs, Params.setStr_setStr, hraw, hk]
        · simp [runSteps_cons, fieldValue, substituted, extracted, hd, Value.isZero, Params.set,
            Params.setStr_strs, Params.setStr_setStr, hraw]
    | true =>
      simp only [if_true] at hread
      obtain ⟨step, hrun, rfl⟩ := (readAll_singleton _ _).mp hread
      simp only [Fragment.run] at hrun
      cases hk : goIntLit rule.defaultVal with
      | none => simp [hk] at hrun
      | some d =>
        simp only [hk, Option.some.injEq] at hrun
        subst hrun
        by_cases hz : (strconv.Atoi raw).getD 0 = 0
        · simp [runSteps_cons, fieldValue, substituted, extracted, hd, Value.isZero, Params.set,
            Params.setInt_ints, Params.setInt_setInt, hz, hk]
        · simp [runSteps_cons, fieldValue, substituted, extracted, hd, Value.isZero, Params.set,
            Params.setInt_ints, Params.setInt_setInt, hz, hk]

theorem run_guard (flag isInt : Bool) (frI frS : Fragment) (condI condS : Params → Bool)
    (msgI msgS : String)
    (hI : ∀ step, frI.run = some step → step = fun _ ps => rejectIf (condI ps) msgI ps)
    (hS : ∀ step, frS.run = some step → step = fun _ ps => rejectIf (condS ps) msgS ps)
    (s rest : List Step) (req : Request) (ps : Params)
    (hread : readAll (if flag then (if isInt then [frI] else [frS]) else []) = some s) :
    runSteps (s ++ rest) req ps =
      if flag && (if isInt then condI ps else condS ps) then
        Outcome.respond ⟨StatusBadRequest, if isInt then msgI else msgS⟩
      else runSteps rest req ps := by
  cases flag with
  | false =>
    simp only [Bool.false_eq_true, if_false] at hread
    rw [readAll_nil_iff] at hread
    subst hread
    simp
  | true =>
    simp only [if_true] at hread
    cases isInt with
    | false =>
      simp only [Bool.false_eq_true, if_false] at hread
      obtain ⟨step, hrun, rfl⟩ := (readAll_singleton _ _).mp hread
      have := hS step hrun
      subst this
      cases hc : condS ps <;> simp [runSteps_cons, rejectIf, hc]
    | true =>
      simp only [if_true] at hread
      obtain ⟨step, hrun, rfl⟩ := (readAll_singleton _ _).mp hread
      have := hI step hrun
      subst this
      cases hc : condI ps <;> simp [runSteps_cons, rejectIf, hc]

theorem run_requiredInt (name key : String) (step : Step)
    (h : (Fragment.requiredInt name key).run = some step) :
    step = fun _ ps => rejectIf (decide (ps.ints name = 0)) (key ++ " must me not empty") ps := by
  simp only [Fragment.run] at h
  cases hm : goErrorf (key ++ " must me not empty") with
  | none => simp [hm] at h
  | some msg =>
    have := goErrorf_some _ _ hm
    subst this
    simp only [hm, Option.some.injEq] at h
    exact h.symm

theorem run_requiredString (name key : String) (step : Step)
    (h : (Fragment.requiredString name key).run = some step) :
    step = fun _ ps => rejectIf (decide (ps.strs name = "")) (key ++ " must me not empty") ps := by
  simp only [Fragment.run] at h
  cases hm : goErrorf (key ++ " must me not empty") with
  | none => simp [hm] at h
  | some msg =>
    have := goErrorf_some _ _ hm
    subst this
    simp only [hm, Option.some.injEq] at h
    exact h.symm

theorem run_minInt (name key : String) (b : Int) (step : Step)
    (h : (Fragment.minInt name b key).run = some step) :
    step = fun _ ps => rejectIf (decide (ps.ints name < b)) (key ++ " must be >= " ++ toString b) ps := by
  simp only [Fragment.run] at h
  cases hm : goErrorf (key ++ " must be >= " ++ toString b) with
  | none => simp [hm] at h
  | some msg =>
    have := goErrorf_some _ _ hm
    subst this
    simp only [hm, Option.some.injEq] at h
    exact h.symm

theorem run_minLen (name key : String) (b : Int) (step : Step)
    (h : (Fragment.minLen name b key).run = some step) :
    step = fun _ ps =>
      rejectIf (decide (len (ps.strs name) < b)) (key ++ " len must be >= " ++ toString b) ps := by
  simp only [Fragment.run] at h
  cases hm : goErrorf (key ++ " len must be >= " ++ toString b) with
  | none => simp [hm] at h
  | some msg =>
    have := goErrorf_some _ _ hm
    subst this
    simp only [hm, Option.some.injEq] at h
    exact h.symm

theorem run_maxInt (name key : String) (b : Int) (step : Step)
    (h : (Fragment.maxInt name b key).run = some step) :
    step = fun _ ps => rejectIf (decide (ps.ints name > b)) (key ++ " must be <= " ++ toString b) ps := by
  simp only [Fragment.run] at h
  cases hm : goErrorf (key ++ " must be <= " ++ toString b) with
  | none => simp [hm] at h
  | some msg =>
    have := goErrorf_some _ _ hm
    subst this
    simp only [hm, Option.some.injEq] at h
    exact h.symm

theorem run_maxLen (name key : String) (b : Int) (step : Step)
    (h : (Fragment.maxLen name b key).run = some step) :
    step = fun _ ps =>
      rejectIf (decide (len (ps.strs name) > b)) (key ++ " len must be <= " ++ toString b) ps := by
  simp only [Fragment.run] at h
  cases hm : goErrorf (key ++ " len must be <= " ++ toString b) with
  | none => simp [hm] at h
  | some msg =>
    have := goErrorf_some _ _ hm
    subst this
    simp only [hm, Option.some.injEq] at h
    exact h.symm

theorem readLits_goStringLit (cases vals : List String)
    (h : readLits goStringLit cases = some vals) : vals = cases := by
  induction cases generalizing vals with
  | nil => simpa [readLits] using h.symm
  | cons c cs ih =>
    simp only [readLits] at h
    cases hc : goStringLit c with
    | none => simp [hc] at h
    | some v =>
      cases hr : readLits goStringLit cs with
      | none => simp [hc, hr] at h
      | some vs =>
        simp only [hc, hr, Option.some.injEq] at h
        subst h
        rw [goStringLit_some _ _ hc, ih vs hr]

theorem readLits_goIntLit (cases : List String) (vals : List Int) (n : Int)
    (h : readLits goIntLit cases = some vals) :
    vals.contains n = cases.any fun lit => goIntLit lit == some n := by
  induction cases generalizing vals with
  | nil =>
    simp only [readLits, Option.some.injEq] at h
    subst h
    rfl
  | cons c cs ih =>
    simp only [readLits] at h
    cases hc : goIntLit c with
    | none => simp [hc] at h
    | some v =>
      cases hr : readLits goIntLit cs with
      | none => simp [hc, hr] at h
      | some vs =>
        simp only [hc, hr, Option.some.injEq] at h
        subst h
        have := ih vs hr
        simp only [List.contains_cons, List.any_cons, hc, this]
        congr 1
        simp [eq_comm]

theorem enumText_of_enumTail (joined tail : String) (h : enumTail joined = some tail) :
    enumText joined = tail := by
  simp [enumText, h]

theorem run_enumInt (name key joined : String) (cases : List String) (step : Step)
    (h : (Fragment.enumInt name cases key joined).run = some step) :
    step = fun _ ps =>
      rejectIf (!(cases.any fun lit => goIntLit lit == some (ps.ints name)))
        (key ++ enumText joined) ps := by
  simp only [Fragment.run] at h
  cases hv : readLits goIntLit cases with
  | none => simp [hv] at h
  | some vals =>
    cases hm : goErrorf key with
    | none => simp [hv, hm] at h
    | some k =>
      cases ht : enumTail joined with
      | none => simp [hv, hm, ht] at h
      | some tail =>
        have := goErrorf_some _ _ hm
        subst this
        simp only [hv, hm, ht] at h
        split_ifs at h with hnd
        simp only [Option.some.injEq] at h
        subst h
        funext _ ps
        rw [readLits_goIntLit cases vals _ hv, enumText_of_enumTail _ _ ht]

theorem run_enumString (name key joined : String) (cases : List String) (step : Step)
    (h : (Fragment.enumString name cases key joined).run = some step) :
    step = fun _ ps =>
      rejectIf (!(cases.contains (ps.strs name))) (key ++ enumText joined) ps := by
  simp only [Fragment.run] at h
  cases hv : readLits goStringLit cases with
  | none => simp [hv] at h
  | some vals =>
    cases hm : goErrorf key with
    | none => simp [hv, hm] at h
    | some k =>
      cases ht : enumTail joined with
      | none => simp [hv, hm, ht] at h
      | some tail =>
        have := goErrorf_some _ _ hm
        subst this
        have := readLits_goStringLit _ _ hv
        subst this
        simp only [hv, hm, ht] at h
        split_ifs at h with hnd
        simp only [Option.some.injEq] at h
        rw [enumText_of_enumTail _ _ ht]
        exact h.symm

theorem get_set_fieldValue (ps : Params) (name : String) (isInt : Bool) (rule : TagParser)
    (raw : String) :
    (ps.set name (fieldValue isInt rule raw)).get isInt name = fieldValue isInt rule raw := by
  apply get_set_extracted
  · intro n h
    cases isInt with
    | true => rfl
    | false =>
      simp only [fieldValue, substituted, extracted, Bool.false_eq_true, if_false] at h
      split_ifs at h
  · intro s h
    cases isInt with
    | false => rfl
    | true =>
      simp only [fieldValue, substituted, extracted, if_true] at h
      split_ifs at h

theorem run_check_required (key name : String) (isInt : Bool) (rule : TagParser) (raw : String)
    (s rest : List Step) (req : Request) (ps : Params)
    (hv : ps.get isInt name = fieldValue isInt rule raw)
    (hread : readAll (if rule.isRequired then
        (if isInt then [Fragment.requiredInt name key] else [Fragment.requiredString name key])
        else []) = some s) :
    runSteps (s ++ rest) req ps =
      match Check.failure key isInt rule raw Check.required with
      | some m => Outcome.respond ⟨StatusBadRequest, m⟩
      | none => runSteps rest req ps := by
  rw [run_guard _ _ _ _ _ _ _ _ (run_requiredInt name key) (run_requiredString name key)
    s rest req ps hread]
  simp only [Check.failure, ← hv]
  cases isInt <;> cases rule.isRequired <;> simp [Params.get, Value.isZero] <;> split_ifs <;> rfl

theorem run_check_enum (key name : String) (isInt : Bool) (rule : TagParser) (raw : String)
    (s rest : List Step) (req : Request) (ps : Params)
    (hv : ps.get isInt name = fieldValue isInt rule raw)
    (hread : readAll (if rule.hasEnum then
        (if isInt then [Fragment.enumInt name rule.enum key (strings.Join rule.enum ", ")]
          else [Fragment.enumString name rule.enum key (strings.Join rule.enum ", ")])
        else []) = some s) :
    runSteps (s ++ rest) req ps =
      match Check.failure key isInt rule raw Check.enum with
      | some m => Outcome.respond ⟨StatusBadRequest, m⟩
      | none => runSteps rest req ps := by
  rw [run_guard _ _ _ _ _ _ _ _ (run_enumInt name key _ rule.enum)
    (run_enumString name key _ rule.enum) s rest req ps hread]
  simp only [Check.failure, ← hv]
  cases isInt <;> cases rule.hasEnum <;> simp [Params.get, inEnum] <;> split_ifs <;> rfl

theorem run_check_min (key name : String) (isInt : Bool) (rule : TagParser) (raw : String)
    (s rest : List Step) (req : Request) (ps : Params)
    (hv : ps.get isInt name = fieldValue isInt rule raw)
    (hread : readAll (if rule.hasMin then
        (if isInt then [Fragment.minInt name rule.min key] else [Fragment.minLen name rule.min key])
        else []) = some s) :
    runSteps (s ++ rest) req ps =
      match Check.failure key isInt rule raw Check.min with
      | some m => Outcome.respond ⟨StatusBadRequest, m⟩
      | none => runSteps rest req ps := by
  rw [run_guard _ _ _ _ _ _ _ _ (run_minInt name key rule.min) (run_minLen name key rule.min)
    s rest req ps hread]
  simp only [Check.failure, ← hv]
  cases isInt <;> cases rule.hasMin <;> simp [Params.get, measure] <;> split_ifs <;> rfl

theorem run_check_max (key name : String) (isInt : Bool) (rule : TagParser) (raw : String)
    (s rest : List Step) (req : Request) (ps : Params)
    (hv : ps.get isInt name = fieldValue isInt rule raw)
    (hread : readAll (if rule.hasMax then
        (if isInt then [Fragment.maxInt name rule.max key] else [Fragment.maxLen name rule.max key])
        else []) = some s) :
    runSteps (s ++ rest) req ps =
      match Check.failure key isInt rule raw Check.max with
      | some m => Outcome.respond ⟨StatusBadRequest, m⟩
      | none => runSteps rest req ps := by
  rw [run_guard _ _ _ _ _ _ _ _ (run_maxInt name key rule.max) (run_maxLen name key rule.max)
    s rest req ps hread]
  simp only [Check.failure, ← hv]
  cases isInt <;> cases rule.hasMax <;> simp [Params.get, measure] <;> split_ifs <;> rfl

theorem head_fieldFailures (ToLower : String → String) (req : Request) (f : Field) :
    (fieldFailures ToLower req f).head? =
      match Check.failure (f.key ToLower) f.isInt f.rule (req.FormValue (f.key ToLower))
          Check.extract with
      | some m => some m
      | none =>
        match Check.failure (f.key ToLower) f.isInt f.rule (req.FormValue (f.key ToLower))
            Check.required with
        | some m => some m
        | none =>
          match Check.failure (f.key ToLower) f.isInt f.rule (req.FormValue (f.key ToLower))
              Check.enum with
          | some m => some m
          | none =>
            match Check.failure (f.key ToLower) f.isInt f.rule (req.FormValue (f.key ToLower))
                Check.min with
            | some m => some m
            | none =>
              Check.failure (f.key ToLower) f.isInt f.rule (req.FormValue (f.key ToLower))
                Check.max := by
  unfold fieldFailures checkOrder
  have hs : Check.failure (f.key ToLower) f.isInt f.rule (req.FormValue (f.key ToLower))
      Check.substitute = none := rfl
  simp only [List.filterMap_cons, hs, List.filterMap_nil]
  cases Check.failure (f.key ToLower) f.isInt f.rule (req.FormValue (f.key ToLower))
      Check.extract <;>
    cases Check.failure (f.key ToLower) f.isInt f.rule (req.FormValue (f.key ToLower))
      Check.required <;>
    cases Check.failure (f.key ToLower) f.isInt f.rule (req.FormValue (f.key ToLower))
      Check.enum <;>
    cases Check.failure (f.key ToLower) f.isInt f.rule (req.FormValue (f.key ToLower))
      Check.min <;>
    cases Check.failure (f.key ToLower) f.isInt f.rule (req.FormValue (f.key ToLower))
      Check.max <;> rfl

/-- The fragments of one field, run from a record in which the field is still
at zero: they answer with the first failing check of the field, or go on with
the field set to its value. -/
theorem run_field (ToLower : String → String) (f : Field) (sf rest : List Step)
    (req : Request) (ps : Params) (hzero : ps.ints f.Name = 0)
    (hread : readAll (emitField ToLower f) = some sf) :
    runSteps (sf ++ rest) req ps =
      match (fieldFailures ToLower req f).head? with
      | some m => Outcome.respond ⟨StatusBadRequest, m⟩
      | none =>
        runSteps rest req
          (ps.set f.Name (fieldValue f.isInt f.rule (req.FormValue (f.key ToLower)))) := by
  rw [emitField_eq] at hread
  obtain ⟨s5, sF, h5, hF, rfl⟩ := (readAll_append _ _ _).mp hread
  obtain ⟨s4, sE, h4, hE, rfl⟩ := (readAll_append _ _ _).mp h5
  obtain ⟨s3, sD, h3, hD, rfl⟩ := (readAll_append _ _ _).mp h4
  obtain ⟨s2, sC, h2, hC, rfl⟩ := (readAll_append _ _ _).mp h3
  obtain ⟨sA, sB, hA, hB, rfl⟩ := (readAll_append _ _ _).mp h2
  have hv := get_set_fieldValue ps f.Name f.isInt f.rule (req.FormValue (f.key ToLower))
  simp only [List.append_assoc]
  rw [run_extract (f.key ToLower) f.Name f.isInt f.rule sA _ req ps (fun _ => hzero) hA,
    head_fieldFailures]
  cases Check.failure (f.key ToLower) f.isInt f.rule (req.FormValue (f.key ToLower))
      Check.extract with
  | some m => rfl
  | none =>
    simp only
    rw [run_default f.Name f.isInt f.rule _ sB _ req ps hB,
      run_check_required (f.key ToLower) f.Name f.isInt f.rule _ sC _ req _ hv hC]
    cases Check.failure (f.key ToLower) f.isInt f.rule (req.FormValue (f.key ToLower))
        Check.required with
    | some m => rfl
    | none =>
      simp only
      rw [run_check_enum (f.key ToLower) f.Name f.isInt f.rule _ sD _ req _ hv hD]
      cases Check.failure (f.key ToLower) f.isInt f.rule (req.FormValue (f.key ToLower))
          Check.enum with
      | some m => rfl
      | none =>
        simp only
        rw [run_check_min (f.key ToLower) f.Name f.isInt f.rule _ sE _ req _ hv hE]
        cases Check.failure (f.key ToLower) f.isInt f.rule (req.FormValue (f.key ToLower))
            Check.min with
        | some m => rfl
        | none =>
          simp only
          rw [run_check_max (f.key ToLower) f.Name f.isInt f.rule _ sF _ req _ hv hF]

theorem runSteps_nil (req : Request) (ps : Params) : runSteps [] req ps = Outcome.invoke ps := rfl

theorem set_ints_other (ps : Params) (name g : String) (v : Value) (h : g ≠ name) :
    (ps.set name v).ints g = ps.ints g := by
  cases v <;> simp [Params.set, Params.setInt, Params.setStr, h]

/-- The fragments of all the fields, run from a record in which these fields
are still at zero. -/
theorem run_fields (ToLower : String → String) (fields : List Field) (ss : List Step)
    (req : Request) (ps : Params)
    (hnames : (fields.map Field.Name).Nodup)
    (hzero : ∀ f ∈ fields, ps.ints f.Name = 0)
    (hread : readAll (fields.flatMap (emitField ToLower)) = some ss) :
    runSteps ss req ps =
      match firstFailure ToLower fields req with
      | some m => Outcome.respond ⟨StatusBadRequest, m⟩
      | none => Outcome.invoke (populated ToLower req fields ps) := by
  induction fields generalizing ss ps with
  | nil =>
    simp only [List.flatMap_nil, readAll_nil_iff] at hread
    subst hread
    rfl
  | cons f rest ih =>
    rw [List.flatMap_cons] at hread
    obtain ⟨sf, sr, hf, hr, rfl⟩ := (readAll_append _ _ _).mp hread
    rw [run_field ToLower f sf sr req ps (hzero f (by simp)) hf]
    have hnd : (rest.map Field.Name).Nodup := (List.nodup_cons.mp (by simpa using hnames)).2
    have hnot : f.Name ∉ rest.map Field.Name := (List.nodup_cons.mp (by simpa using hnames)).1
    simp only [firstFailure, List.flatMap_cons, List.head?_append]
    cases hfail : (fieldFailures ToLower req f).head? with
    | some m => rfl
    | none =>
      simp only [Option.or_none, Option.none_or]
      have := ih sr (ps.set f.Name (fieldValue f.isInt f.rule (req.FormValue (f.key ToLower))))
        hnd
        (by
          intro g hg
          have hne : g.Name ≠ f.Name := by
            intro e
            exact hnot (by rw [← e]; exact List.mem_map_of_mem _ hg)
          rw [set_ints_other _ _ _ _ hne]
          exact hzero g (by simp [hg]))
        hr
      rw [this]
      rfl

/-- C2. On a request that passes the auth gate, the emitted handler ends in
one of two ways: with the single response 400 whose message is the first
failure, fields taken in declaration order and the checks of a field in the
order extract, default substitution, required, enum, min, max; or, when no
check fails, at the call of the business method with the populated record. -/
theorem handler_first_failure (ToLower : String → String) (settings : GenSettings)
    (fields : List Field) (h : Request → Outcome)
    (hread : handler (emitHandler ToLower settings fields) = some h)
    (hnames : (fields.map Field.Name).Nodup)
    (req : Request) (hauth : settings.Auth = true → req.xAuth = "100500") :
    h req =
      match firstFailure ToLower fields req with
      | some msg => Outcome.respond ⟨StatusBadRequest, msg⟩
      | none => Outcome.invoke (populated ToLower req fields Params.zero) := by
  obtain ⟨steps, hs, _, rfl⟩ := handler_some _ _ hread
  unfold emitHandler at hs
  obtain ⟨sa, sb, ha, hb, rfl⟩ := (readAll_append _ _ _).mp hs
  have hgate : runSteps sa req Params.zero = Outcome.invoke Params.zero := by
    cases hA : settings.Auth with
    | false =>
      simp only [hA, Bool.false_eq_true, if_false, readAll_nil_iff] at ha
      subst ha
      rfl
    | true =>
      simp only [hA, if_true] at ha
      obtain ⟨step, hrun, rfl⟩ := (readAll_singleton _ _).mp ha
      simp only [Fragment.run, Option.some.injEq] at hrun
      subst hrun
      simp [runSteps_cons, hauth hA, runSteps_nil]
  simp only [runSteps_append, hgate]
  exact run_fields ToLower fields sb req Params.zero hnames (fun _ _ => rfl) hb

/-- Witness of `handler_first_failure`: the record `Login string` with tag
`required,paramname=login,min=3` and `Age int` with tag `min=0,max=128`; the
request `login=bo&age=300` fails two checks and is answered with the first. -/
theorem handler_first_failure_witness :
    [⟨"Login", "string", "required,paramname=login,min=3"⟩,
        ⟨"Age", "int", "min=0,max=128"⟩].flatMap
        (fieldFailures strings.asciiToLower { form := [("login", "bo"), ("age", "300")] })
      = ["login len must be >= 3", "age must be <= 128"] ∧
    ∃ h, handler (emitHandler strings.asciiToLower ⟨"/user/create", "POST", false⟩
        [⟨"Login", "string", "required,paramname=login,min=3"⟩,
          ⟨"Age", "int", "min=0,max=128"⟩]) = some h ∧
      h { form := [("login", "bo"), ("age", "300")] } =
        Outcome.respond ⟨StatusBadRequest, "login len must be >= 3"⟩ :=
  ⟨by decide, _, rfl,
    handler_first_failure strings.asciiToLower ⟨"/user/create", "POST", false⟩
      [⟨"Login", "string", "required,paramname=login,min=3"⟩, ⟨"Age", "int", "min=0,max=128"⟩]
      _ rfl (by decide) { form := [("login", "bo"), ("age", "300")] } (by decide)⟩

theorem run_formInt (name key : String) (step : Step)
    (h : (Fragment.formInt key name).run = some step) :
    step = fun req ps =>
      if req.FormValue key ≠ "" then
        match strconv.Atoi (req.FormValue key) with
        | none => Except.error ⟨StatusBadRequest, key ++ " must be int"⟩
        | some tmp => Except.ok (ps.setInt name tmp)
      else Except.ok ps := by
  simp only [Fragment.run] at h
  by_cases hid : goIdent (key ++ "Str") = true
  swap
  · simp [hid] at h
  simp only [hid, if_true] at h
  cases hk : goStringLit key with
  | none => simp [hk] at h
  | some k =>
    cases hm : goErrorf (key ++ " must be int") with
    | none => simp [hk, hm] at h
    | some msg =>
      have h1 := goStringLit_some _ _ hk
      have h2 := goErrorf_some _ _ hm
      subst h1 h2
      simp only [hk, hm, Option.some.injEq] at h
      exact h.symm

theorem run_formString (name key : String) (step : Step)
    (h : (Fragment.formString name key).run = some step) :
    step = fun req ps => Except.ok (ps.setStr name (req.FormValue key)) := by
  simp only [Fragment.run] at h
  cases hk : goStringLit key with
  | none => simp [hk] at h
  | some k =>
    have h1 := goStringLit_some _ _ hk
    subst h1
    simp only [hk, Option.some.injEq] at h
    exact h.symm

theorem run_defaultInt (name d : String) (step : Step)
    (h : (Fragment.defaultInt name d).run = some step) :
    ∃ v, step = fun _ ps => Except.ok (if ps.ints name = 0 then ps.setInt name v else ps) := by
  simp only [Fragment.run] at h
  cases hk : goIntLit d with
  | none => simp [hk] at h
  | some v =>
    simp only [hk, Option.some.injEq] at h
    exact ⟨v, h.symm⟩

theorem run_defaultString (name d : String) (step : Step)
    (h : (Fragment.defaultString name d).run = some step) :
    ∃ v, step = fun _ ps => Except.ok (if ps.strs name = "" then ps.setStr name v else ps) := by
  simp only [Fragment.run] at h
  cases hk : goInterpreted d with
  | none => simp [hk] at h
  | some v =>
    simp only [hk, Option.some.injEq] at h
    exact ⟨v, h.symm⟩

theorem rejectIf_error (c : Bool) (msg : String) (ps : Params) (r : Response)
    (h : rejectIf c msg ps = Except.error r) : r = ⟨StatusBadRequest, msg⟩ := by
  unfold rejectIf at h
  split_ifs at h
  simp only [Except.error.injEq] at h
  exact h.symm

/-- Every fragment of a field is one of the thirteen templates, filled with
the name of the field and its request key. -/
theorem mem_emitField (ToLower : String → String) (f : Field) (fr : Fragment)
    (h : fr ∈ emitField ToLower f) :
    fr = Fragment.formInt (f.key ToLower) f.Name ∨
    fr = Fragment.formString f.Name (f.key ToLower) ∨
    fr = Fragment.defaultInt f.Name f.rule.defaultVal ∨
    fr = Fragment.defaultString f.Name f.rule.defaultVal ∨
    fr = Fragment.requiredInt f.Name (f.key ToLower) ∨
    fr = Fragment.requiredString f.Name (f.key ToLower) ∨
    fr = Fragment.enumInt f.Name f.rule.enum (f.key ToLower) (strings.Join f.rule.enum ", ") ∨
    fr = Fragment.enumString f.Name f.rule.enum (f.key ToLower) (strings.Join f.rule.enum ", ") ∨
    fr = Fragment.minInt f.Name f.rule.min (f.key ToLower) ∨
    fr = Fragment.minLen f.Name f.rule.min (f.key ToLower) ∨
    fr = Fragment.maxInt f.Name f.rule.max (f.key ToLower) ∨
    fr = Fragment.maxLen f.Name f.rule.max (f.key ToLower) := by
  rw [emitField_eq] at h
  simp only [List.mem_append] at h
  rcases h with ((((h | h) | h) | h) | h) | h <;> split_ifs at h <;> simp at h <;> simp [h]

/-- C3, as the code has it.  The request key of a field is the `paramName` of
its rule when that is not the empty string, and the lower-cased field name
otherwise.  The handler reads the form value under this key, every error
message of the field starts with it, and no fragment of the field looks at any
other form value. -/
theorem emitField_key (ToLower : String → String) (f : Field) :
    let key := if f.rule.paramName ≠ "" then f.rule.paramName else ToLower f.Name
    (∃ rest, emitField ToLower f =
      (if f.fieldType = "int" then Fragment.formInt key f.Name
        else Fragment.formString f.Name key) :: rest) ∧
    (∀ step, (Fragment.formString f.Name key).run = some step →
      ∀ req ps, step req ps = Except.ok (ps.setStr f.Name (req.FormValue key))) ∧
    (∀ fr ∈ emitField ToLower f, ∀ step, fr.run = some step →
      ∀ req ps r, step req ps = Except.error r →
        r.status = StatusBadRequest ∧ ∃ suffix, r.error = key ++ suffix) ∧
    (∀ fr ∈ emitField ToLower f, ∀ step, fr.run = some step →
      ∀ req1 req2 ps, req1.FormValue key = req2.FormValue key →
        step req1 ps = step req2 ps) := by
  have hkey : (if f.rule.paramName ≠ "" then f.rule.paramName else ToLower f.Name)
      = f.key ToLower := rfl
  simp only [hkey]
  refine ⟨?_, ?_, ?_, ?_⟩
  · rw [emitField_eq]
    by_cases h : f.fieldType = "int"
    · simp [Field.isInt, h]
    · simp [Field.isInt, h]
  · intro step hrun req ps
    rw [run_formString _ _ step hrun]
  · intro fr hmem step hrun req ps r herr
    rcases mem_emitField ToLower f fr hmem with
      h | h | h | h | h | h | h | h | h | h | h | h <;> subst h
    · rw [run_formInt _ _ step hrun] at herr
      simp only at herr
      split_ifs at herr
      cases hA : strconv.Atoi (req.FormValue (f.key ToLower)) with
      | none =>
        rw [hA] at herr
        simp only [Except.error.injEq] at herr
        subst herr
        exact ⟨rfl, _, rfl⟩
      | some n =>
        rw [hA] at herr
        simp at herr
    · rw [run_formString _ _ step hrun] at herr
      simp at herr
    · obtain ⟨v, hv⟩ := run_defaultInt _ _ step hrun
      rw [hv] at herr
      simp at herr
    · obtain ⟨v, hv⟩ := run_defaultString _ _ step hrun
      rw [hv] at herr
      simp at herr
    · rw [run_requiredInt _ _ step hrun] at herr
      have := rejectIf_error _ _ _ _ herr
      subst this
      exact ⟨rfl, _, rfl⟩
    · rw [run_requiredString _ _ step hrun] at herr
      have := rejectIf_error _ _ _ _ herr
      subst this
      exact ⟨rfl, _, rfl⟩
    · rw [run_enumInt _ _ _ _ step hrun] at herr
      have := rejectIf_error _ _ _ _ herr
      subst this
      exact ⟨rfl, _, rfl⟩
    · rw [run_enumString _ _ _ _ step hrun] at herr
      have := rejectIf_error _ _ _ _ herr
      subst this
      exact ⟨rfl, _, rfl⟩
    · rw [run_minInt _ _ _ step hrun] at herr
      have := rejectIf_error _ _ _ _ herr
      subst this
      exact ⟨rfl, _, String.append_assoc _ _ _⟩
    · rw [run_minLen _ _ _ step hrun] at herr
      have := rejectIf_error _ _ _ _ herr
      subst this
      exact ⟨rfl, _, String.append_assoc _ _ _⟩
    · rw [run_maxInt _ _ _ step hrun] at herr
      have := rejectIf_error _ _ _ _ herr
      subst this
      exact ⟨rfl, _, String.append_assoc _ _ _⟩
    · rw [run_maxLen _ _ _ step hrun] at herr
      have := rejectIf_error _ _ _ _ herr
      subst this
      exact ⟨rfl, _, String.append_assoc _ _ _⟩
  · intro fr hmem step hrun req1 req2 ps hreq
    rcases mem_emitField ToLower f fr hmem with
      h | h | h | h | h | h | h | h | h | h | h | h <;> subst h
    · rw [run_formInt _ _ step hrun]
      simp only [hreq]
    · rw [run_formString _ _ step hrun]
      simp only [hreq]
    · obtain ⟨v, hv⟩ := run_defaultInt _ _ step hrun
      rw [hv]
    · obtain ⟨v, hv⟩ := run_defaultString _ _ step hrun
      rw [hv]
    · rw [run_requiredInt _ _ step hrun]
    · rw [run_requiredString _ _ step hrun]
    · rw [run_enumInt _ _ _ _ step hrun]
    · rw [run_enumString _ _ _ _ step hrun]
    · rw [run_minInt _ _ _ step hrun]
    · rw [run_minLen _ _ _ step hrun]
    · rw [run_maxInt _ _ _ step hrun]
    · rw [run_maxLen _ _ _ step hrun]

/-- Witness of `emitField_key`: the field `Login string` with the tag
`required,paramname=login`; its required check answers with a message that
starts with `login`. -/
theorem emitField_key_witness :
    emitField strings.asciiToLower ⟨"Login", "string", "required,paramname=login"⟩ =
        [Fragment.formString "Login" "login", Fragment.requiredString "Login" "login"] ∧
      ∀ step, (Fragment.requiredString "Login" "login").run = some step →
        ∀ req ps r, step req ps = Except.error r →
          r.status = StatusBadRequest ∧ ∃ suffix, r.error = "login" ++ suffix :=
  ⟨by decide,
    (emitField_key strings.asciiToLower ⟨"Login", "string", "required,paramname=login"⟩).2.2.1
      (Fragment.requiredString "Login" "login") (by decide)⟩

/-- C3, counterexample.  The tag `required,paramname=` sets the parameter name
of the rule, to the empty string, so the key the claim states is the empty
string; the emitted handler reads the form value `login` and names `login` in
its message. -/
theorem emitField_key_counterexample :
    (TagParser.Parse { Raw := "required,paramname=" }).2 = none ∧
    (TagParser.Parse { Raw := "required,paramname=" }).1.hasParamName = true ∧
    statedKey strings.asciiToLower "Login" (TagParser.Parse { Raw := "required,paramname=" }).1
      = "" ∧
    emitField strings.asciiToLower ⟨"Login", "string", "required,paramname="⟩ =
      [Fragment.formString "Login" "login", Fragment.requiredString "Login" "login"] ∧
    ∃ h, handler (emitHandler strings.asciiToLower ⟨"/user/profile", "", false⟩
        [⟨"Login", "string", "required,paramname="⟩]) = some h ∧
      h { form := [("", "bob")] } =
        Outcome.respond ⟨StatusBadRequest, "login must me not empty"⟩ ∧
      ∃ ps, h { form := [("login", "bob")] } = Outcome.invoke ps ∧ ps.strs "Login" = "bob" :=
  ⟨by decide, by decide, by decide, by decide, _, rfl, rfl, _, rfl, rfl⟩

/-- C1, the code at a tag that does not compile.  `Parse` fails on
`required,min=abc,max=5`, and `main` goes on all the same: it emits the
fragments of the labels compiled before the failure, and the handler built
from them accepts `age=999`, as if the tag were `required`. -/
theorem emitField_after_Parse_error :
    (TagParser.Parse { Raw := "required,min=abc,max=5" }).2 =
      some "can't convert to int label value min" ∧
    emitField strings.asciiToLower ⟨"Age", "int", "required,min=abc,max=5"⟩ =
      [Fragment.formInt "age" "Age", Fragment.requiredInt "Age" "age"] ∧
    (∃ h, handler (emitHandler strings.asciiToLower ⟨"/user/create", "", false⟩
        [⟨"Age", "int", "required,min=abc,max=5"⟩]) = some h ∧
      ∃ ps, h { form := [("age", "999")] } = Outcome.invoke ps ∧ ps.ints "Age" = 999) ∧
    ∀ (ToLower : String → String) (f : Field), emitField ToLower f ≠ [] :=
  ⟨by decide, by decide, ⟨_, rfl, _, rfl, rfl⟩, by
    intro ToLower f
    rw [emitField_eq]
    cases f.isInt <;> simp⟩

/-- A label whose key is `required`, bare or with a value, sets the flag and
nothing else. -/
theorem parseLabel_of_key_required (p : TagParser) (l : String)
    (h : labelKey l = labelRequired) :
    p.parseLabel l = ({ p with isRequired := true }, none) := by
  rcases label_cases l with h0 | ⟨hne, hb⟩ | ⟨key, v, hk, rfl⟩
  · subst h0
    exact absurd h (by decide)
  · rw [labelKey_of_not_mem _ hb] at h
    subst h
    exact parseLabel_required p
  · rw [labelKey_append _ _ hk] at h
    subst h
    rw [parseLabel_kv p labelRequired v hk]
    simp

/-- A label of another key leaves the flag as it is. -/
theorem parseLabel_keeps_isRequired (p : TagParser) (l : String)
    (h : labelKey l ≠ labelRequired) :
    (p.parseLabel l).1.isRequired = p.isRequired := by
  rcases label_cases l with h0 | ⟨hne, hb⟩ | ⟨key, v, hk, rfl⟩
  · subst h0; simp [parseLabel_empty]
  · rw [labelKey_of_not_mem _ hb] at h
    rw [parseLabel_bare p l hne hb]
    split_ifs <;> rfl
  · rw [labelKey_append _ _ hk] at h
    rw [parseLabel_kv p key v hk]
    split_ifs <;> first | rfl | (cases strconv.Atoi v <;> rfl) | exact absurd ‹key = labelRequired› h

/-- The flag after the loop: set before it, or set by a label of key
`required`. -/
theorem parseLabels_isRequired_iff (labels : List String) (p q : TagParser)
    (hok : TagParser.parseLabels labels p = (q, none)) :
    q.isRequired = true ↔
      p.isRequired = true ∨ ∃ l ∈ labels, labelKey l = labelRequired := by
  induction labels generalizing p with
  | nil =>
    simp only [TagParser.parseLabels, Prod.mk.injEq, and_true] at hok
    subst hok
    simp
  | cons l ls ih =>
    rw [parseLabels_cons] at hok
    rcases hs : p.parseLabel l with ⟨p1, _ | e⟩
    · rw [hs] at hok
      simp only at hok
      rw [ih p1 hok]
      by_cases hk : labelKey l = labelRequired
      · have := parseLabel_of_key_required p l hk
        rw [hs] at this
        simp only [Prod.mk.injEq, and_true] at this
        subst this
        simp only [true_or, true_iff]
        exact Or.inr ⟨l, by simp, hk⟩
      · have := parseLabel_keeps_isRequired p l hk
        rw [hs] at this
        simp only at this
        rw [this]
        constructor
        · rintro (h | ⟨x, hx, hxk⟩)
          · exact Or.inl h
          · exact Or.inr ⟨x, by simp [hx], hxk⟩
        · rintro (h | ⟨x, hx, hxk⟩)
          · exact Or.inl h
          · rcases List.mem_cons.mp hx with e | e
            · subst e; exact absurd hxk hk
            · exact Or.inr ⟨x, e, hxk⟩
    · rw [hs] at hok
      simp at hok

/-- C20. In a tag that compiles, the rule is required exactly when some label
has the key `required`; such a label does the same as the bare flag whatever
value it carries, so `required=false`, `required=0` and `required=` all make
the field required, and a tag without such a label compiles to
`required = false`. -/
theorem Parse_required_iff (raw : String) (q : TagParser)
    (hok : TagParser.Parse { Raw := raw } = (q, none)) :
    (q.isRequired = true ↔ ∃ l ∈ strings.Split raw ',', labelKey l = labelRequired) ∧
    ((∀ l ∈ strings.Split raw ',', labelKey l ≠ labelRequired) → q.isRequired = false) ∧
    ∀ (v : String) (p : TagParser),
      p.parseLabel (labelRequired ++ "=" ++ v) = p.parseLabel labelRequired ∧
      p.parseLabel labelRequired = ({ p with isRequired := true }, none) := by
  have hiff := parseLabels_isRequired_iff _ _ q hok
  simp only [Bool.false_eq_true, false_or] at hiff
  refine ⟨hiff, ?_, ?_⟩
  · intro hno
    cases hq : q.isRequired with
    | false => rfl
    | true =>
      obtain ⟨l, hl, hk⟩ := hiff.mp hq
      exact absurd hk (hno l hl)
  · intro v p
    have hk : labelKey (labelRequired ++ "=" ++ v) = labelRequired :=
      labelKey_append _ _ (by decide)
    rw [parseLabel_of_key_required p _ hk, parseLabel_required]
    exact ⟨rfl, rfl⟩

/-- Witness of `Parse_required_iff`: the tags `required=false,min=1`,
`required=0` and `required=` compile to required rules, `min=1` does not. -/
theorem Parse_required_iff_witness :
    (((TagParser.Parse { Raw := "required=false,min=1" }).1.isRequired = true ↔
        ∃ l ∈ strings.Split "required=false,min=1" ',', labelKey l = labelRequired) ∧
      ((∀ l ∈ strings.Split "required=false,min=1" ',', labelKey l ≠ labelRequired) →
        (TagParser.Parse { Raw := "required=false,min=1" }).1.isRequired = false) ∧
      ∀ (v : String) (p : TagParser),
        p.parseLabel (labelRequired ++ "=" ++ v) = p.parseLabel labelRequired ∧
        p.parseLabel labelRequired = ({ p with isRequired := true }, none)) ∧
    (TagParser.Parse { Raw := "required=false,min=1" }).1.isRequired = true ∧
    (TagParser.Parse { Raw := "required=0" }).1.isRequired = true ∧
    (TagParser.Parse { Raw := "required=" }).1.isRequired = true ∧
    (TagParser.Parse { Raw := "min=1" }).1.isRequired = false :=
  ⟨Parse_required_iff "required=false,min=1" (TagParser.Parse { Raw := "required=false,min=1" }).1
      (by decide),
    by decide, by decide, by decide, by decide⟩

/-- A variant of `run_field` whose zero hypothesis is asked of `int` fields
only. -/
theorem run_field_of (ToLower : String → String) (f : Field) (sf rest : List Step)
    (req : Request) (ps : Params) (hzero : f.isInt = true → ps.ints f.Name = 0)
    (hread : readAll (emitField ToLower f) = some sf) :
    runSteps (sf ++ rest) req ps =
      match (fieldFailures ToLower req f).head? with
      | some m => Outcome.respond ⟨StatusBadRequest, m⟩
      | none =>
        runSteps rest req
          (ps.set f.Name (fieldValue f.isInt f.rule (req.FormValue (f.key ToLower)))) := by
  rw [emitField_eq] at hread
  obtain ⟨s5, sF, h5, hF, rfl⟩ := (readAll_append _ _ _).mp hread
  obtain ⟨s4, sE, h4, hE, rfl⟩ := (readAll_append _ _ _).mp h5
  obtain ⟨s3, sD, h3, hD, rfl⟩ := (readAll_append _ _ _).mp h4
  obtain ⟨s2, sC, h2, hC, rfl⟩ := (readAll_append _ _ _).mp h3
  obtain ⟨sA, sB, hA, hB, rfl⟩ := (readAll_append _ _ _).mp h2
  have hv := get_set_fieldValue ps f.Name f.isInt f.rule (req.FormValue (f.key ToLower))
  simp only [List.append_assoc]
  rw [run_extract (f.key ToLower) f.Name f.isInt f.rule sA _ req ps hzero hA,
    head_fieldFailures]
  cases Check.failure (f.key ToLower) f.isInt f.rule (req.FormValue (f.key ToLower))
      Check.extract with
  | some m => rfl
  | none =>
    simp only
    rw [run_default f.Name f.isInt f.rule _ sB _ req ps hB,
      run_check_required (f.key ToLower) f.Name f.isInt f.rule _ sC _ req _ hv hC]
    cases Check.failure (f.key ToLower) f.isInt f.rule (req.FormValue (f.key ToLower))
        Check.required with
    | some m => rfl
    | none =>
      simp only
      rw [run_check_enum (f.key ToLower) f.Name f.isInt f.rule _ sD _ req _ hv hD]
      cases Check.failure (f.key ToLower) f.isInt f.rule (req.FormValue (f.key ToLower))
          Check.enum with
      | some m => rfl
      | none =>
        simp only
        rw [run_check_min (f.key ToLower) f.Name f.isInt f.rule _ sE _ req _ hv hE]
        cases Check.failure (f.key ToLower) f.isInt f.rule (req.FormValue (f.key ToLower))
            Check.min with
        | some m => rfl
        | none =>
          simp only
          refine (run_check_max (f.key ToLower) f.Name f.isInt f.rule _ sF _ req _ hv hF).trans ?_
          cases Check.failure (f.key ToLower) f.isInt f.rule (req.FormValue (f.key ToLower))
            Check.max <;> rfl

/-- The fragments of a field whose rule has a default: the form read, the
default substitution, then checks only. -/
theorem emitField_default_shape (ToLower : String → String) (f : Field)
    (hdef : f.rule.hasDefault = true) :
    ∃ checks, emitField ToLower f =
        (if f.isInt then Fragment.formInt (f.key ToLower) f.Name
          else Fragment.formString f.Name (f.key ToLower)) ::
        (if f.isInt then Fragment.defaultInt f.Name f.rule.defaultVal
          else Fragment.defaultString f.Name f.rule.defaultVal) :: checks ∧
      ∀ fr ∈ checks, fr.isCheck = true := by
  rw [emitField_eq]
  simp only [hdef, if_true]
  refine ⟨(if f.rule.isRequired then
          (if f.isInt then [Fragment.requiredInt f.Name (f.key ToLower)]
            else [Fragment.requiredString f.Name (f.key ToLower)])
        else [])
      ++ (if f.rule.hasEnum then
          (if f.isInt then
              [Fragment.enumInt f.Name f.rule.enum (f.key ToLower)
                (strings.Join f.rule.enum ", ")]
            else [Fragment.enumString f.Name f.rule.enum (f.key ToLower)
                (strings.Join f.rule.enum ", ")])
        else [])
      ++ (if f.rule.hasMin then
          (if f.isInt then [Fragment.minInt f.Name f.rule.min (f.key ToLower)]
            else [Fragment.minLen f.Name f.rule.min (f.key ToLower)])
        else [])
      ++ (if f.rule.hasMax then
          (if f.isInt then [Fragment.maxInt f.Name f.rule.max (f.key ToLower)]
            else [Fragment.maxLen f.Name f.rule.max (f.key ToLower)])
        else []), ?_, ?_⟩
  · cases f.isInt <;> simp only [Bool.false_eq_true, if_false, if_true, List.append_assoc,
      List.singleton_append, List.cons_append, List.nil_append]
  · intro fr hfr
    simp only [List.mem_append] at hfr
    rcases hfr with ((h | h) | h) | h <;> split_ifs at h <;> simp at h <;> subst h <;> rfl

/-- While no label has written the parameter name, it is empty. -/
theorem parseLabel_paramName_inv (p : TagParser) (l : String)
    (h : p.hasParamName = false → p.paramName = "") :
    (p.parseLabel l).1.hasParamName = false → (p.parseLabel l).1.paramName = "" := by
  by_cases hk : labelKey l = labelParamName
  · rcases label_cases l with h0 | ⟨hne, hb⟩ | ⟨key, v, hkk, rfl⟩
    · subst h0; simpa [parseLabel_empty] using h
    · rw [parseLabel_bare p l hne hb]
      split_ifs <;> exact h
    · rw [labelKey_append _ _ hkk] at hk
      subst hk
      rw [parseLabel_kv p labelParamName v hkk]
      simp [labelParamName, labelRequired]
  · have := parseLabel_keeps_paramName p l hk
    simp only [Prod.mk.injEq] at this
    rw [this.1, this.2]
    exact h

theorem parseLabels_paramName_inv (labels : List String) (p : TagParser)
    (h : p.hasParamName = false → p.paramName = "") :
    (TagParser.parseLabels labels p).1.hasParamName = false →
      (TagParser.parseLabels labels p).1.paramName = "" := by
  induction labels generalizing p with
  | nil => exact h
  | cons l ls ih =>
    rw [parseLabels_cons]
    have hstep := parseLabel_paramName_inv p l h
    rcases hs : p.parseLabel l with ⟨p1, _ | e⟩
    · rw [hs] at hstep
      exact ih p1 hstep
    · rw [hs] at hstep
      exact hstep

/-- A rule without parameter name has the lower-cased field name as key. -/
theorem key_of_no_override (ToLower : String → String) (f : Field)
    (h : f.rule.hasParamName = false) : f.key ToLower = ToLower f.Name := by
  have : f.rule.paramName = "" :=
    parseLabels_paramName_inv _ { Raw := f.tag } (fun _ => rfl) h
  simp [Field.key, requestKey, this]

theorem FormValue_of_absent (req : Request) (key : String)
    (h : req.form.lookup key = none) : req.FormValue key = "" := by
  simp [Request.FormValue, h]

/-- C12, as the code has it.  For a required `string` field without paramname
override whose rule has no default, or an empty one, and a request in which
the key, the lower-cased field name, is absent: the fragments of the field
answer 400 with exactly "<key> must me not empty" and nothing after them
runs, so no enum, min or max message is produced. -/
theorem required_string_absent (ToLower : String → String) (f : Field)
    (sf rest : List Step) (req : Request) (ps : Params)
    (hstr : f.fieldType = "string")
    (hreq : f.rule.isRequired = true)
    (hno : f.rule.hasParamName = false)
    (hdef : f.rule.hasDefault = false ∨ f.rule.defaultVal = "")
    (hread : readAll (emitField ToLower f) = some sf)
    (habsent : req.form.lookup (ToLower f.Name) = none) :
    runSteps (sf ++ rest) req ps =
      Outcome.respond ⟨StatusBadRequest, ToLower f.Name ++ " must me not empty"⟩ := by
  have hint : f.isInt = false := by
    simp [Field.isInt, hstr]
  have hkey := key_of_no_override ToLower f hno
  have hraw : req.FormValue (f.key ToLower) = "" := by
    rw [hkey]
    exact FormValue_of_absent req _ habsent
  rw [run_field_of ToLower f sf rest req ps (by simp [hint]) hread, head_fieldFailures]
  have hval : fieldValue f.isInt f.rule (req.FormValue (f.key ToLower)) = Value.str "" := by
    rw [hraw, hint]
    rcases hdef with h | h
    · simp [fieldValue, substituted, extracted, h]
    · simp [fieldValue, substituted, extracted, h, show goInterpreted "" = some "" from rfl]
  have h1 : Check.failure (f.key ToLower) f.isInt f.rule (req.FormValue (f.key ToLower))
      Check.extract = none := by
    simp [Check.failure, hint]
  have h2 : Check.failure (f.key ToLower) f.isInt f.rule (req.FormValue (f.key ToLower))
      Check.required = some (ToLower f.Name ++ " must me not empty") := by
    simp only [Check.failure, hval]
    simp [hreq, Value.isZero, hkey]
  rw [h1, h2]

/-- Witness of `required_string_absent`: the field `Login string` with the tag
`required,min=3,enum=bob`, and a request without `login`. -/
theorem required_string_absent_witness :
    ∃ sf, readAll (emitField strings.asciiToLower ⟨"Login", "string", "required,min=3,enum=bob"⟩)
        = some sf ∧
      runSteps (sf ++ []) { form := [("age", "3")] } Params.zero =
        Outcome.respond ⟨StatusBadRequest, "login must me not empty"⟩ :=
  ⟨_, rfl,
    required_string_absent strings.asciiToLower ⟨"Login", "string", "required,min=3,enum=bob"⟩
      _ [] { form := [("age", "3")] } Params.zero (by decide) (by decide) (by decide)
      (Or.inl (by decide)) rfl (by decide)⟩

/-- C12, counterexample.  The field `Status string` with the tag
`required,default=user` is required and has no paramname override; a request
without `status` is not answered with 400: the default is substituted before
the required check, and the business method is called with `Status = "user"`. -/
theorem required_string_absent_counterexample :
    (TagParser.Parse { Raw := "required,default=user" }).1.isRequired = true ∧
    (TagParser.Parse { Raw := "required,default=user" }).1.hasParamName = false ∧
    ({ form := [] } : Request).form.lookup "status" = none ∧
    ∃ h, handler (emitHandler strings.asciiToLower ⟨"/user/create", "", false⟩
        [⟨"Status", "string", "required,default=user"⟩]) = some h ∧
      h { form := [] } ≠ Outcome.respond ⟨StatusBadRequest, "status must me not empty"⟩ ∧
      ∃ ps, h { form := [] } = Outcome.invoke ps ∧ ps.strs "Status" = "user" :=
  ⟨by decide, by decide, by decide, _, rfl, fun hc => Outcome.noConfusion hc, _, rfl, rfl⟩

theorem rejectIf_true (msg : String) (ps : Params) :
    rejectIf true msg ps = Except.error ⟨StatusBadRequest, msg⟩ := rfl

theorem rejectIf_false (msg : String) (ps : Params) :
    rejectIf false msg ps = Except.ok ps := rfl

/-- C14. For an `int` field with request key `k`: with `min=N` the min
fragment is part of the handler, answers 400 with exactly "k must be >= N" to
a value below `N` and passes any other value; with `max=N` the max fragment
answers 400 with exactly "k must be <= N" to a value above `N` and passes any
other value. -/
theorem int_bounds (ToLower : String → String) (f : Field) (hint : f.fieldType = "int") :
    (f.rule.hasMin = true →
      Fragment.minInt f.Name f.rule.min (f.key ToLower) ∈ emitField ToLower f ∧
      ∀ step, (Fragment.minInt f.Name f.rule.min (f.key ToLower)).run = some step →
        ∀ req ps,
          (ps.ints f.Name < f.rule.min →
            step req ps = Except.error ⟨StatusBadRequest,
              f.key ToLower ++ " must be >= " ++ toString f.rule.min⟩) ∧
          (f.rule.min ≤ ps.ints f.Name → step req ps = Except.ok ps)) ∧
    (f.rule.hasMax = true →
      Fragment.maxInt f.Name f.rule.max (f.key ToLower) ∈ emitField ToLower f ∧
      ∀ step, (Fragment.maxInt f.Name f.rule.max (f.key ToLower)).run = some step →
        ∀ req ps,
          (ps.ints f.Name > f.rule.max →
            step req ps = Except.error ⟨StatusBadRequest,
              f.key ToLower ++ " must be <= " ++ toString f.rule.max⟩) ∧
          (ps.ints f.Name ≤ f.rule.max → step req ps = Except.ok ps)) := by
  have hI : f.isInt = true := by simp [Field.isInt, hint]
  constructor
  · intro hmin
    refine ⟨?_, ?_⟩
    · rw [emitField_eq]
      simp [hmin, hI]
    · intro step hrun req ps
      rw [run_minInt _ _ _ step hrun]
      constructor
      · intro hlt
        simp [hlt, rejectIf_true]
      · intro hge
        have : ¬ ps.ints f.Name < f.rule.min := not_lt.mpr hge
        simp [this, rejectIf_false]
  · intro hmax
    refine ⟨?_, ?_⟩
    · rw [emitField_eq]
      simp [hmax, hI]
    · intro step hrun req ps
      rw [run_maxInt _ _ _ step hrun]
      constructor
      · intro hgt
        simp [hgt, rejectIf_true]
      · intro hle
        have : ¬ ps.ints f.Name > f.rule.max := not_lt.mpr hle
        simp [this, rejectIf_false]

/-- Witness of `int_bounds`: the field `Age int` with the tag `min=0`; the
request `age=-5` is answered with exactly "age must be >= 0". -/
theorem int_bounds_witness :
    (∃ step, (Fragment.minInt "Age" 0 "age").run = some step ∧
      step { form := [] } (Params.zero.setInt "Age" (-5)) =
        Except.error ⟨StatusBadRequest, "age must be >= 0"⟩) ∧
    ∃ h, handler (emitHandler strings.asciiToLower ⟨"/user/create", "", false⟩
        [⟨"Age", "int", "min=0"⟩]) = some h ∧
      h { form := [("age", "-5")] } = Outcome.respond ⟨StatusBadRequest, "age must be >= 0"⟩ :=
  ⟨⟨_, rfl,
    ((((int_bounds strings.asciiToLower ⟨"Age", "int", "min=0"⟩ (by decide)).1 (by decide)).2
      _ rfl) { form := [] } (Params.zero.setInt "Age" (-5))).1 (by decide)⟩,
    _, rfl, rfl⟩

theorem utf8Len_ascii (cs : List Char) (h : ∀ c ∈ cs, c.toNat < 128) :
    String.utf8Len cs = cs.length := by
  induction cs with
  | nil => rfl
  | cons c cs ih =>
    have hc : c.toNat < 128 := h c (by simp)
    have hcs : ∀ x ∈ cs, x.toNat < 128 := fun x hx => h x (by simp [hx])
    have h1 : c.utf8Size = 1 := by
      have hv : c.val ≤ 127 := by
        rw [UInt32.le_def]
        show c.val.toNat ≤ 127
        have : c.toNat = c.val.toNat := rfl
        omega
      simp [Char.utf8Size, hv]
    rw [String.utf8Len_cons, ih hcs, h1, List.length_cons]

/-- On ASCII text, the length in bytes is the length in characters. -/
theorem len_ascii (s : String) (h : ∀ c ∈ s.data, c.toNat < 128) : len s = charLength s := by
  cases s with
  | mk cs =>
    have := utf8Len_ascii cs h
    simp [len, charLength, String.utf8ByteSize, this]

/-- C15, as the code has it.  For a `string` field with request key `k`, the
min and max fragments compare `len` of the value, its length in bytes, with
the bound: with `min=N` a value of fewer than `N` bytes is answered with 400
and "k len must be >= N" and any other value passes; with `max=N` a value of
more than `N` bytes is answered with 400 and "k len must be <= N" and any
other value passes.  On ASCII values the bytes are the characters. -/
theorem string_bounds (ToLower : String → String) (f : Field) (hstr : f.fieldType ≠ "int") :
    (f.rule.hasMin = true →
      Fragment.minLen f.Name f.rule.min (f.key ToLower) ∈ emitField ToLower f ∧
      ∀ step, (Fragment.minLen f.Name f.rule.min (f.key ToLower)).run = some step →
        ∀ req ps,
          (((ps.strs f.Name).utf8ByteSize : Int) < f.rule.min →
            step req ps = Except.error ⟨StatusBadRequest,
              f.key ToLower ++ " len must be >= " ++ toString f.rule.min⟩) ∧
          (f.rule.min ≤ ((ps.strs f.Name).utf8ByteSize : Int) → step req ps = Except.ok ps)) ∧
    (f.rule.hasMax = true →
      Fragment.maxLen f.Name f.rule.max (f.key ToLower) ∈ emitField ToLower f ∧
      ∀ step, (Fragment.maxLen f.Name f.rule.max (f.key ToLower)).run = some step →
        ∀ req ps,
          (((ps.strs f.Name).utf8ByteSize : Int) > f.rule.max →
            step req ps = Except.error ⟨StatusBadRequest,
              f.key ToLower ++ " len must be <= " ++ toString f.rule.max⟩) ∧
          (((ps.strs f.Name).utf8ByteSize : Int) ≤ f.rule.max → step req ps = Except.ok ps)) ∧
    (∀ s : String, (∀ c ∈ s.data, c.toNat < 128) →
      ((s.utf8ByteSize : Nat) : Int) = charLength s) := by
  have hI : f.isInt = false := by simp [Field.isInt, hstr]
  refine ⟨?_, ?_, fun s hs => len_ascii s hs⟩
  · intro hmin
    refine ⟨?_, ?_⟩
    · rw [emitField_eq]
      simp [hmin, hI]
    · intro step hrun req ps
      rw [run_minLen _ _ _ step hrun]
      constructor
      · intro hlt
        simp [len, hlt, rejectIf_true]
      · intro hge
        have : ¬ ((ps.strs f.Name).utf8ByteSize : Int) < f.rule.min := not_lt.mpr hge
        simp [len, this, rejectIf_false]
  · intro hmax
    refine ⟨?_, ?_⟩
    · rw [emitField_eq]
      simp [hmax, hI]
    · intro step hrun req ps
      rw [run_maxLen _ _ _ step hrun]
      constructor
      · intro hgt
        simp [len, hgt, rejectIf_true]
      · intro hle
        have : ¬ ((ps.strs f.Name).utf8ByteSize : Int) > f.rule.max := not_lt.mpr hle
        simp [len, this, rejectIf_false]

/-- Witness of `string_bounds`: the field `Login string` with the tag `min=3`
and the value `bo`. -/
theorem string_bounds_witness :
    ∃ step, (Fragment.minLen "Login" 3 "login").run = some step ∧
      step { form := [] } (Params.zero.setStr "Login" "bo") =
        Except.error ⟨StatusBadRequest, "login len must be >= 3"⟩ :=
  ⟨_, rfl,
    ((((string_bounds strings.asciiToLower ⟨"Login", "string", "min=3"⟩ (by decide)).1
      (by decide)).2 _ rfl) { form := [] } (Params.zero.setStr "Login" "bo")).1 (by decide)⟩

/-- C15, counterexample.  The value `héllo` has 5 characters and 6 bytes.  The
field `Name string` with the tag `max=5` refuses it, although it has at most 5
characters; with the tag `min=6` the handler accepts it, although it has fewer
than 6 characters. -/
theorem string_bounds_counterexample :
    charLength "héllo" = 5 ∧ len "héllo" = 6 ∧
    (∃ h, handler (emitHandler strings.asciiToLower ⟨"/user/create", "", false⟩
        [⟨"Name", "string", "max=5"⟩]) = some h ∧
      h { form := [("name", "héllo")] } =
        Outcome.respond ⟨StatusBadRequest, "name len must be <= 5"⟩) ∧
    ∃ h, handler (emitHandler strings.asciiToLower ⟨"/user/create", "", false⟩
        [⟨"Name", "string", "min=6"⟩]) = some h ∧
      ∃ ps, h { form := [("name", "héllo")] } = Outcome.invoke ps ∧ ps.strs "Name" = "héllo" :=
  ⟨by decide, by decide, ⟨_, rfl, rfl⟩, _, rfl, _, rfl, rfl⟩

/-- No fragment of a field is the auth gate. -/
theorem authGate_not_mem_emitField (ToLower : String → String) (f : Field) :
    Fragment.authGate ∉ emitField ToLower f := by
  intro h
  rcases mem_emitField ToLower f _ h with
    h | h | h | h | h | h | h | h | h | h | h | h <;> cases h

/-- C16. With `auth = true` the gate is the first fragment of the handler, and
a request whose `X-Auth` header is not the fixed value is answered with 403
and "unauthorized", whatever its parameters: no field fragment runs and the
business method is not reached.  With `auth = false` the handler has no gate. -/
theorem auth_gate (ToLower : String → String) (settings : GenSettings)
    (fields : List Field) (h : Request → Outcome)
    (hread : handler (emitHandler ToLower settings fields) = some h) :
    (settings.Auth = true →
      emitHandler ToLower settings fields =
        Fragment.authGate :: fields.flatMap (emitField ToLower) ∧
      ∀ req : Request, req.xAuth ≠ "100500" →
        h req = Outcome.respond ⟨StatusForbidden, "unauthorized"⟩) ∧
    (settings.Auth = false →
      Fragment.authGate ∉ emitHandler ToLower settings fields) := by
  constructor
  · intro hA
    refine ⟨by simp [emitHandler, hA], ?_⟩
    intro req hx
    obtain ⟨steps, hs, _, rfl⟩ := handler_some _ _ hread
    have hshape : emitHandler ToLower settings fields =
        Fragment.authGate :: fields.flatMap (emitField ToLower) := by
      simp [emitHandler, hA]
    rw [hshape] at hs
    obtain ⟨step, rest, hrun, _, rfl⟩ := (readAll_cons _ _ _).mp hs
    simp only [Fragment.run, Option.some.injEq] at hrun
    subst hrun
    simp [runSteps_cons, hx]
  · intro hA hmem
    simp only [emitHandler, hA, Bool.false_eq_true, if_false, List.nil_append,
      List.mem_flatMap] at hmem
    obtain ⟨f, _, hf⟩ := hmem
    exact authGate_not_mem_emitField ToLower f hf

/-- Witness of `auth_gate`: an endpoint with `auth = true` and a well-formed
request `login=bob` that carries no header. -/
theorem auth_gate_witness :
    ∃ h, handler (emitHandler strings.asciiToLower ⟨"/user/create", "POST", true⟩
        [⟨"Login", "string", "required"⟩]) = some h ∧
      h { form := [("login", "bob")], xAuth := "" } =
        Outcome.respond ⟨StatusForbidden, "unauthorized"⟩ ∧
      ∃ ps, h { form := [("login", "bob")], xAuth := "100500" } = Outcome.invoke ps ∧
        ps.strs "Login" = "bob" :=
  ⟨_, rfl,
    ((auth_gate strings.asciiToLower ⟨"/user/create", "POST", true⟩
      [⟨"Login", "string", "required"⟩] _ rfl).1 rfl).2
      { form := [("login", "bob")], xAuth := "" } (by decide),
    _, rfl, rfl⟩

theorem emitRouter_cons (m : MethodInfo) (ms : List MethodInfo) :
    emitRouter (m :: ms) =
      { URL := m.Settings.URL,
        methodTest := if m.Settings.Method ≠ "" then some m.Settings.Method else none,
        Name := m.Name } :: emitRouter ms := rfl

theorem readCases_cons (c : RouteCase) (cs : List RouteCase) (rs : List ReadCase) :
    readCases (c :: cs) = some rs ↔
      ∃ r rest, c.read = some r ∧ readCases cs = some rest ∧ rs = r :: rest := by
  simp only [readCases]
  cases h1 : c.read <;> cases h2 : readCases cs <;> simp [eq_comm]

/-- A case is read as it is written. -/
theorem read_case (url method name : String) (r : ReadCase)
    (h : RouteCase.read
      { URL := url, methodTest := if method ≠ "" then some method else none, Name := name }
        = some r) :
    r = { path := url, method := if method ≠ "" then some method else none, Name := name } := by
  simp only [RouteCase.read] at h
  cases hu : goStringLit url with
  | none => simp [hu] at h
  | some u =>
    have := goStringLit_some _ _ hu
    subst this
    simp only [hu] at h
    by_cases hm : method = ""
    · simp only [hm, ne_eq, not_true_eq_false, if_false, Option.some.injEq] at h ⊢
      exact h.symm
    · simp only [ne_eq, hm, not_false_eq_true, if_true] at h ⊢
      cases ht : goStringLit method with
      | none => simp [ht] at h
      | some t =>
        have := goStringLit_some _ _ ht
        subst this
        simp only [ht, Option.some.injEq] at h
        exact h.symm

/-- The cases of a group as the compiler reads them. -/
theorem read_emitRouter (methods : List MethodInfo) (cases : List ReadCase)
    (h : readCases (emitRouter methods) = some cases) :
    cases = methods.map MethodInfo.readCase := by
  induction methods generalizing cases with
  | nil =>
    simp only [emitRouter, List.map_nil, readCases, Option.some.injEq] at h
    subst h
    rfl
  | cons m ms ih =>
    rw [emitRouter_cons, readCases_cons] at h
    obtain ⟨r, rest, hr, hrest, rfl⟩ := h
    rw [read_case _ _ _ r hr, ih rest hrest]
    rfl

theorem dispatch_cons (c : ReadCase) (rest : List ReadCase) (req : Request) :
    dispatch (c :: rest) req =
      if req.Path = c.path then dispatch [c] req else dispatch rest req := by
  simp only [dispatch]
  split_ifs <;> rfl

/-- A case that matches never ends in the answer of the `default:` branch. -/
theorem dispatch_single_ne (c : ReadCase) (req : Request) (h : req.Path = c.path) :
    dispatch [c] req ≠ RouteOutcome.respond ⟨StatusNotFound, "unknown method"⟩ := by
  simp only [dispatch, h, if_true]
  cases c.method with
  | none => simp
  | some m =>
    simp only
    split_ifs
    · simp [StatusNotAcceptable, StatusNotFound]
    · simp

/-- The switch answers 404 exactly when no case has the path. -/
theorem dispatch_not_found_iff (cases : List ReadCase) (req : Request) :
    dispatch cases req = RouteOutcome.respond ⟨StatusNotFound, "unknown method"⟩ ↔
      ∀ c ∈ cases, req.Path ≠ c.path := by
  induction cases with
  | nil => simp [dispatch]
  | cons c rest ih =>
    rw [dispatch_cons]
    by_cases h : req.Path = c.path
    · simp only [h, if_true, List.mem_cons, forall_eq_or_imp, ne_eq, not_true_eq_false,
        false_and, iff_false]
      exact dispatch_single_ne c req h
    · simp only [h, if_false, List.mem_cons, forall_eq_or_imp, ne_eq, not_false_eq_true,
        true_and]
      exact ih

/-- With pairwise distinct constants, the switch takes the one case that has
the path. -/
theorem dispatch_of_mem (cases : List ReadCase) (c : ReadCase) (req : Request)
    (hnodup : (cases.map ReadCase.path).Nodup) (hmem : c ∈ cases) (h : req.Path = c.path) :
    dispatch cases req = dispatch [c] req := by
  induction cases with
  | nil => simp at hmem
  | cons x xs ih =>
    simp only [List.map_cons, List.nodup_cons] at hnodup
    rw [dispatch_cons]
    rcases List.mem_cons.mp hmem with e | e
    · subst e
      simp [h]
    · have hx : req.Path ≠ x.path := by
        rw [h]
        intro e2
        exact hnodup.1 (by rw [← e2]; exact List.mem_map_of_mem _ e)
      simp only [hx, if_false]
      exact ih hnodup.2 e

theorem router_some (methods : List MethodInfo) (r : Request → RouteOutcome)
    (h : router methods = some r) :
    (methods.map fun m => m.Settings.URL).Nodup ∧
      r = dispatch (methods.map MethodInfo.readCase) := by
  unfold router at h
  cases hc : readCases (emitRouter methods) with
  | none => simp [hc] at h
  | some cases =>
    have hcases := read_emitRouter methods cases hc
    subst hcases
    simp only [hc, List.map_map] at h
    split_ifs at h with hn
    simp only [Option.some.injEq] at h
    exact ⟨hn, h.symm⟩

/-- C17. For a group with pairwise distinct URLs, the emitted dispatch routine
answers 404 "unknown method" exactly when the path of the request equals none
of the URLs; when the path equals the URL of an endpoint whose method is not
empty and differs from the method of the request, it answers 406 "bad method"
and calls no handler; in every other case it calls the handler of that
endpoint. -/
theorem router_dispatch (methods : List MethodInfo) (r : Request → RouteOutcome)
    (hread : router methods = some r)
    (hurls : (methods.map fun m => m.Settings.URL).Nodup)
    (req : Request) :
    (r req = RouteOutcome.respond ⟨StatusNotFound, "unknown method"⟩ ↔
      ∀ m ∈ methods, req.Path ≠ m.Settings.URL) ∧
    (∀ m ∈ methods, req.Path = m.Settings.URL →
      ((m.Settings.Method ≠ "" ∧ req.Method ≠ m.Settings.Method) →
        r req = RouteOutcome.respond ⟨StatusNotAcceptable, "bad method"⟩) ∧
      ((m.Settings.Method = "" ∨ req.Method = m.Settings.Method) →
        r req = RouteOutcome.handle m.Name)) := by
  obtain ⟨_, rfl⟩ := router_some methods r hread
  constructor
  · rw [dispatch_not_found_iff]
    simp only [List.mem_map, forall_exists_index, and_imp, forall_apply_eq_imp_iff₂]
    rfl
  · intro m hm hpath
    have hnodup : ((methods.map MethodInfo.readCase).map ReadCase.path).Nodup := by
      rw [List.map_map]
      exact hurls
    have hmem : m.readCase ∈ methods.map MethodInfo.readCase := List.mem_map_of_mem _ hm
    rw [dispatch_of_mem _ _ req hnodup hmem hpath]
    constructor
    · rintro ⟨hne, hdiff⟩
      simp [dispatch, MethodInfo.readCase, hpath, hne, hdiff]
    · rintro (he | he)
      · simp [dispatch, MethodInfo.readCase, hpath, he]
      · by_cases hne : m.Settings.Method = ""
        · simp [dispatch, MethodInfo.readCase, hpath, hne]
        · simp [dispatch, MethodInfo.readCase, hpath, hne, he]

/-- Witness of `router_dispatch`: a group with `/user/profile` for any method
and `/user/create` for POST. -/
theorem router_dispatch_witness :
    ∃ r, router [⟨"Profile", ⟨"/user/profile", "", false⟩⟩,
        ⟨"Create", ⟨"/user/create", "POST", true⟩⟩] = some r ∧
      r { form := [], Path := "/user/create", Method := "GET" } =
        RouteOutcome.respond ⟨StatusNotAcceptable, "bad method"⟩ ∧
      r { form := [], Path := "/user/create", Method := "POST" } = RouteOutcome.handle "Create" ∧
      r { form := [], Path := "/user/profile", Method := "GET" } = RouteOutcome.handle "Profile" ∧
      r { form := [], Path := "/user/profile/", Method := "GET" } =
        RouteOutcome.respond ⟨StatusNotFound, "unknown method"⟩ :=
  ⟨_, rfl,
    ((router_dispatch [⟨"Profile", ⟨"/user/profile", "", false⟩⟩,
        ⟨"Create", ⟨"/user/create", "POST", true⟩⟩] _ rfl (by decide)
      { form := [], Path := "/user/create", Method := "GET" }).2
      ⟨"Create", ⟨"/user/create", "POST", true⟩⟩ (by decide) rfl).1 ⟨by decide, by decide⟩,
    by decide, by decide, by decide⟩

/-- C18. The helper terminates on every error: with a bound of two calls or
more it returns, after at most one recursive call.  A structured error is
answered at once with its own status and the text of the error it wraps; any
other error is answered, after one recursive call, with status 500 and its own
text. -/
theorem respondError_spec (apiErrorText : Nat → GoError → String) (err : GoError)
    (fuel : Nat) (hfuel : 2 ≤ fuel) :
    ∃ r calls, respondError apiErrorText fuel err = some (r, calls) ∧ calls ≤ 1 ∧
      (∀ status e, err = GoError.api status e →
        r = ⟨status, e.Error apiErrorText⟩ ∧ calls = 0) ∧
      (∀ text, err = GoError.other text →
        r = ⟨StatusInternalServerError, (GoError.other text).Error apiErrorText⟩ ∧
          calls = 1) := by
  obtain ⟨n, rfl⟩ : ∃ n, fuel = n + 2 := ⟨fuel - 2, by omega⟩
  cases err with
  | api status e =>
    refine ⟨⟨status, e.Error apiErrorText⟩, 0, rfl, by omega, ?_, ?_⟩
    · intro s e2 h
      cases h
      exact ⟨rfl, rfl⟩
    · intro t h
      cases h
  | other text =>
    refine ⟨⟨StatusInternalServerError, text⟩, 1, rfl, le_refl _, ?_, ?_⟩
    · intro s e2 h
      cases h
    · intro t h
      cases h
      exact ⟨rfl, rfl⟩

/-- Witness of `respondError_spec`: the plain error `boom`, and the structured
error with status 404 that wraps `user not exist`. -/
theorem respondError_spec_witness :
    (∃ r calls, respondError (fun _ e => e.Error (fun _ _ => "")) 2 (GoError.other "boom")
        = some (r, calls) ∧ calls ≤ 1 ∧
      (∀ status e, GoError.other "boom" = GoError.api status e →
        r = ⟨status, e.Error (fun _ e => e.Error (fun _ _ => ""))⟩ ∧ calls = 0) ∧
      (∀ text, GoError.other "boom" = GoError.other text →
        r = ⟨StatusInternalServerError,
          (GoError.other text).Error (fun _ e => e.Error (fun _ _ => ""))⟩ ∧ calls = 1)) ∧
    respondError (fun _ e => e.Error (fun _ _ => "")) 2 (GoError.other "boom")
      = some (⟨500, "boom"⟩, 1) ∧
    respondError (fun _ e => e.Error (fun _ _ => "")) 2
        (GoError.api 404 (GoError.other "user not exist"))
      = some (⟨404, "user not exist"⟩, 0) :=
  ⟨respondError_spec (fun _ e => e.Error (fun _ _ => "")) (GoError.other "boom") 2 (le_refl 2),
    by decide, by decide⟩

/-! ## Facts about the texts Go reads -/

theorem plainChar_ne_backslash (c : Char) (h : plainChar c = true) : c ≠ Char.ofNat 92 := by
  intro hc
  subst hc
  exact absurd h (by decide)

/-- A text of characters that stand for themselves is read as it is written. -/
theorem unescape_plain (cs : List Char) (h : cs.all plainChar = true) : unescape cs = some cs := by
  induction cs with
  | nil => rfl
  | cons c rest ih =>
    simp only [List.all_cons, Bool.and_eq_true] at h
    cases rest with
    | nil => simp [unescape, h.1]
    | cons e rest2 =>
      have hne := plainChar_ne_backslash c h.1
      simp only [unescape, hne, if_false, h.1, if_true, ih h.2]

theorem goInterpreted_of_goStringLit (text v : String) (h : goStringLit text = some v) :
    goInterpreted text = some text := by
  unfold goStringLit at h
  split_ifs at h with hp
  simp [goInterpreted, unescape_plain _ hp]

/-- A format without `%` is printed as it is written. -/
theorem formatNoArgs_plain (cs : List Char) (h : '%' ∉ cs) : formatNoArgs cs = some cs := by
  induction cs with
  | nil => rfl
  | cons c rest ih =>
    simp only [List.mem_cons, not_or] at h
    have hc : c ≠ '%' := fun e => h.1 e.symm
    cases rest with
    | nil => simp [formatNoArgs, hc]
    | cons v rest2 => simp only [formatNoArgs, hc, if_false, ih h.2]

theorem mem_joinChars (c : Char) (sep : List Char) (l : List (List Char))
    (h : c ∈ strings.joinChars sep l) : c ∈ sep ∨ ∃ x ∈ l, c ∈ x := by
  induction l with
  | nil => simp [strings.joinChars] at h
  | cons a rest ih =>
    cases rest with
    | nil =>
      simp only [strings.joinChars] at h
      exact Or.inr ⟨a, by simp, h⟩
    | cons b rest2 =>
      simp only [strings.joinChars, List.mem_append] at h
      rcases h with (h | h) | h
      · exact Or.inr ⟨a, by simp, h⟩
      · exact Or.inl h
      · rcases ih h with h1 | ⟨x, hx, hcx⟩
        · exact Or.inl h1
        · exact Or.inr ⟨x, List.mem_cons_of_mem _ hx, hcx⟩

theorem percent_not_mem_Join (enum : List String) (h : ∀ lit ∈ enum, '%' ∉ lit.data) :
    '%' ∉ (strings.Join enum ", ").data := by
  intro hm
  simp only [strings.Join] at hm
  rcases mem_joinChars _ _ _ hm with h1 | ⟨x, hx, hcx⟩
  · exact absurd h1 (by decide)
  · simp only [List.mem_map] at hx
    obtain ⟨lit, hlit, rfl⟩ := hx
    exact h lit hlit hcx

/-- Without `%` in the joined literals the enum message is the text of the
template. -/
theorem enumText_plain (joined : String) (h : '%' ∉ joined.data) :
    enumText joined = " must be one of [" ++ joined ++ "]" := by
  unfold enumText enumTail
  cases hs : goStringLit (" must be one of [" ++ joined ++ "]") with
  | none => rfl
  | some text =>
    have := goStringLit_some _ _ hs
    subst this
    have hp : '%' ∉ (" must be one of [" ++ joined ++ "]").data := by
      simp only [String.data_append, List.mem_append, not_or]
      exact ⟨⟨by decide, h⟩, by decide⟩
    simp only [formatNoArgs_plain _ hp]

/-! ## The handler at one of its fields -/

theorem set_strs_other (ps : Params) (name g : String) (v : Value) (h : g ≠ name) :
    (ps.set name v).strs g = ps.strs g := by
  cases v <;> simp [Params.set, Params.setInt, Params.setStr, h]

theorem populated_append (ToLower : String → String) (req : Request) (a b : List Field)
    (ps : Params) :
    populated ToLower req (a ++ b) ps = populated ToLower req b (populated ToLower req a ps) := by
  induction a generalizing ps with
  | nil => rfl
  | cons f rest ih => exact ih _

/-- The populated record leaves the fields of other names as they were. -/
theorem populated_other (ToLower : String → String) (req : Request) (fields : List Field)
    (ps : Params) (name : String) (h : name ∉ fields.map Field.Name) :
    (populated ToLower req fields ps).ints name = ps.ints name ∧
      (populated ToLower req fields ps).strs name = ps.strs name := by
  induction fields generalizing ps with
  | nil => exact ⟨rfl, rfl⟩
  | cons f rest ih =>
    simp only [List.map_cons, List.mem_cons, not_or] at h
    simp only [populated]
    rw [(ih _ h.2).1, (ih _ h.2).2, set_ints_other _ _ _ _ h.1, set_strs_other _ _ _ _ h.1]
    exact ⟨rfl, rfl⟩

/-- In the populated record a field holds its value after extraction and
default substitution. -/
theorem populated_get (ToLower : String → String) (req : Request) (pre post : List Field)
    (f : Field) (ps : Params) (hnames : ((pre ++ f :: post).map Field.Name).Nodup) :
    (populated ToLower req (pre ++ f :: post) ps).get f.isInt f.Name =
      fieldValue f.isInt f.rule (req.FormValue (f.key ToLower)) := by
  have hpost : f.Name ∉ post.map Field.Name := by
    rw [List.map_append, List.map_cons] at hnames
    exact (List.nodup_cons.mp (List.Nodup.of_append_right hnames)).1
  rw [populated_append]
  simp only [populated]
  have h := populated_other ToLower req post
    ((populated ToLower req pre ps).set f.Name
      (fieldValue f.isInt f.rule (req.FormValue (f.key ToLower)))) f.Name hpost
  have hv := get_set_fieldValue (populated ToLower req pre ps) f.Name f.isInt f.rule
    (req.FormValue (f.key ToLower))
  refine Eq.trans ?_ hv
  simp only [Params.get, h.1, h.2]

/-- The gate of the handler lets a request with the right header through. -/
theorem run_gate (settings : GenSettings) (sa : List Step) (req : Request)
    (hauth : settings.Auth = true → req.xAuth = "100500")
    (ha : readAll (if settings.Auth then [Fragment.authGate] else []) = some sa)
    (rest : List Step) (ps : Params) :
    runSteps (sa ++ rest) req ps = runSteps rest req ps := by
  cases hA : settings.Auth with
  | false =>
    simp only [hA, Bool.false_eq_true, if_false, readAll_nil_iff] at ha
    subst ha
    rfl
  | true =>
    simp only [hA, if_true] at ha
    obtain ⟨step, hrun, rfl⟩ := (readAll_singleton _ _).mp ha
    simp only [Fragment.run, Option.some.injEq] at hrun
    subst hrun
    simp [runSteps_cons, hauth hA]

/-- The fragments of a list of fields, followed by other steps: the first
failure ends the run, and without one the other steps go on from the
populated record. -/
theorem run_fields_then (ToLower : String → String) (fields : List Field)
    (ss rest : List Step) (req : Request) (ps : Params)
    (hnames : (fields.map Field.Name).Nodup)
    (hzero : ∀ f ∈ fields, ps.ints f.Name = 0)
    (hread : readAll (fields.flatMap (emitField ToLower)) = some ss) :
    runSteps (ss ++ rest) req ps =
      match firstFailure ToLower fields req with
      | some m => Outcome.respond ⟨StatusBadRequest, m⟩
      | none => runSteps rest req (populated ToLower req fields ps) := by
  induction fields generalizing ss ps with
  | nil =>
    simp only [List.flatMap_nil, readAll_nil_iff] at hread
    subst hread
    rfl
  | cons f more ih =>
    rw [List.flatMap_cons] at hread
    obtain ⟨sf, sr, hf, hr, rfl⟩ := (readAll_append _ _ _).mp hread
    rw [List.append_assoc, run_field ToLower f sf (sr ++ rest) req ps (hzero f (by simp)) hf]
    have hnd : (more.map Field.Name).Nodup := (List.nodup_cons.mp (by simpa using hnames)).2
    have hnot : f.Name ∉ more.map Field.Name := (List.nodup_cons.mp (by simpa using hnames)).1
    simp only [firstFailure, List.flatMap_cons, List.head?_append]
    cases hfail : (fieldFailures ToLower req f).head? with
    | some m => rfl
    | none =>
      simp only [Option.or_none, Option.none_or]
      have := ih sr (ps.set f.Name (fieldValue f.isInt f.rule (req.FormValue (f.key ToLower))))
        hnd
        (by
          intro g hg
          have hne : g.Name ≠ f.Name := by
            intro e
            exact hnot (by rw [← e]; exact List.mem_map_of_mem _ hg)
          rw [set_ints_other _ _ _ _ hne]
          exact hzero g (by simp [hg]))
        hr
      rw [this]
      rfl

theorem firstFailure_append (ToLower : String → String) (pre post : List Field) (f : Field)
    (req : Request) (hpre : firstFailure ToLower pre req = none) :
    firstFailure ToLower (pre ++ f :: post) req =
      match (fieldFailures ToLower req f).head? with
      | some m => some m
      | none => firstFailure ToLower post req := by
  unfold firstFailure at hpre ⊢
  have hnil : pre.flatMap (fieldFailures ToLower req) = [] := by
    cases hl : pre.flatMap (fieldFailures ToLower req) with
    | nil => rfl
    | cons a l =>
      rw [hl] at hpre
      simp at hpre
  rw [List.flatMap_append, hnil, List.nil_append, List.flatMap_cons, List.head?_append]
  cases (fieldFailures ToLower req f).head? <;> simp

/-- The emitted handler on a request that passes the gate and the checks of
the fields before `f`: it answers with the first failing check of `f`, then
with the first failure of the fields after it, and otherwise calls the
business method with the populated record. -/
theorem handler_at_field (ToLower : String → String) (settings : GenSettings)
    (pre post : List Field) (f : Field) (h : Request → Outcome) (req : Request)
    (hread : handler (emitHandler ToLower settings (pre ++ f :: post)) = some h)
    (hnames : ((pre ++ f :: post).map Field.Name).Nodup)
    (hauth : settings.Auth = true → req.xAuth = "100500")
    (hpre : firstFailure ToLower pre req = none) :
    h req =
      match (fieldFailures ToLower req f).head? with
      | some m => Outcome.respond ⟨StatusBadRequest, m⟩
      | none =>
        match firstFailure ToLower post req with
        | some m => Outcome.respond ⟨StatusBadRequest, m⟩
        | none => Outcome.invoke (populated ToLower req (pre ++ f :: post) Params.zero) := by
  obtain ⟨steps, hs, _, rfl⟩ := handler_some _ _ hread
  unfold emitHandler at hs
  obtain ⟨sa, sb, ha, hb, rfl⟩ := (readAll_append _ _ _).mp hs
  simp only
  rw [run_gate settings sa req hauth ha,
    run_fields ToLower _ sb req Params.zero hnames (fun _ _ => rfl) hb,
    firstFailure_append ToLower pre post f req hpre]
  cases (fieldFailures ToLower req f).head? with
  | some m => rfl
  | none => rfl

/-- The text of the handler up to the form read of an `int` field, as a
handler of its own: on a request that passes the gate and the checks of the
fields before, it goes through, with the field at 0 for an empty form value
and at `n` for a form value that parses to `n`. -/
theorem handler_upto_formInt (ToLower : String → String) (settings : GenSettings)
    (pre post : List Field) (f : Field) (h : Request → Outcome) (req : Request)
    (hint : f.isInt = true)
    (hread : handler (emitHandler ToLower settings (pre ++ f :: post)) = some h)
    (hnames : ((pre ++ f :: post).map Field.Name).Nodup)
    (hauth : settings.Auth = true → req.xAuth = "100500")
    (hpre : firstFailure ToLower pre req = none) :
    ∃ rest h0,
      emitHandler ToLower settings (pre ++ f :: post) =
        (emitHandler ToLower settings pre ++ [Fragment.formInt (f.key ToLower) f.Name]) ++ rest ∧
      handler (emitHandler ToLower settings pre ++ [Fragment.formInt (f.key ToLower) f.Name])
        = some h0 ∧
      (req.FormValue (f.key ToLower) = "" →
        ∃ ps, h0 req = Outcome.invoke ps ∧ ps.ints f.Name = 0) ∧
      (∀ n, strconv.Atoi (req.FormValue (f.key ToLower)) = some n →
        ∃ ps, h0 req = Outcome.invoke ps ∧ ps.ints f.Name = n) := by
  obtain ⟨steps, hs, hnd, rfl⟩ := handler_some _ _ hread
  obtain ⟨tail, htail⟩ : ∃ tail, emitField ToLower f =
      Fragment.formInt (f.key ToLower) f.Name :: tail := by
    rw [emitField_eq]
    simp [hint]
  have hshape : emitHandler ToLower settings (pre ++ f :: post) =
      (emitHandler ToLower settings pre ++ [Fragment.formInt (f.key ToLower) f.Name]) ++
        (tail ++ post.flatMap (emitField ToLower)) := by
    simp [emitHandler, List.flatMap_append, htail]
  rw [hshape] at hs hnd
  obtain ⟨s0, s1, h0, _, rfl⟩ := (readAll_append _ _ _).mp hs
  have hnd0 : ((emitHandler ToLower settings pre ++
      [Fragment.formInt (f.key ToLower) f.Name]).filterMap Fragment.declared).Nodup := by
    rw [List.filterMap_append] at hnd
    exact List.Nodup.of_append_left hnd
  refine ⟨_, _, hshape, handler_of_readAll _ _ h0 hnd0, ?_⟩
  obtain ⟨sp, sf, hp, hf, rfl⟩ := (readAll_append _ _ _).mp h0
  obtain ⟨step, hrun, rfl⟩ := (readAll_singleton _ _).mp hf
  unfold emitHandler at hp
  obtain ⟨sa, sb, ha, hb, rfl⟩ := (readAll_append _ _ _).mp hp
  have hpn : (pre.map Field.Name).Nodup := by
    rw [List.map_append] at hnames
    exact List.Nodup.of_append_left hnames
  have hnot : f.Name ∉ pre.map Field.Name := by
    rw [List.map_append, List.map_cons] at hnames
    intro hmem
    exact (List.nodup_append.mp hnames).2.2 hmem (by simp)
  have hgo : runSteps (sa ++ sb ++ [step]) req Params.zero =
      runSteps [step] req (populated ToLower req pre Params.zero) := by
    rw [List.append_assoc, run_gate settings sa req hauth ha,
      run_fields_then ToLower pre sb [step] req Params.zero hpn (fun _ _ => rfl) hb, hpre]
  have hz : (populated ToLower req pre Params.zero).ints f.Name = 0 :=
    (populated_other ToLower req pre Params.zero f.Name hnot).1
  have hstep := run_formInt _ _ step hrun
  constructor
  · intro he
    refine ⟨populated ToLower req pre Params.zero, ?_, hz⟩
    show runSteps (sa ++ sb ++ [step]) req Params.zero = _
    rw [hgo, runSteps_cons, hstep]
    simp [he, runSteps_nil]
  · intro n hA
    have hne : req.FormValue (f.key ToLower) ≠ "" := by
      intro he
      rw [he] at hA
      simp [Atoi_empty] at hA
    refine ⟨(populated ToLower req pre Params.zero).setInt f.Name n, ?_,
      Params.setInt_ints _ _ _⟩
    show runSteps (sa ++ sb ++ [step]) req Params.zero = _
    rw [hgo, runSteps_cons, hstep]
    simp [hne, hA, runSteps_nil]

theorem readLits_map {α : Type} (read : String → Option α) (cases : List String) (vals : List α)
    (h : readLits read cases = some vals) : cases.map read = vals.map some := by
  induction cases generalizing vals with
  | nil =>
    simp only [readLits, Option.some.injEq] at h
    subst h
    rfl
  | cons c cs ih =>
    simp only [readLits] at h
    cases hc : read c with
    | none => simp [hc] at h
    | some v =>
      cases hr : readLits read cs with
      | none => simp [hc, hr] at h
      | some vs =>
        simp only [hc, hr, Option.some.injEq] at h
        subst h
        simp [hc, ih vs hr]

/-- An enum switch that the compiler accepts has cases of pairwise distinct
values. -/
theorem run_enumInt_nodup (name key joined : String) (cases : List String) (step : Step)
    (h : (Fragment.enumInt name cases key joined).run = some step) :
    (cases.map goIntLit).Nodup := by
  simp only [Fragment.run] at h
  cases hv : readLits goIntLit cases with
  | none => simp [hv] at h
  | some vals =>
    cases hm : goErrorf key with
    | none => simp [hv, hm] at h
    | some k =>
      cases ht : enumTail joined with
      | none => simp [hv, hm, ht] at h
      | some tail =>
        simp only [hv, hm, ht] at h
        split_ifs at h with hnd
        rw [readLits_map _ _ _ hv]
        exact hnd.map (Option.some_injective _)

theorem run_enumString_nodup (name key joined : String) (cases : List String) (step : Step)
    (h : (Fragment.enumString name cases key joined).run = some step) :
    cases.Nodup := by
  simp only [Fragment.run] at h
  cases hv : readLits goStringLit cases with
  | none => simp [hv] at h
  | some vals =>
    cases hm : goErrorf key with
    | none => simp [hv, hm] at h
    | some k =>
      cases ht : enumTail joined with
      | none => simp [hv, hm, ht] at h
      | some tail =>
        have := readLits_goStringLit _ _ hv
        subst this
        simp only [hv, hm, ht] at h
        split_ifs at h with hnd
        exact hnd

/-- C10. For an `int` field with request key `k` of an emitted handler, and a
request that passes the gate and the checks of the fields before it: when the
form value of `k` is not empty and `strconv.Atoi` refuses it, the handler
answers 400 with exactly "k must be int" and does nothing more; the text of
the handler up to and including the form read of the field goes through with
the field at 0 when the form value is empty, and with the field at `n` when
the form value parses to `n`; and when no check of the handler fails, the
business method is called with the field at that value, unless the value is 0
and the rule has a default to put in its place. -/
theorem formInt_behaviour (ToLower : String → String) (settings : GenSettings)
    (pre post : List Field) (f : Field) (h : Request → Outcome) (req : Request)
    (hint : f.fieldType = "int")
    (hread : handler (emitHandler ToLower settings (pre ++ f :: post)) = some h)
    (hnames : ((pre ++ f :: post).map Field.Name).Nodup)
    (hauth : settings.Auth = true → req.xAuth = "100500")
    (hpre : firstFailure ToLower pre req = none) :
    (req.FormValue (f.key ToLower) ≠ "" →
      strconv.Atoi (req.FormValue (f.key ToLower)) = none →
        h req = Outcome.respond ⟨StatusBadRequest, f.key ToLower ++ " must be int"⟩) ∧
    (∃ rest h0,
      emitHandler ToLower settings (pre ++ f :: post) =
        (emitHandler ToLower settings pre ++ [Fragment.formInt (f.key ToLower) f.Name]) ++ rest ∧
      handler (emitHandler ToLower settings pre ++ [Fragment.formInt (f.key ToLower) f.Name])
        = some h0 ∧
      (req.FormValue (f.key ToLower) = "" →
        ∃ ps, h0 req = Outcome.invoke ps ∧ ps.ints f.Name = 0) ∧
      (∀ n, strconv.Atoi (req.FormValue (f.key ToLower)) = some n →
        ∃ ps, h0 req = Outcome.invoke ps ∧ ps.ints f.Name = n)) ∧
    (∀ n, (req.FormValue (f.key ToLower) = "" ∧ n = 0 ∨
          strconv.Atoi (req.FormValue (f.key ToLower)) = some n) →
      (f.rule.hasDefault = false ∨ n ≠ 0) →
      firstFailure ToLower (pre ++ f :: post) req = none →
        ∃ ps, h req = Outcome.invoke ps ∧ ps.ints f.Name = n) := by
  have hisInt : f.isInt = true := by simp [Field.isInt, hint]
  refine ⟨?_, handler_upto_formInt ToLower settings pre post f h req hisInt hread hnames hauth
    hpre, ?_⟩
  · intro hne hA
    rw [handler_at_field ToLower settings pre post f h req hread hnames hauth hpre,
      head_fieldFailures]
    have : Check.failure (f.key ToLower) f.isInt f.rule (req.FormValue (f.key ToLower))
        Check.extract = some (f.key ToLower ++ " must be int") := by
      simp [Check.failure, hisInt, hne, hA]
    rw [this]
  · intro n hn hd hnone
    have hall := handler_at_field ToLower settings pre post f h req hread hnames hauth hpre
    rw [firstFailure_append ToLower pre post f req hpre] at hnone
    cases hff : (fieldFailures ToLower req f).head? with
    | some m => simp [hff] at hnone
    | none =>
      rw [hff] at hnone hall
      simp only at hnone hall
      rw [hnone] at hall
      refine ⟨_, hall, ?_⟩
      have hg := populated_get ToLower req pre post f Params.zero hnames
      have hex : extracted f.isInt (req.FormValue (f.key ToLower)) = Value.int n := by
        rcases hn with ⟨he, h0⟩ | hA
        · simp [extracted, hisInt, he, Atoi_empty, h0]
        · simp [extracted, hisInt, hA]
      have hval : fieldValue f.isInt f.rule (req.FormValue (f.key ToLower)) = Value.int n := by
        rw [fieldValue, hex]
        rcases hd with hd | hd
        · simp [substituted, hd]
        · simp [substituted, Value.isZero, hd]
      rw [hval, hisInt] at hg
      simpa [Params.get] using hg

/-- Witness of `formInt_behaviour`: the handler of `Login string` with the tag
`required` and `Age int` with the tag `min=0,max=128`, behind the gate; the
request `login=bob&age=foo` is answered with "age must be int", the request
`login=bob` reaches the business method with `Age = 0`, and the request
`login=bob&age=42` reaches it with `Age = 42`. -/
theorem formInt_behaviour_witness :
    ∃ h, handler (emitHandler strings.asciiToLower ⟨"/user/create", "POST", true⟩
        [⟨"Login", "string", "required"⟩, ⟨"Age", "int", "min=0,max=128"⟩]) = some h ∧
      h { form := [("login", "bob"), ("age", "foo")], xAuth := "100500" } =
        Outcome.respond ⟨StatusBadRequest, "age must be int"⟩ ∧
      (∃ ps, h { form := [("login", "bob")], xAuth := "100500" } = Outcome.invoke ps ∧
        ps.ints "Age" = 0) ∧
      (∃ ps, h { form := [("login", "bob"), ("age", "42")], xAuth := "100500" } =
        Outcome.invoke ps ∧ ps.ints "Age" = 42) :=
  ⟨_, rfl,
    (formInt_behaviour strings.asciiToLower ⟨"/user/create", "POST", true⟩
      [⟨"Login", "string", "required"⟩] [] ⟨"Age", "int", "min=0,max=128"⟩ _
      { form := [("login", "bob"), ("age", "foo")], xAuth := "100500" }
      (by decide) rfl (by decide) (fun _ => rfl) (by decide)).1 (by decide) (by decide),
    (formInt_behaviour strings.asciiToLower ⟨"/user/create", "POST", true⟩
      [⟨"Login", "string", "required"⟩] [] ⟨"Age", "int", "min=0,max=128"⟩ _
      { form := [("login", "bob")], xAuth := "100500" }
      (by decide) rfl (by decide) (fun _ => rfl) (by decide)).2.2 0
      (Or.inl ⟨by decide, rfl⟩) (Or.inl (by decide)) (by decide),
    (formInt_behaviour strings.asciiToLower ⟨"/user/create", "POST", true⟩
      [⟨"Login", "string", "required"⟩] [] ⟨"Age", "int", "min=0,max=128"⟩ _
      { form := [("login", "bob"), ("age", "42")], xAuth := "100500" }
      (by decide) rfl (by decide) (fun _ => rfl) (by decide)).2.2 42
      (Or.inr (by decide)) (Or.inl (by decide)) (by decide)⟩

/-- C11, as the code has it.  For a field whose rule has a default that the
Go compiler reads as it is written, `d` being the number the default is in
base 10 for an `int` field and the text of the default for a `string` field:
the substitution is the second fragment of the field, after the form read and
before every required, enum, min and max check; it replaces a value equal to
the zero value of the kind (0, the empty string) by `d` and leaves any other
value unchanged; so the value of the field after extraction and substitution
is `d` when the extracted value is zero, and the extracted value otherwise;
and an emitted handler, on a request that passes the gate and the checks of
the fields before, answers with the first failing check of the field, each
of them evaluated on that value, and otherwise goes on to the later fields and
calls the business method with the field at that value. -/
theorem default_substitution (ToLower : String → String) (f : Field) (d : Value)
    (hdef : f.rule.hasDefault = true)
    (hnum : f.isInt = true → ∃ n, d = Value.int n ∧
      strconv.Atoi f.rule.defaultVal = some n ∧ goIntLit f.rule.defaultVal = some n)
    (hstr : f.isInt = false →
      d = Value.str f.rule.defaultVal ∧
        goInterpreted f.rule.defaultVal = some f.rule.defaultVal) :
    (∃ checks, emitField ToLower f =
        (if f.isInt then Fragment.formInt (f.key ToLower) f.Name
          else Fragment.formString f.Name (f.key ToLower)) ::
        (if f.isInt then Fragment.defaultInt f.Name f.rule.defaultVal
          else Fragment.defaultString f.Name f.rule.defaultVal) :: checks ∧
      ∀ fr ∈ checks, fr.isCheck = true) ∧
    (∃ step, (if f.isInt then Fragment.defaultInt f.Name f.rule.defaultVal
        else Fragment.defaultString f.Name f.rule.defaultVal).run = some step ∧
      ∀ req ps, step req ps =
        Except.ok (if (ps.get f.isInt f.Name).isZero then ps.set f.Name d else ps)) ∧
    (∀ raw, fieldValue f.isInt f.rule raw =
      if (extracted f.isInt raw).isZero then d else extracted f.isInt raw) ∧
    (∀ (settings : GenSettings) (pre post : List Field) (h : Request → Outcome) (req : Request),
      handler (emitHandler ToLower settings (pre ++ f :: post)) = some h →
      ((pre ++ f :: post).map Field.Name).Nodup →
      (settings.Auth = true → req.xAuth = "100500") →
      firstFailure ToLower pre req = none →
        (h req =
          match (fieldFailures ToLower req f).head? with
          | some m => Outcome.respond ⟨StatusBadRequest, m⟩
          | none =>
            match firstFailure ToLower post req with
            | some m => Outcome.respond ⟨StatusBadRequest, m⟩
            | none => Outcome.invoke (populated ToLower req (pre ++ f :: post) Params.zero)) ∧
        (populated ToLower req (pre ++ f :: post) Params.zero).get f.isInt f.Name =
          fieldValue f.isInt f.rule (req.FormValue (f.key ToLower))) := by
  refine ⟨emitField_default_shape ToLower f hdef, ?_, ?_, ?_⟩
  · cases hint : f.isInt with
    | true =>
      obtain ⟨n, rfl, _, hlit⟩ := hnum hint
      refine ⟨fun _ params =>
        Except.ok (if params.ints f.Name = 0 then params.setInt f.Name n else params),
        by simp only [if_true, Fragment.run, hlit], ?_⟩
      intro req ps
      simp only [Params.get, if_true, Value.isZero, Params.set, beq_iff_eq]
    | false =>
      obtain ⟨rfl, hlit⟩ := hstr hint
      refine ⟨fun _ params =>
        Except.ok (if params.strs f.Name = "" then params.setStr f.Name f.rule.defaultVal
          else params),
        by simp only [Bool.false_eq_true, if_false, Fragment.run, hlit], ?_⟩
      intro req ps
      simp only [Params.get, Bool.false_eq_true, if_false, Value.isZero, Params.set, beq_iff_eq]
  · intro raw
    cases hint : f.isInt with
    | true =>
      obtain ⟨n, rfl, _, hlit⟩ := hnum hint
      simp only [fieldValue, substituted, hdef, Bool.true_and, extracted, if_true, hlit,
        Option.getD_some]
    | false =>
      obtain ⟨rfl, hlit⟩ := hstr hint
      simp only [fieldValue, substituted, hdef, Bool.true_and, extracted, Bool.false_eq_true,
        if_false, hlit, Option.getD_some]
  · intro settings pre post h req hread hnames hauth hpre
    exact ⟨handler_at_field ToLower settings pre post f h req hread hnames hauth hpre,
      populated_get ToLower req pre post f Params.zero hnames⟩

/-- Witness of `default_substitution`: the field `Status string` with the tag
`enum=user|admin,default=user`; a request without `status` passes the enum
check, which sees the default, and the business method is called with
`Status = "user"`. -/
theorem default_substitution_witness :
    emitField strings.asciiToLower ⟨"Status", "string", "enum=user|admin,default=user"⟩ =
      [Fragment.formString "Status" "status", Fragment.defaultString "Status" "user",
        Fragment.enumString "Status" ["user", "admin"] "status" "user, admin"] ∧
    (∃ step, (Fragment.defaultString "Status" "user").run = some step ∧
      ∀ req ps, step req ps =
        Except.ok (if (ps.get false "Status").isZero then ps.set "Status" (Value.str "user")
          else ps)) ∧
    ∃ h, handler (emitHandler strings.asciiToLower ⟨"/user/create", "", false⟩
        [⟨"Status", "string", "enum=user|admin,default=user"⟩]) = some h ∧
      ∃ ps, h { form := [] } = Outcome.invoke ps ∧ ps.get false "Status" = Value.str "user" :=
  ⟨by decide,
    (default_substitution strings.asciiToLower
      ⟨"Status", "string", "enum=user|admin,default=user"⟩ (Value.str "user") (by decide)
      (fun hc => absurd hc (by decide)) (fun _ => ⟨rfl, by decide⟩)).2.1,
    _, rfl, _,
    ((default_substitution strings.asciiToLower
      ⟨"Status", "string", "enum=user|admin,default=user"⟩ (Value.str "user") (by decide)
      (fun hc => absurd hc (by decide)) (fun _ => ⟨rfl, by decide⟩)).2.2.2
      ⟨"/user/create", "", false⟩ [] [] _ { form := [] } rfl (by decide)
      (fun hc => absurd hc (by decide)) rfl).1,
    ((default_substitution strings.asciiToLower
      ⟨"Status", "string", "enum=user|admin,default=user"⟩ (Value.str "user") (by decide)
      (fun hc => absurd hc (by decide)) (fun _ => ⟨rfl, by decide⟩)).2.2.2
      ⟨"/user/create", "", false⟩ [] [] _ { form := [] } rfl (by decide)
      (fun hc => absurd hc (by decide)) rfl).2⟩

/-- C11, counterexample.  The default of the tag `default=010` is `010`, the
number 10 in base 10; `main` pastes it as a Go literal, which is octal, and on
a request without `age` the handler calls the business method with `Age = 8`.
The default of the tag `default=C:\temp` is the text `C:`, a backslash and
`temp`; pasted between quotes, the backslash and the `t` are a tab, and on a
request without `dir` the business method is called with a `Dir` of seven
characters that is not the default. -/
theorem default_substitution_counterexample :
    ((TagParser.Parse { Raw := "default=010" }).1.hasDefault = true ∧
      (TagParser.Parse { Raw := "default=010" }).1.defaultVal = "010" ∧
      strconv.Atoi "010" = some 10 ∧
      ∃ h, handler (emitHandler strings.asciiToLower ⟨"/user/create", "", false⟩
          [⟨"Age", "int", "default=010"⟩]) = some h ∧
        ∃ ps, h { form := [] } = Outcome.invoke ps ∧ ps.ints "Age" = 8 ∧ ps.ints "Age" ≠ 10) ∧
    ((TagParser.Parse { Raw := "default=C:\\temp" }).1.hasDefault = true ∧
      (TagParser.Parse { Raw := "default=C:\\temp" }).1.defaultVal = "C:\\temp" ∧
      ∃ h, handler (emitHandler strings.asciiToLower ⟨"/user/create", "", false⟩
          [⟨"Dir", "string", "default=C:\\temp"⟩]) = some h ∧
        ∃ ps, h { form := [] } = Outcome.invoke ps ∧ ps.strs "Dir" = "C:\temp" ∧
          ps.strs "Dir" ≠ "C:\\temp") :=
  ⟨⟨by decide, by decide, by decide, _, rfl, _, rfl, by decide, by decide⟩,
    ⟨by decide, by decide, _, rfl, _, rfl, by decide, by decide⟩⟩

theorem goStringLit_iff (text : String) :
    goStringLit text = some text ↔ text.data.all plainChar = true := by
  unfold goStringLit
  split_ifs with h <;> simp [h]

theorem readLits_of_forall {α : Type} (read : String → Option α) (cases : List String)
    (h : ∀ lit ∈ cases, (read lit).isSome = true) :
    ∃ vals, readLits read cases = some vals := by
  induction cases with
  | nil => exact ⟨[], rfl⟩
  | cons c cs ih =>
    obtain ⟨vs, hvs⟩ := ih (fun lit hl => h lit (List.mem_cons_of_mem _ hl))
    obtain ⟨v, hv⟩ := Option.isSome_iff_exists.mp (h c (by simp))
    exact ⟨v :: vs, by simp [readLits, hv, hvs]⟩

/-- The enum message of plain literals without `%` is read as it is written. -/
theorem enumTail_plain (enum : List String)
    (hplain : ∀ lit ∈ enum, goStringLit lit = some lit)
    (hpct : ∀ lit ∈ enum, '%' ∉ lit.data) :
    enumTail (strings.Join enum ", ") =
      some (" must be one of [" ++ strings.Join enum ", " ++ "]") := by
  have hall : (" must be one of [" ++ strings.Join enum ", " ++ "]").data.all plainChar
      = true := by
    simp only [String.data_append, List.all_append, Bool.and_eq_true]
    refine ⟨⟨by decide, ?_⟩, by decide⟩
    rw [List.all_eq_true]
    intro c hc
    simp only [strings.Join] at hc
    rcases mem_joinChars _ _ _ hc with h1 | ⟨x, hx, hcx⟩
    · have : c = ',' ∨ c = ' ' := by simpa using h1
      rcases this with rfl | rfl <;> decide
    · simp only [List.mem_map] at hx
      obtain ⟨lit, hlit, rfl⟩ := hx
      have := (goStringLit_iff lit).mp (hplain lit hlit)
      rw [List.all_eq_true] at this
      exact this c hcx
  have hp : '%' ∉ (" must be one of [" ++ strings.Join enum ", " ++ "]").data := by
    simp only [String.data_append, List.mem_append, not_or]
    exact ⟨⟨by decide, percent_not_mem_Join _ hpct⟩, by decide⟩
  unfold enumTail
  rw [(goStringLit_iff _).mpr hall]
  simp only [formatNoArgs_plain _ hp]

/-- An enum switch of plain, pairwise distinct literals and a plain key is
one the Go compiler accepts. -/
theorem run_enum_some (name key : String) (enum : List String) (isInt : Bool)
    (hkey : goErrorf key = some key)
    (hplain : ∀ lit ∈ enum, goStringLit lit = some lit)
    (hpct : ∀ lit ∈ enum, '%' ∉ lit.data)
    (hnd : if isInt then (enum.map goIntLit).Nodup ∧ ∀ lit ∈ enum, (goIntLit lit).isSome = true
      else enum.Nodup) :
    ∃ step, (if isInt then Fragment.enumInt name enum key (strings.Join enum ", ")
      else Fragment.enumString name enum key (strings.Join enum ", ")).run = some step := by
  have htail := enumTail_plain enum hplain hpct
  cases isInt with
  | true =>
    simp only [if_true] at hnd ⊢
    obtain ⟨vals, hvals⟩ := readLits_of_forall goIntLit enum hnd.2
    have hv : vals.Nodup := by
      have := hnd.1
      rw [readLits_map _ _ _ hvals] at this
      exact List.Nodup.of_map _ this
    refine Option.isSome_iff_exists.mp ?_
    simp only [Fragment.run, hvals, hkey, htail, hv, if_true, Option.isSome_some]
  | false =>
    simp only [Bool.false_eq_true, if_false] at hnd ⊢
    obtain ⟨vals, hvals⟩ := readLits_of_forall goStringLit enum
      (fun lit hl => by rw [hplain lit hl]; rfl)
    have := readLits_goStringLit _ _ hvals
    subst this
    refine Option.isSome_iff_exists.mp ?_
    simp only [Fragment.run, hvals, hkey, htail, hnd, if_true, Option.isSome_some]

/-- The enum list `a`, `a` gives a switch with two equal cases, which the Go
compiler refuses: there is no handler. -/
theorem handler_refuses_duplicate_case :
    handler (emitHandler strings.asciiToLower ⟨"/user/create", "", false⟩
      [⟨"Role", "string", "enum=a|a"⟩]) = none := rfl

/-- The key `x-y` of an `int` field gives the variable `x-yStr`, which is no
identifier: there is no handler. -/
theorem handler_refuses_key_of_int :
    handler (emitHandler strings.asciiToLower ⟨"/user/create", "", false⟩
      [⟨"Age", "int", "paramname=x-y"⟩]) = none := rfl

/-- Two `int` fields with the key `x` declare the variable `xStr` twice: there
is no handler. -/
theorem handler_refuses_shared_key :
    handler (emitHandler strings.asciiToLower ⟨"/user/create", "", false⟩
      [⟨"Low", "int", "paramname=x"⟩, ⟨"High", "int", "paramname=x"⟩]) = none := rfl

/-- C13, as the code has it.  For a field with request key `k` whose rule has
an enum list that the handler text reproduces as it is written (key and
literals of characters that stand for themselves, without `%`; pairwise
distinct literals; for an `int` field, literals that the Go compiler reads as
the numbers they are in base 10): the enum fragment is part of the handler,
and the Go compiler accepts it; it passes exactly when the current value of
the field equals one of the literals, as a number for an `int` field and as a
string otherwise, and it answers 400 with exactly
"k must be one of [v1, v2, ..., vn]", the literals joined by ", " in their
order, when it does not; and an emitted handler, on a request that passes the
gate, the checks of the fields before, and the extract and required checks of
the field, answers 400 with that message when the value of the field is none
of the literals, and goes on to the min and max checks of the field and to the
later fields when it is one. -/
theorem enum_check (ToLower : String → String) (f : Field)
    (henum : f.rule.hasEnum = true)
    (hkey : goErrorf (f.key ToLower) = some (f.key ToLower))
    (hplain : ∀ lit ∈ f.rule.enum, goStringLit lit = some lit)
    (hpct : ∀ lit ∈ f.rule.enum, '%' ∉ lit.data)
    (hnum : f.isInt = true → (f.rule.enum.map strconv.Atoi).Nodup ∧
      ∀ lit ∈ f.rule.enum, (strconv.Atoi lit).isSome = true ∧ goIntLit lit = strconv.Atoi lit)
    (hstr : f.isInt = false → f.rule.enum.Nodup) :
    (if f.isInt then
        Fragment.enumInt f.Name f.rule.enum (f.key ToLower) (strings.Join f.rule.enum ", ")
      else Fragment.enumString f.Name f.rule.enum (f.key ToLower)
        (strings.Join f.rule.enum ", ")) ∈ emitField ToLower f ∧
    (∃ step,
      (if f.isInt then
          Fragment.enumInt f.Name f.rule.enum (f.key ToLower) (strings.Join f.rule.enum ", ")
        else Fragment.enumString f.Name f.rule.enum (f.key ToLower)
          (strings.Join f.rule.enum ", ")).run = some step ∧
      (f.isInt = true → ∀ req ps,
        ((∃ lit ∈ f.rule.enum, strconv.Atoi lit = some (ps.ints f.Name)) →
          step req ps = Except.ok ps) ∧
        ((¬ ∃ lit ∈ f.rule.enum, strconv.Atoi lit = some (ps.ints f.Name)) →
          step req ps = Except.error ⟨StatusBadRequest,
            f.key ToLower ++ " must be one of [" ++ strings.Join f.rule.enum ", " ++ "]"⟩)) ∧
      (f.isInt = false → ∀ req ps,
        (ps.strs f.Name ∈ f.rule.enum → step req ps = Except.ok ps) ∧
        (ps.strs f.Name ∉ f.rule.enum →
          step req ps = Except.error ⟨StatusBadRequest,
            f.key ToLower ++ " must be one of [" ++ strings.Join f.rule.enum ", " ++ "]"⟩))) ∧
    (f.isInt = true → ∀ n, inEnum (Value.int n) f.rule.enum = true ↔
      ∃ lit ∈ f.rule.enum, strconv.Atoi lit = some n) ∧
    (∀ s, inEnum (Value.str s) f.rule.enum = true ↔ s ∈ f.rule.enum) ∧
    (∀ (settings : GenSettings) (pre post : List Field) (h : Request → Outcome) (req : Request),
      handler (emitHandler ToLower settings (pre ++ f :: post)) = some h →
      ((pre ++ f :: post).map Field.Name).Nodup →
      (settings.Auth = true → req.xAuth = "100500") →
      firstFailure ToLower pre req = none →
      Check.failure (f.key ToLower) f.isInt f.rule (req.FormValue (f.key ToLower))
        Check.extract = none →
      Check.failure (f.key ToLower) f.isInt f.rule (req.FormValue (f.key ToLower))
        Check.required = none →
        (inEnum (fieldValue f.isInt f.rule (req.FormValue (f.key ToLower))) f.rule.enum = false →
          h req = Outcome.respond ⟨StatusBadRequest,
            f.key ToLower ++ " must be one of [" ++ strings.Join f.rule.enum ", " ++ "]"⟩) ∧
        (inEnum (fieldValue f.isInt f.rule (req.FormValue (f.key ToLower))) f.rule.enum = true →
          h req =
            match Check.failure (f.key ToLower) f.isInt f.rule (req.FormValue (f.key ToLower))
                Check.min with
            | some m => Outcome.respond ⟨StatusBadRequest, m⟩
            | none =>
              match Check.failure (f.key ToLower) f.isInt f.rule
                  (req.FormValue (f.key ToLower)) Check.max with
              | some m => Outcome.respond ⟨StatusBadRequest, m⟩
              | none =>
                match firstFailure ToLower post req with
                | some m => Outcome.respond ⟨StatusBadRequest, m⟩
                | none =>
                  Outcome.invoke (populated ToLower req (pre ++ f :: post) Params.zero))) := by
  have htext : enumText (strings.Join f.rule.enum ", ") =
      " must be one of [" ++ strings.Join f.rule.enum ", " ++ "]" :=
    enumText_plain _ (percent_not_mem_Join _ hpct)
  have hmsg : f.key ToLower ++ enumText (strings.Join f.rule.enum ", ") =
      f.key ToLower ++ " must be one of [" ++ strings.Join f.rule.enum ", " ++ "]" := by
    rw [htext]
    simp only [String.append_assoc]
  have hany : f.isInt = true → ∀ n,
      (f.rule.enum.any fun lit => goIntLit lit == some n) = true ↔
        ∃ lit ∈ f.rule.enum, strconv.Atoi lit = some n := by
    intro hint n
    simp only [List.any_eq_true, beq_iff_eq]
    constructor
    · rintro ⟨lit, hl, hv⟩
      exact ⟨lit, hl, by rw [← ((hnum hint).2 lit hl).2]; exact hv⟩
    · rintro ⟨lit, hl, hv⟩
      exact ⟨lit, hl, by rw [((hnum hint).2 lit hl).2]; exact hv⟩
  have hsome : ∃ step,
      (if f.isInt then
          Fragment.enumInt f.Name f.rule.enum (f.key ToLower) (strings.Join f.rule.enum ", ")
        else Fragment.enumString f.Name f.rule.enum (f.key ToLower)
          (strings.Join f.rule.enum ", ")).run = some step := by
    apply run_enum_some f.Name (f.key ToLower) f.rule.enum f.isInt hkey hplain hpct
    cases hint : f.isInt with
    | true =>
      simp only [if_true]
      have hn := hnum hint
      refine ⟨?_, fun lit hl => ?_⟩
      · rw [List.map_congr_left (fun lit hl => (hn.2 lit hl).2)]
        exact hn.1
      · rw [(hn.2 lit hl).2]
        exact (hn.2 lit hl).1
    | false =>
      simp only [Bool.false_eq_true, if_false]
      exact hstr hint
  refine ⟨?_, ?_, hany, ?_, ?_⟩
  · rw [emitField_eq]
    cases f.isInt <;> simp [henum]
  · obtain ⟨step, hrun⟩ := hsome
    refine ⟨step, hrun, ?_, ?_⟩
    · intro hint req ps
      rw [hint] at hrun
      simp only [if_true] at hrun
      rw [run_enumInt _ _ _ _ step hrun, hmsg]
      constructor
      · intro hmem
        have : (f.rule.enum.any fun lit => goIntLit lit == some (ps.ints f.Name)) = true :=
          (hany hint _).mpr hmem
        simp only [this, Bool.not_true, rejectIf_false]
      · intro hmem
        have : (f.rule.enum.any fun lit => goIntLit lit == some (ps.ints f.Name)) = false := by
          rw [← Bool.not_eq_true]
          exact fun hc => hmem ((hany hint _).mp hc)
        simp only [this, Bool.not_false, rejectIf_true]
    · intro hint req ps
      rw [hint] at hrun
      simp only [Bool.false_eq_true, if_false] at hrun
      rw [run_enumString _ _ _ _ step hrun, hmsg]
      constructor
      · intro hmem
        have : f.rule.enum.contains (ps.strs f.Name) = true := by simpa using hmem
        simp only [this, Bool.not_true, rejectIf_false]
      · intro hmem
        have : f.rule.enum.contains (ps.strs f.Name) = false := by simpa using hmem
        simp only [this, Bool.not_false, rejectIf_true]
  · intro s
    simp [inEnum]
  · intro settings pre post h req hread hnames hauth hpre hext hreq
    have hall := handler_at_field ToLower settings pre post f h req hread hnames hauth hpre
    rw [head_fieldFailures, hext, hreq] at hall
    simp only at hall
    constructor
    · intro hin
      have : Check.failure (f.key ToLower) f.isInt f.rule (req.FormValue (f.key ToLower))
          Check.enum = some (f.key ToLower ++ " must be one of [" ++
            strings.Join f.rule.enum ", " ++ "]") := by
        simp only [Check.failure, henum, hin, Bool.not_false, Bool.and_self, if_true, hmsg]
      rw [this] at hall
      exact hall
    · intro hin
      have : Check.failure (f.key ToLower) f.isInt f.rule (req.FormValue (f.key ToLower))
          Check.enum = none := by
        simp [Check.failure, hin]
      rw [this] at hall
      simp only at hall
      rw [hall]
      cases Check.failure (f.key ToLower) f.isInt f.rule (req.FormValue (f.key ToLower))
          Check.min with
      | some m => rfl
      | none =>
        cases Check.failure (f.key ToLower) f.isInt f.rule (req.FormValue (f.key ToLower))
            Check.max with
        | some m => rfl
        | none => rfl

/-- Witness of `enum_check`: the field `Status string` with the tag
`enum=a|b`, where the value `c` is answered with
"status must be one of [a, b]" and the request `status=b` reaches the business
method; and the field `Level int` with the tag `enum=1|2|3`, where the request
`level=5` is answered with "level must be one of [1, 2, 3]". -/
theorem enum_check_witness :
    (∃ step, (Fragment.enumString "Status" ["a", "b"] "status" "a, b").run = some step ∧
      step { form := [] } (Params.zero.setStr "Status" "c") =
        Except.error ⟨StatusBadRequest, "status must be one of [a, b]"⟩) ∧
    (∃ h, handler (emitHandler strings.asciiToLower ⟨"/user/create", "", false⟩
        [⟨"Status", "string", "enum=a|b"⟩]) = some h ∧
      h { form := [("status", "c")] } =
        Outcome.respond ⟨StatusBadRequest, "status must be one of [a, b]"⟩ ∧
      ∃ ps, h { form := [("status", "b")] } = Outcome.invoke ps) ∧
    ∃ h, handler (emitHandler strings.asciiToLower ⟨"/user/create", "", false⟩
        [⟨"Level", "int", "enum=1|2|3"⟩]) = some h ∧
      h { form := [("level", "5")] } =
        Outcome.respond ⟨StatusBadRequest, "level must be one of [1, 2, 3]"⟩ :=
  ⟨match (enum_check strings.asciiToLower ⟨"Status", "string", "enum=a|b"⟩ (by decide)
        (by decide) (by decide) (by decide) (fun hc => absurd hc (by decide))
        (fun _ => by decide)).2.1 with
    | ⟨step, hrun, _, hstr⟩ =>
      ⟨step, hrun,
        ((hstr (by decide)) { form := [] } (Params.zero.setStr "Status" "c")).2 (by decide)⟩,
    ⟨_, rfl,
      ((enum_check strings.asciiToLower ⟨"Status", "string", "enum=a|b"⟩ (by decide)
        (by decide) (by decide) (by decide) (fun hc => absurd hc (by decide))
        (fun _ => by decide)).2.2.2.2
        ⟨"/user/create", "", false⟩ [] [] _ { form := [("status", "c")] }
          rfl (by decide) (fun hc => absurd hc (by decide)) rfl (by decide) (by decide)).1
        (by decide),
      _,
      ((enum_check strings.asciiToLower ⟨"Status", "string", "enum=a|b"⟩ (by decide)
        (by decide) (by decide) (by decide) (fun hc => absurd hc (by decide))
        (fun _ => by decide)).2.2.2.2
        ⟨"/user/create", "", false⟩ [] [] _ { form := [("status", "b")] }
          rfl (by decide) (fun hc => absurd hc (by decide)) rfl (by decide) (by decide)).2
        (by decide)⟩,
    ⟨_, rfl,
      ((enum_check strings.asciiToLower ⟨"Level", "int", "enum=1|2|3"⟩ (by decide)
        (by decide) (by decide) (by decide) (fun _ => by decide)
        (fun hc => absurd hc (by decide))).2.2.2.2
        ⟨"/user/create", "", false⟩ [] [] _ { form := [("level", "5")] }
          rfl (by decide) (fun hc => absurd hc (by decide)) rfl (by decide) (by decide)).1
        (by decide)⟩⟩

/-- C13, counterexample.  The enum list of the tag `enum=50%|100%` is
`50%`, `100%`.  `main` pastes the joined literals into the format of
`fmt.Errorf`, which reads `%,` and `%]` as verbs without operand: the request
`discount=10` is answered with 400 and a message that is not
"discount must be one of [50%, 100%]".  The enum list of the tag `enum=010`
on an `int` field is the literal `010`, the number 10 in base 10; `main`
pastes it as a case of the switch, where it is octal: the value 10 is answered
with 400 and the value 8 passes. -/
theorem enum_check_counterexample :
    ((TagParser.Parse { Raw := "enum=50%|100%" }).1.hasEnum = true ∧
      (TagParser.Parse { Raw := "enum=50%|100%" }).1.enum = ["50%", "100%"] ∧
      ∃ h, handler (emitHandler strings.asciiToLower ⟨"/user/create", "", false⟩
          [⟨"Discount", "string", "enum=50%|100%"⟩]) = some h ∧
        ∃ r, h { form := [("discount", "10")] } = Outcome.respond r ∧
          r.status = StatusBadRequest ∧
          r.error = "discount must be one of [50%!,(MISSING) 100%!](MISSING)" ∧
          r.error ≠ "discount must be one of [50%, 100%]") ∧
    ((TagParser.Parse { Raw := "enum=010" }).1.enum = ["010"] ∧
      strconv.Atoi "010" = some 10 ∧
      ∃ h, handler (emitHandler strings.asciiToLower ⟨"/user/create", "", false⟩
          [⟨"Level", "int", "enum=010"⟩]) = some h ∧
        h { form := [("level", "10")] } =
          Outcome.respond ⟨StatusBadRequest, "level must be one of [010]"⟩ ∧
        ∃ ps, h { form := [("level", "8")] } = Outcome.invoke ps ∧ ps.ints "Level" = 8) :=
  ⟨⟨by decide, by decide, _, rfl, _, rfl, rfl, by decide, by decide⟩,
    ⟨by decide, by decide, _, rfl, rfl, _, rfl, rfl⟩⟩

end Codegen
